import Mathlib

/-!
# godbadmin: credential cipher and configuration store

A shallow embedding of `config/crypto.go` and `config/config.go`.

* Go strings and byte slices are lists of bytes.
* The process-wide `settings` singleton and `crypto/rand.Reader` are threaded
  explicitly as a `World`.
* `encoding/hex` and `encoding/base64` (Go standard library) are modelled
  concretely; AES-GCM (`crypto/aes`, `crypto/cipher`) is a parameter.
* `encoding/json` is modelled by the values that a settings file gives, key
  by key, and by what the text written for a string denotes.
* `db/db.go` and the handler `ExportData` follow, with the database server
  as a parameter.
-/

namespace Godbadmin

/-! ## Bytes and strings -/

/-- A Go `byte`. -/
abbrev Byte := Fin 256

/-- A Go `string` or `[]byte`: a sequence of bytes. -/
abbrev Bytes := List Byte

/-- The conversion `byte(n)`: truncation to eight bits. -/
def byte (n : Nat) : Byte := ⟨n % 256, Nat.mod_lt n (by decide)⟩

/-- The bytes of an ASCII string literal. -/
def ascii (s : String) : Bytes := s.data.map (fun c => byte c.toNat)

/-! ## encoding/hex -/

/-- The table `hextable` of `encoding/hex`. -/
def hextable : Bytes := ascii "0123456789abcdef"

/-- `hex.EncodeToString`: two lower-case digits per byte, high nibble first. -/
def hexEncodeToString : Bytes → Bytes
  | [] => []
  | b :: rest =>
    hextable.getD (b.val / 16) 0 :: hextable.getD (b.val % 16) 0 :: hexEncodeToString rest

/-- The value of a hexadecimal digit (either case), `none` for any other byte. -/
def fromHexChar (c : Byte) : Option Nat :=
  if 48 ≤ c.val ∧ c.val ≤ 57 then some (c.val - 48)
  else if 97 ≤ c.val ∧ c.val ≤ 102 then some (c.val - 97 + 10)
  else if 65 ≤ c.val ∧ c.val ≤ 70 then some (c.val - 65 + 10)
  else none

/-- `hex.DecodeString`: `none` stands for `InvalidByteError` or `ErrLength`. -/
def hexDecodeString : Bytes → Option Bytes
  | [] => some []
  | [_] => none
  | p :: q :: rest =>
    match fromHexChar p, fromHexChar q with
    | some a, some b =>
      match hexDecodeString rest with
      | some out => some (byte (a * 16 + b) :: out)
      | none => none
    | _, _ => none

/-! ## encoding/base64, `StdEncoding` (padded, not strict) -/

/-- The alphabet `encodeStd`. -/
def encodeStd : Bytes :=
  ascii "ABCDEFGHIJKLMNOPQRSTUVWXYZabcdefghijklmnopqrstuvwxyz0123456789+/"

/-- The padding character `=`. -/
def padChar : Byte := 61

/-- The lookup `enc.encode[i]`. -/
def b64Char (i : Nat) : Byte := encodeStd.getD i 0

/-- The lookup `enc.decodeMap[c]`; `none` is the table's `0xff`. -/
def decodeMap (c : Byte) : Option Nat :=
  if encodeStd.indexOf c < 64 then some (encodeStd.indexOf c) else none

/-- `StdEncoding.EncodeToString`. A 24-bit group `a<<16 | b<<8 | c` is
written `a * 65536 + b * 256 + c` (the fields do not overlap). -/
def b64Encode : Bytes → Bytes
  | [] => []
  | [a] =>
    let v := a.val * 65536
    [b64Char (v / 262144 % 64), b64Char (v / 4096 % 64), padChar, padChar]
  | [a, b] =>
    let v := a.val * 65536 + b.val * 256
    [b64Char (v / 262144 % 64), b64Char (v / 4096 % 64), b64Char (v / 64 % 64), padChar]
  | a :: b :: c :: rest =>
    let v := a.val * 65536 + b.val * 256 + c.val
    b64Char (v / 262144 % 64) :: b64Char (v / 4096 % 64) :: b64Char (v / 64 % 64)
      :: b64Char (v % 64) :: b64Encode rest

/-- Is the byte `\n` or `\r`: the decoder skips both wherever they stand. -/
def isNewline (c : Byte) : Bool := c.val = 10 || c.val = 13

/-- The quanta of `Encoding.decodeQuantum` on input without line breaks.
Four alphabet characters give three bytes; a last quantum of two characters
and `==`, or of three characters and `=`, gives one or two bytes, and nothing
may follow it. The encoding is not strict: the low bits of the last character
before the padding are dropped without a check. -/
def decodeQuanta : Bytes → Option Bytes
  | [] => some []
  | [_] => none
  | [_, _] => none
  | [_, _, _] => none
  | c0 :: c1 :: c2 :: c3 :: rest =>
    match decodeMap c0, decodeMap c1 with
    | some d0, some d1 =>
      match decodeMap c2, decodeMap c3 with
      | some d2, some d3 =>
        let v := d0 * 262144 + d1 * 4096 + d2 * 64 + d3
        match decodeQuanta rest with
        | some out => some (byte (v / 65536) :: byte (v / 256) :: byte v :: out)
        | none => none
      | some d2, none =>
        let v := d0 * 262144 + d1 * 4096 + d2 * 64
        if c3 = padChar ∧ rest = [] then some [byte (v / 65536), byte (v / 256)] else none
      | none, _ =>
        let v := d0 * 262144 + d1 * 4096
        if c2 = padChar ∧ c3 = padChar ∧ rest = [] then some [byte (v / 65536)] else none
    | _, _ => none

/-- `StdEncoding.DecodeString`; `none` stands for `CorruptInputError`. -/
def b64Decode (s : Bytes) : Option Bytes :=
  decodeQuanta (s.filter (fun c => !isNewline c))

/-! ## config/config.go: the data model -/

/-- The struct `ServerConfig`. -/
structure ServerConfig where
  ID : Bytes
  Name : Bytes
  DBType : Bytes
  Host : Bytes
  Port : Int
  User : Bytes
  Password : Bytes
  Database : Bytes
  deriving DecidableEq

/-- The struct `Settings` (the mutex apart). -/
structure Settings where
  Servers : List ServerConfig
  EncryptionKey : Bytes
  deriving DecidableEq

/-- The outcomes of the successive reads of `crypto/rand.Reader`: `none` is a
read that fails, `some bs` one that delivers the bytes `bs`. A read past the
end of the list fails. -/
abbrev Entropy := List (Option Bytes)

/-- The state of the process: the `settings` singleton behind `GetSettings()`
and the reads of the random source still to come. -/
structure World where
  settings : Settings
  rand : Entropy

/-- The errors of the package. -/
inductive Err where
  | keySize
  | randRead
  | corruptInput
  | ciphertextTooShort
  | openFailed
  | readFile
  | unmarshal
  | writeFile
  deriving DecidableEq

/-- AES-GCM as the package uses it: `Seal key nonce plaintext` is the sealed
box (ciphertext and tag, without the nonce) and `Open key nonce box` the
plaintext, or `none` when authentication fails. -/
structure AEAD where
  Seal : Bytes → Bytes → Bytes → Bytes
  Open : Bytes → Bytes → Bytes → Option Bytes

/-- `io.ReadFull(rand.Reader, buf)` for a buffer of `n` bytes. -/
def readFull (r : Entropy) (n : Nat) : Option Bytes × Entropy :=
  match r with
  | [] => (none, [])
  | none :: rest => (none, rest)
  | some bs :: rest => (some ((bs ++ List.replicate n 0).take n), rest)

/-- The builtin `copy(dst, src)`: the new content of `dst`. -/
def copy (dst src : Bytes) : Bytes := src.take dst.length ++ dst.drop src.length

/-- `aes.NewCipher(key)` succeeds for keys of 16, 24 or 32 bytes. -/
def aesNewCipher (key : Bytes) : Bool :=
  key.length = 16 || key.length = 24 || key.length = 32

/-- `gcm.NonceSize()`. -/
def nonceSize : Nat := 12

/-! ## config/crypto.go -/

/-- The literal `fallback` of `GetEncryptionKey`. -/
def fallback : Bytes := ascii "godbadmin-fallback-key-32bytes!"

/-- The fallback branch: `key := make([]byte, 32)`, `copy(key, []byte(fallback))`,
`return key[:32]`. -/
def fallbackKey : Bytes := (copy (List.replicate 32 0) fallback).take 32

/-- The test `settings.EncryptionKey != ""` with a hex decoding of 32 bytes. -/
def storedKey (s : Settings) : Option Bytes :=
  if s.EncryptionKey ≠ [] then
    match hexDecodeString s.EncryptionKey with
    | some key => if key.length = 32 then some key else none
    | none => none
  else none

/-- The function `GetEncryptionKey`: the stored key when it is valid; else 32
fresh random bytes, stored in the settings as hex; else, when the random read
fails, the fallback literal copied into a zeroed 32-byte buffer, which is
not stored. -/
def GetEncryptionKey (w : World) : Bytes × World :=
  match storedKey w.settings with
  | some key => (key, w)
  | none =>
    match readFull w.rand 32 with
    | (none, r) => (fallbackKey, { w with rand := r })
    | (some key, r) =>
      (key, { settings := { w.settings with EncryptionKey := hexEncodeToString key },
              rand := r })

/-- Lines 59-60 of `Encrypt`: `gcm.Seal(nonce, nonce, plaintext, nil)` appends
the sealed box to the nonce, and the whole is base64 encoded. -/
def sealToken (A : AEAD) (key nonce plaintext : Bytes) : Bytes :=
  b64Encode (nonce ++ A.Seal key nonce plaintext)

/-- The function `Encrypt`. -/
def Encrypt (A : AEAD) (plaintext : Bytes) (w : World) : Except Err Bytes × World :=
  match GetEncryptionKey w with
  | (key, w1) =>
    if aesNewCipher key then
      match readFull w1.rand nonceSize with
      | (none, r) => (.error .randRead, { w1 with rand := r })
      | (some nonce, r) => (.ok (sealToken A key nonce plaintext), { w1 with rand := r })
    else (.error .keySize, w1)

/-- Lines 67-93 of `Decrypt`: what the function does once it holds the key. -/
def openToken (A : AEAD) (key ciphertext : Bytes) : Except Err Bytes :=
  match b64Decode ciphertext with
  | none => .error .corruptInput
  | some data =>
    if aesNewCipher key then
      if data.length < nonceSize then .error .ciphertextTooShort
      else
        match A.Open key (data.take nonceSize) (data.drop nonceSize) with
        | none => .error .openFailed
        | some plaintext => .ok plaintext
    else .error .keySize

/-- The function `Decrypt`. The key is read (and possibly generated) before
the input is looked at. -/
def Decrypt (A : AEAD) (ciphertext : Bytes) (w : World) : Except Err Bytes × World :=
  match GetEncryptionKey w with
  | (key, w1) => (openToken A key ciphertext, w1)

/-! ## config/config.go: the store -/

/-- The content of a settings file in which every entry of `servers` gives
all eight keys of `ServerConfig`, as every file does that `Save` wrote: the
keys `servers` and `encryption_key`, each present or not, and the entries
as the values they give. Strings are taken to survive the JSON text
unchanged. A file whose entries leave keys out is a `JsonSettings`. -/
structure Persisted where
  servers : Option (List ServerConfig)
  encryption_key : Option Bytes
  deriving DecidableEq

/-- One entry of the array `servers` of a settings file: for each key of
`ServerConfig` the value that the entry gives, or `none` when the entry
leaves the key out or gives `null`, which `json.Unmarshal` passes over for a
string and for an `int`. -/
structure JsonServer where
  id : Option Bytes
  name : Option Bytes
  db_type : Option Bytes
  host : Option Bytes
  port : Option Int
  user : Option Bytes
  password : Option Bytes
  database : Option Bytes
  deriving DecidableEq

/-- The content of any settings file that `json.Unmarshal` decodes without
an error: the keys `servers` and `encryption_key`, each present or not, and
the entries with the keys they give. The value `null` for `servers` empties
the slice, as the empty array does; when an entry gives a key more than
once, the last value counts. -/
structure JsonSettings where
  servers : Option (List JsonServer)
  encryption_key : Option Bytes
  deriving DecidableEq

/-- What `os.ReadFile` and `json.Unmarshal` make of the settings file:
`content` is a file whose entries give every key, `object` any file that
decodes without an error. With `object` comes `spare`, the elements that
the backing array of `s.Servers` holds behind the length of the slice at
the time of the call (left there by `DeleteServer` or by the growth of
`append`), into which `json.Unmarshal` decodes as well. -/
inductive FileRead where
  | notExist
  | readError
  | malformed
  | content (p : Persisted)
  | object (j : JsonSettings) (spare : List ServerConfig)

/-- `json.MarshalIndent` of a `Settings` value, as far as the keys go:
`encryption_key` carries `omitempty`, so an empty key is left out. The
strings are those of the value; the text written denotes them as they are
when they are valid UTF-8, and `jsonEncoded` gives what it denotes in
general. -/
def jsonMarshal (s : Settings) : Persisted :=
  { servers := some s.Servers,
    encryption_key := if s.EncryptionKey = [] then none else some s.EncryptionKey }

/-- `json.Unmarshal(data, s)` for a file whose entries give every key: a
key of the object that is absent leaves its field as it was, and the array
`servers` replaces the list, each element taking every field from its
entry. -/
def jsonUnmarshal (p : Persisted) (s : Settings) : Settings :=
  { Servers := p.servers.getD s.Servers,
    EncryptionKey := p.encryption_key.getD s.EncryptionKey }

/-- The zero value of `ServerConfig`, with which `make` fills a new slice and from which
a slice grown by the decoder starts. -/
def zeroServer : ServerConfig :=
  { ID := [], Name := [], DBType := [], Host := [], Port := 0, User := [], Password := [],
    Database := [] }

/-- The decoding of one entry into the element `base` that the slice holds
at its index: a key that the entry gives sets the field, and a key that it
leaves out leaves the field of `base` as it was. -/
def JsonServer.decodeInto (e : JsonServer) (base : ServerConfig) : ServerConfig :=
  { ID := e.id.getD base.ID, Name := e.name.getD base.Name,
    DBType := e.db_type.getD base.DBType, Host := e.host.getD base.Host,
    Port := e.port.getD base.Port, User := e.user.getD base.User,
    Password := e.password.getD base.Password, Database := e.database.getD base.Database }

/-- The decoding of a JSON array into the slice `s.Servers`, whose backing
array holds `backing` from index 0 up to its capacity: the decoder sets the
length of the slice to zero, then decodes entry `i` into the element at
index `i` of the backing array without clearing it; past the capacity the
slice grows, and the new elements start from the zero value. The result has
one element per entry. -/
def decodeServers : List JsonServer → List ServerConfig → List ServerConfig
  | [], _ => []
  | e :: es, [] => e.decodeInto zeroServer :: decodeServers es []
  | e :: es, b :: bs => e.decodeInto b :: decodeServers es bs

/-- `json.Unmarshal(data, s)` for any file that decodes without an error: a
key of the object that is absent leaves its field as it was, and the array
`servers` is decoded into the elements that the slice already holds. -/
def jsonUnmarshalInto (j : JsonSettings) (spare : List ServerConfig) (s : Settings) :
    Settings :=
  { Servers :=
      match j.servers with
      | none => s.Servers
      | some entries => decodeServers entries (s.Servers ++ spare),
    EncryptionKey := j.encryption_key.getD s.EncryptionKey }

/-- The file `p` as a `JsonSettings`: every entry gives every key. -/
def Persisted.toJson (p : Persisted) : JsonSettings :=
  { servers := p.servers.map (fun l => l.map (fun srv =>
      { id := some srv.ID, name := some srv.Name, db_type := some srv.DBType,
        host := some srv.Host, port := some srv.Port, user := some srv.User,
        password := some srv.Password, database := some srv.Database })),
    encryption_key := p.encryption_key }

/-- The loop `// Decrypt passwords` of `Load`, over the entries still to visit. -/
def decryptPasswords (A : AEAD) : List ServerConfig → World → List ServerConfig × World
  | [], w => ([], w)
  | srv :: rest, w =>
    if srv.Password ≠ [] then
      match Decrypt A srv.Password w with
      | (.error _, w1) =>
        match decryptPasswords A rest w1 with
        | (out, w2) => (srv :: out, w2)
      | (.ok decrypted, w1) =>
        match decryptPasswords A rest w1 with
        | (out, w2) => ({ srv with Password := decrypted } :: out, w2)
    else
      match decryptPasswords A rest w with
      | (out, w2) => (srv :: out, w2)

/-- The method `Settings.Load` on the singleton. When `os.ReadFile` or
`json.Unmarshal` fails the method returns the error before the loop. -/
def Load (A : AEAD) (file : FileRead) (w : World) : Option Err × World :=
  match file with
  | .notExist => (none, w)
  | .readError => (some .readFile, w)
  | .malformed => (some .unmarshal, w)
  | .content p =>
    let w0 : World := { w with settings := jsonUnmarshal p w.settings }
    match decryptPasswords A w0.settings.Servers w0 with
    | (servers, w1) => (none, { w1 with settings := { w1.settings with Servers := servers } })
  | .object j spare =>
    let w0 : World := { w with settings := jsonUnmarshalInto j spare w.settings }
    match decryptPasswords A w0.settings.Servers w0 with
    | (servers, w1) => (none, { w1 with settings := { w1.settings with Servers := servers } })

/-- The loop `// Encrypt passwords` of `Save`, over the entries of the copy
still to visit; it stops at the first error. -/
def encryptPasswords (A : AEAD) :
    List ServerConfig → World → Except Err (List ServerConfig) × World
  | [], w => (.ok [], w)
  | srv :: rest, w =>
    if srv.Password ≠ [] then
      match Encrypt A srv.Password w with
      | (.error e, w1) => (.error e, w1)
      | (.ok encryptedPwd, w1) =>
        match encryptPasswords A rest w1 with
        | (.error e, w2) => (.error e, w2)
        | (.ok out, w2) => (.ok ({ srv with Password := encryptedPwd } :: out), w2)
    else
      match encryptPasswords A rest w with
      | (.error e, w2) => (.error e, w2)
      | (.ok out, w2) => (.ok (srv :: out), w2)

/-- The result of `Save`: the error returned, the value whose JSON text was
written to the file (when the write happened), with its strings as they are
in memory, and the process state afterwards. -/
structure SaveResult where
  err : Option Err
  written : Option Persisted
  world : World

/-- The method `Settings.Save` on the singleton; `writeOk` is the outcome of
`os.WriteFile`. The copy takes `s.EncryptionKey` before the passwords are
encrypted. -/
def Save (A : AEAD) (writeOk : Bool) (w : World) : SaveResult :=
  let encryptedKey := w.settings.EncryptionKey
  match encryptPasswords A w.settings.Servers w with
  | (.error e, w1) => { err := some e, written := none, world := w1 }
  | (.ok servers, w1) =>
    let data := jsonMarshal { Servers := servers, EncryptionKey := encryptedKey }
    if writeOk then { err := none, written := some data, world := w1 }
    else { err := some .writeFile, written := none, world := w1 }

/-! ## encoding/json: strings that are not valid UTF-8

`json.MarshalIndent` writes a Go string rune by rune. Where
`utf8.DecodeRuneInString` finds no valid sequence it writes the escape of
U+FFFD and goes on with the next byte; every other rune is written so that a
reader gets the same bytes back (as it is, or as an escape of it). -/

/-- For the first byte of a UTF-8 sequence of two to four bytes, as
`utf8.DecodeRune` reads it: the size of the sequence and the range in which
the second byte must lie; `none` for a byte that starts no such sequence. -/
def utf8First (b0 : Nat) : Option (Nat × Nat × Nat) :=
  if 0xC2 ≤ b0 ∧ b0 ≤ 0xDF then some (2, 0x80, 0xBF)
  else if b0 = 0xE0 then some (3, 0xA0, 0xBF)
  else if (0xE1 ≤ b0 ∧ b0 ≤ 0xEC) ∨ b0 = 0xEE ∨ b0 = 0xEF then some (3, 0x80, 0xBF)
  else if b0 = 0xED then some (3, 0x80, 0x9F)
  else if b0 = 0xF0 then some (4, 0x90, 0xBF)
  else if 0xF1 ≤ b0 ∧ b0 ≤ 0xF3 then some (4, 0x80, 0xBF)
  else if b0 = 0xF4 then some (4, 0x80, 0x8F)
  else none

/-- A continuation byte, `0x80` to `0xBF`. -/
def isContinuation (b : Byte) : Bool := 0x80 ≤ b.val && b.val ≤ 0xBF

/-- The size that `utf8.DecodeRune` returns at the start of `s` for a valid
sequence; `none` where it returns `RuneError` with the size 1. -/
def runeWidth : Bytes → Option Nat
  | [] => none
  | b0 :: rest =>
    if b0.val < 0x80 then some 1
    else
      match utf8First b0.val, rest with
      | some (size, lo, hi), b1 :: more =>
        if lo ≤ b1.val ∧ b1.val ≤ hi then
          if size = 2 then some 2
          else
            match more with
            | b2 :: more2 =>
              if isContinuation b2 then
                if size = 3 then some 3
                else
                  match more2 with
                  | b3 :: _ => if isContinuation b3 then some 4 else none
                  | [] => none
              else none
            | [] => none
        else none
      | _, _ => none

/-- U+FFFD in UTF-8. -/
def replacementChar : Bytes := [0xEF, 0xBF, 0xBD]

/-- The string that the JSON text written for `s` denotes, from a position
at which `pending` bytes of the current sequence are still to be copied. -/
def coerceFrom : Nat → Bytes → Bytes
  | _, [] => []
  | pending + 1, b :: rest => b :: coerceFrom pending rest
  | 0, b :: rest =>
    match runeWidth (b :: rest) with
    | some size => b :: coerceFrom (size - 1) rest
    | none => replacementChar ++ coerceFrom 0 rest

/-- The string that the JSON text written for the Go string `s` denotes:
`s` with U+FFFD in the place of every byte at which no valid sequence
starts. -/
def toValidUTF8 (s : Bytes) : Bytes := coerceFrom 0 s

/-- The loop of `utf8.Valid`, from a position at which `pending` bytes of
the current sequence are still to be passed. -/
def validFrom : Nat → Bytes → Bool
  | _, [] => true
  | pending + 1, _ :: rest => validFrom pending rest
  | 0, b :: rest =>
    match runeWidth (b :: rest) with
    | some size => validFrom (size - 1) rest
    | none => false

/-- `utf8.Valid`: the string is made of valid sequences only. -/
def utf8Valid (s : Bytes) : Bool := validFrom 0 s

/-- A profile as the JSON text written for it denotes it. -/
def encodedServer (srv : ServerConfig) : ServerConfig :=
  { ID := toValidUTF8 srv.ID, Name := toValidUTF8 srv.Name, DBType := toValidUTF8 srv.DBType,
    Host := toValidUTF8 srv.Host, Port := srv.Port, User := toValidUTF8 srv.User,
    Password := toValidUTF8 srv.Password, Database := toValidUTF8 srv.Database }

/-- The content of the text that `json.MarshalIndent` writes for the value
`p`: every string of `p` as the text denotes it. -/
def jsonEncoded (p : Persisted) : Persisted :=
  { servers := p.servers.map (fun l => l.map encodedServer),
    encryption_key := p.encryption_key.map toValidUTF8 }

/-! ## config/config.go: the other methods of the store -/

/-- The method `Settings.AddServer`. -/
def AddServer (s : Settings) (server : ServerConfig) : Settings :=
  { s with Servers := s.Servers ++ [server] }

/-- The loop of `UpdateServer` from index `i`, with `rest` the entries from
`i` on: the result and the new slice. -/
def updateFrom (id : Bytes) (server : ServerConfig) (all : List ServerConfig) :
    Nat → List ServerConfig → Bool × List ServerConfig
  | _, [] => (false, all)
  | i, srv :: rest =>
    if srv.ID = id then (true, all.set i server)
    else updateFrom id server all (i + 1) rest

/-- The method `Settings.UpdateServer`. -/
def UpdateServer (s : Settings) (id : Bytes) (server : ServerConfig) : Bool × Settings :=
  match updateFrom id server s.Servers 0 s.Servers with
  | (found, servers) => (found, { s with Servers := servers })

/-- The loop of `DeleteServer` from index `i`: on a match the slice becomes
`append(s.Servers[:i], s.Servers[i+1:]...)`. -/
def deleteFrom (id : Bytes) (all : List ServerConfig) :
    Nat → List ServerConfig → Bool × List ServerConfig
  | _, [] => (false, all)
  | i, srv :: rest =>
    if srv.ID = id then (true, all.take i ++ all.drop (i + 1))
    else deleteFrom id all (i + 1) rest

/-- The method `Settings.DeleteServer`. -/
def DeleteServer (s : Settings) (id : Bytes) : Bool × Settings :=
  match deleteFrom id s.Servers 0 s.Servers with
  | (found, servers) => (found, { s with Servers := servers })

/-! ## Two small ciphers for evaluating the functions

The first cipher below has the interface of AES-GCM and its two structural
properties (the box is the plaintext's length plus a 16-byte tag; `Open`
recomputes the tag from key, nonce and box and compares). It stands in for
AES-GCM where a function is evaluated on concrete bytes. Its tag is a
checksum, which some changes of a message leave as it is; the second cipher
writes every byte of a message four times, so that no change of a few
bytes goes unseen, and stands in for AES-GCM where that matters. -/

/-- The sum of the bytes of a string, modulo 256. -/
def byteSum (l : Bytes) : Byte := l.foldr (fun b acc => b + acc) 0

/-- The shift applied to every plaintext byte. -/
def toyPad (key nonce : Bytes) : Byte := byteSum key + byteSum nonce

/-- The tag: sixteen copies of a checksum of key, nonce and plaintext. -/
def toyTag (key nonce plaintext : Bytes) : Bytes :=
  List.replicate 16 (3 * byteSum key + 5 * byteSum nonce + 7 * byteSum plaintext + 1)

/-- Sealing: the shifted plaintext followed by the tag. -/
def toySeal (key nonce plaintext : Bytes) : Bytes :=
  plaintext.map (fun b => b + toyPad key nonce) ++ toyTag key nonce plaintext

/-- Opening: undo the shift, recompute the tag, compare. -/
def toyOpen (key nonce box : Bytes) : Option Bytes :=
  if box.length < 16 then none
  else
    let plaintext := (box.take (box.length - 16)).map (fun b => b - toyPad key nonce)
    if box.drop (box.length - 16) = toyTag key nonce plaintext then some plaintext else none

/-- The small cipher. -/
def toyGCM : AEAD := { Seal := toySeal, Open := toyOpen }

/-- Sealing with the second small cipher: the shifted plaintext, followed by
three copies of the nonce and the shifted plaintext, so that the nonce
followed by the box is one string four times. -/
def echoSeal (key nonce plaintext : Bytes) : Bytes :=
  plaintext.map (fun b => b + toyPad key nonce)
    ++ (nonce ++ plaintext.map (fun b => b + toyPad key nonce))
    ++ (nonce ++ plaintext.map (fun b => b + toyPad key nonce))
    ++ (nonce ++ plaintext.map (fun b => b + toyPad key nonce))

/-- Opening with the second small cipher: undo the shift on the first
quarter of what is not a copy of the nonce, seal the result again, compare. -/
def echoOpen (key nonce box : Bytes) : Option Bytes :=
  if box = echoSeal key nonce
      ((box.take ((box.length - 3 * nonce.length) / 4)).map (fun b => b - toyPad key nonce))
  then some ((box.take ((box.length - 3 * nonce.length) / 4)).map
    (fun b => b - toyPad key nonce))
  else none

/-- The second small cipher, which is tamper evident. -/
def echoGCM : AEAD := { Seal := echoSeal, Open := echoOpen }

/-! ### The cipher's properties used below -/

/-- `Open` inverts `Seal` under the same key and nonce. -/
def AEAD.Inverse (A : AEAD) : Prop :=
  ∀ key nonce plaintext, A.Open key nonce (A.Seal key nonce plaintext) = some plaintext

/-- `Open` returns a plaintext only for the box that `Seal` makes of that
plaintext under the same key and nonce (it recomputes the tag and compares). -/
def AEAD.Exact (A : AEAD) : Prop :=
  ∀ key nonce box plaintext, A.Open key nonce box = some plaintext →
    box = A.Seal key nonce plaintext

/-- A sealed box is at least as long as its plaintext (AES-GCM adds a tag). -/
def AEAD.NoShrink (A : AEAD) : Prop :=
  ∀ key nonce plaintext, plaintext.length ≤ (A.Seal key nonce plaintext).length

/-- Tamper evidence, the authenticity that AES-GCM is relied on for: take a
sealed message (a 12-byte nonce followed by the box sealed under it) and
replace one stretch of at most three bytes by another stretch of at most
three bytes; the result, split like a message into nonce and box, is not
opened under that key. -/
def AEAD.TamperEvident (A : AEAD) : Prop :=
  ∀ (key nonce plaintext pre mid mid1 post : Bytes),
    nonce.length = nonceSize →
    nonce ++ A.Seal key nonce plaintext = pre ++ mid ++ post →
    mid.length ≤ 3 → mid1.length ≤ 3 → mid1 ≠ mid →
    nonceSize ≤ (pre ++ mid1 ++ post).length →
    A.Open key ((pre ++ mid1 ++ post).take nonceSize) ((pre ++ mid1 ++ post).drop nonceSize)
      = none

/-- The entry `enc` is what `Save` serializes for the in-memory entry `srv`
under the key `key`: every field but the password is copied, an empty
password stays empty, and any other password is replaced by a token sealed
under `key` and some 12-byte nonce. -/
def SealedUnder (A : AEAD) (key : Bytes) (srv enc : ServerConfig) : Prop :=
  enc = { srv with Password := enc.Password } ∧
  ((srv.Password = [] ∧ enc.Password = []) ∨
   (srv.Password ≠ [] ∧ ∃ nonce, nonce.length = nonceSize ∧
      enc.Password = sealToken A key nonce srv.Password))

/-- The entry `enc` is what `Save` serializes for the in-memory entry `srv`:
every field but the password is copied, an empty password stays empty, and
any other password is replaced by the token that a call of `Encrypt` on it
returned. -/
def Sealed (A : AEAD) (srv enc : ServerConfig) : Prop :=
  enc = { srv with Password := enc.Password } ∧
  ((srv.Password = [] ∧ enc.Password = []) ∨
   (srv.Password ≠ [] ∧ ∃ wi wj, Encrypt A srv.Password wi = (.ok enc.Password, wj)))

/-- The body of the loop of `Load` on one entry: the entry afterwards. -/
def loadEntry (A : AEAD) (srv : ServerConfig) (w : World) : ServerConfig :=
  if srv.Password ≠ [] then
    match (Decrypt A srv.Password w).1 with
    | .ok decrypted => { srv with Password := decrypted }
    | .error _ => srv
  else srv

/-- The body of the loop of `Load` on one entry: the process state afterwards. -/
def loadStep (A : AEAD) (srv : ServerConfig) (w : World) : World :=
  if srv.Password ≠ [] then (Decrypt A srv.Password w).2 else w

/-- The process state when the loop of `Load` over `L`, started in `w`,
reaches position `i`. -/
def stateAt (A : AEAD) (L : List ServerConfig) (w : World) (i : Nat) : World :=
  (decryptPasswords A (L.take i) w).2

/-- The process state once `GetEncryptionKey` has generated the key `key`
and the random source has moved on to `r`. -/
def withKey (w : World) (key : Bytes) (r : Entropy) : World :=
  { settings := { w.settings with EncryptionKey := hexEncodeToString key }, rand := r }

/-- The state of a process that has just started: `GetSettings()` creates
the singleton with no server and no key. -/
def freshProcess (rand : Entropy) : World :=
  { settings := { Servers := [], EncryptionKey := [] }, rand := rand }

deriving instance DecidableEq for Except

/-- Do two strings of equal length differ at exactly one position. -/
def differInOneByte (s t : Bytes) : Bool :=
  s.length = t.length && ((s.zip t).filter (fun p => p.1 ≠ p.2)).length = 1

/-! ### Sample data for the evaluations -/

/-- A 32-byte key, as a random read may deliver it. -/
def sampleKey : Bytes := ascii "0123456789abcdef0123456789abcdeX"

/-- A second 32-byte key. -/
def otherKey : Bytes := ascii "ZYXWVUTSRQPONMLKJIHGFEDCBA987654"

/-- A 12-byte nonce. -/
def sampleNonce : Bytes := ascii "nonce-000001"

/-- A profile with the password `abc`. -/
def sampleServer : ServerConfig :=
  { ID := ascii "1", Name := ascii "db", DBType := ascii "mysql", Host := ascii "localhost",
    Port := 3306, User := ascii "root", Password := ascii "abc", Database := [] }

/-- The token of `abc` under `sampleKey` and `sampleNonce` with the small cipher. -/
def sampleToken : Bytes := ascii "bm9uY2UtMDAwMDAxeHl6EhISEhISEhISEhISEhISEg=="

/-- The token `sampleToken` with its last character before the padding
changed from `g` to `h`. -/
def tamperedToken : Bytes := ascii "bm9uY2UtMDAwMDAxeHl6EhISEhISEhISEhISEhISEh=="

/-- The token of `pw` under `sampleKey` and `sampleNonce` with the second
small cipher. Its data has 56 bytes, so the text ends in one `=`. -/
def echoToken : Bytes :=
  ascii "bm9uY2UtMDAwMDAxh45ub25jZS0wMDAwMDGHjm5vbmNlLTAwMDAwMYeObm9uY2UtMDAwMDAxh44="

/-- The token `echoToken` with the first character of its box changed from
`h` to `i`. -/
def echoForged : Bytes :=
  ascii "bm9uY2UtMDAwMDAxi45ub25jZS0wMDAwMDGHjm5vbmNlLTAwMDAwMYeObm9uY2UtMDAwMDAxh44="

/-- The token `echoToken` with its last character before the padding
changed from `4` to `5`. -/
def echoRespelled : Bytes :=
  ascii "bm9uY2UtMDAwMDAxh45ub25jZS0wMDAwMDGHjm5vbmNlLTAwMDAwMYeObm9uY2UtMDAwMDAxh45="

/-- The token `echoToken` with its first character changed from `b` to `!`. -/
def echoCorrupt : Bytes :=
  ascii "!m9uY2UtMDAwMDAxh45ub25jZS0wMDAwMDGHjm5vbmNlLTAwMDAwMYeObm9uY2UtMDAwMDAxh44="

/-- A process without a key whose first random read fails and whose next
reads deliver a nonce and then a key. -/
def flakyWorld : World := freshProcess [none, some sampleNonce, some sampleKey]

/-- A process without a key whose random reads deliver a key, then a nonce. -/
def healthyWorld : World := freshProcess [some sampleKey, some sampleNonce]

/-- A store with the one profile `sampleServer`, no key, and a random source
that delivers a key and a nonce. -/
def sampleStore : World :=
  { settings := { Servers := [sampleServer], EncryptionKey := [] },
    rand := [some sampleKey, some sampleNonce] }

/-- The name `caf` followed by the byte `0xE9`, an `e` with an acute accent
in Latin-1, which is not valid UTF-8. -/
def latin1Name : Bytes := ascii "caf" ++ [0xE9]

/-- The store `sampleStore` with the name of its profile changed to
`latin1Name`. -/
def latin1Store : World :=
  { sampleStore with
    settings := { Servers := [{ sampleServer with Name := latin1Name }], EncryptionKey := [] } }

/-- The file that `Save` writes for `sampleStore`: the password as a token,
and no `encryption_key`. -/
def sampleFile : Persisted :=
  { servers := some [{ sampleServer with Password := sampleToken }],
    encryption_key := none }

/-- The token of `abc` under the fallback key and `sampleNonce`. -/
def flakyToken : Bytes := ascii "bm9uY2UtMDAwMDAxFBUW5ubm5ubm5ubm5ubm5ubm5g=="

/-- A store reached from a fresh process by `AddServer(sampleServer)`, whose
random source fails once and then delivers a nonce and a key. -/
def flakyStore : World :=
  { settings := AddServer (freshProcess []).settings sampleServer,
    rand := [none, some sampleNonce, some sampleKey] }

/-- The file that `Save` writes for `flakyStore`. -/
def flakyFile : Persisted :=
  { servers := some [{ sampleServer with Password := flakyToken }],
    encryption_key := none }

/-- A profile whose persisted password `hunter2!` is not a token. -/
def legacyServer : ServerConfig := { sampleServer with Password := ascii "hunter2!" }

/-- A settings file from before passwords were encrypted: one profile with a
plaintext password, no key. -/
def legacyFile : Persisted := { servers := some [legacyServer], encryption_key := none }

/-- The file that `Save` writes after `legacyFile` was loaded by
`healthyWorld`: the password as a token under `sampleKey`, and the key. -/
def migratedFile : Persisted :=
  { servers := some [{ sampleServer with
      Password := ascii "bm9uY2UtMDAwMDAxf4yFi3yJSThnZ2dnZ2dnZ2dnZ2dnZ2dn" }],
    encryption_key := some (hexEncodeToString sampleKey) }

/-- A fresh process whose random source fails twice and then delivers a
nonce and a key. -/
def legacyWorld : World := freshProcess [none, none, some sampleNonce, some sampleKey]

/-- The token of `hunter2!` under the fallback key and `sampleNonce`. -/
def legacyToken : Bytes := ascii "bm9uY2UtMDAwMDAxGyghJxgl5dQ7Ozs7Ozs7Ozs7Ozs7Ozs7"

/-- The file that `Save` writes after `legacyFile` was loaded by `legacyWorld`. -/
def legacyResaved : Persisted :=
  { servers := some [{ sampleServer with Password := legacyToken }], encryption_key := none }

/-- A store with the profile `sampleServer` and the key `sampleKey`. -/
def keyedStore : World :=
  { settings := { Servers := [sampleServer], EncryptionKey := hexEncodeToString sampleKey },
    rand := [] }

/-- An entry that gives no key at all. -/
def emptyEntry : JsonServer :=
  { id := none, name := none, db_type := none, host := none, port := none, user := none,
    password := none, database := none }

/-- A settings file with four entries: the first gives only `id` and `name`,
the second only a password that is not a token, the third only the token
`sampleToken`, the fourth only an empty password. -/
def partialFile : JsonSettings :=
  { servers := some
      [{ emptyEntry with id := some (ascii "1"), name := some (ascii "renamed") },
       { emptyEntry with password := some (ascii "hunter2!") },
       { emptyEntry with password := some sampleToken },
       { emptyEntry with password := some [] }],
    encryption_key := none }

/-! ## config/config.go: the read operations -/

/-- The builtin `copy(dst, src)` on slices of `ServerConfig`: the new
content of `dst`. -/
def copyServers (dst src : List ServerConfig) : List ServerConfig :=
  src.take dst.length ++ dst.drop src.length

/-- The method `Settings.GetServers`: the slice returned, and the store
after the call. -/
def GetServers (s : Settings) : List ServerConfig × Settings :=
  (copyServers (List.replicate s.Servers.length zeroServer) s.Servers, s)

/-- The loop of `GetServer` over the entries still to visit: the pointer
returned (`none` is `nil`) and the flag. -/
def getFrom (id : Bytes) : List ServerConfig → Option ServerConfig × Bool
  | [] => (none, false)
  | srv :: rest => if srv.ID = id then (some srv, true) else getFrom id rest

/-- The method `Settings.GetServer`: the pointer and flag returned, and the
store after the call. -/
def GetServer (s : Settings) (id : Bytes) : (Option ServerConfig × Bool) × Settings :=
  (getFrom id s.Servers, s)

/-- No two profiles of the list share an ID. -/
def UniqueIDs (l : List ServerConfig) : Prop := (l.map (fun srv => srv.ID)).Nodup

instance (l : List ServerConfig) : Decidable (UniqueIDs l) := by
  unfold UniqueIDs
  infer_instance

/-- A second profile, with the ID `2`. -/
def secondServer : ServerConfig :=
  { sampleServer with ID := ascii "2", Name := ascii "reports", Host := ascii "10.0.0.2" }

/-- A third profile, with the ID `3`. -/
def thirdServer : ServerConfig :=
  { sampleServer with ID := ascii "3", Name := ascii "archive", Host := ascii "10.0.0.3" }

/-- A profile with the ID `4`, which `threeProfiles` does not hold. -/
def fourthServer : ServerConfig :=
  { sampleServer with ID := ascii "4", Name := ascii "staging", Host := ascii "10.0.0.4" }

/-- The second profile after an edit of its name and port: the ID stays `2`. -/
def editedSecond : ServerConfig :=
  { secondServer with Name := ascii "reports-new", Port := 3307 }

/-- A store with three profiles, whose IDs are `1`, `2` and `3`. -/
def threeProfiles : Settings :=
  { Servers := [sampleServer, secondServer, thirdServer], EncryptionKey := [] }

/-! ## Sequences of calls, and `Decrypt` with its slices checked -/

/-- A call into the package other than `Load`. -/
inductive Op where
  | getKey
  | encrypt (plaintext : Bytes)
  | decrypt (ciphertext : Bytes)
  | save (writeOk : Bool)
  | add (server : ServerConfig)
  | update (id : Bytes) (server : ServerConfig)
  | delete (id : Bytes)
  | getServer (id : Bytes)
  | getServers

/-- The process state after one call. -/
def Op.run (A : AEAD) (op : Op) (w : World) : World :=
  match op with
  | .getKey => (GetEncryptionKey w).2
  | .encrypt plaintext => (Encrypt A plaintext w).2
  | .decrypt ciphertext => (Decrypt A ciphertext w).2
  | .save writeOk => (Save A writeOk w).world
  | .add server => { w with settings := AddServer w.settings server }
  | .update id server => { w with settings := (UpdateServer w.settings id server).2 }
  | .delete id => { w with settings := (DeleteServer w.settings id).2 }
  | .getServer id => { w with settings := (GetServer w.settings id).2 }
  | .getServers => { w with settings := (GetServers w.settings).2 }

/-- The process state after a sequence of calls. -/
def runOps (A : AEAD) : List Op → World → World
  | [], w => w
  | op :: rest, w => runOps A rest (op.run A w)

/-- The slice expression `data[:n]`; `none` is the run-time panic for an `n`
beyond the length. -/
def sliceTo (data : Bytes) (n : Nat) : Option Bytes :=
  if n ≤ data.length then some (data.take n) else none

/-- The slice expression `data[n:]`; `none` is the run-time panic for an `n`
beyond the length. -/
def sliceFrom (data : Bytes) (n : Nat) : Option Bytes :=
  if n ≤ data.length then some (data.drop n) else none

/-- Lines 67-93 of `Decrypt` with the two slice expressions of line 87
checked: `none` is a run-time panic. -/
def openTokenChecked (A : AEAD) (key ciphertext : Bytes) : Option (Except Err Bytes) :=
  match b64Decode ciphertext with
  | none => some (.error .corruptInput)
  | some data =>
    if aesNewCipher key then
      if data.length < nonceSize then some (.error .ciphertextTooShort)
      else
        match sliceTo data nonceSize, sliceFrom data nonceSize with
        | some nonce, some cipherData =>
          match A.Open key nonce cipherData with
          | none => some (.error .openFailed)
          | some plaintext => some (.ok plaintext)
        | _, _ => none
    else some (.error .keySize)

/-- The function `Decrypt` with its slice expressions checked. -/
def DecryptChecked (A : AEAD) (ciphertext : Bytes) (w : World) :
    Option (Except Err Bytes) × World :=
  match GetEncryptionKey w with
  | (key, w1) => (openTokenChecked A key ciphertext, w1)

/-! ## db/db.go

The database behind `*sqlx.DB` is a parameter: a `Server` says how it answers
each statement in each of its states. A `Conn` carries the state of the
server and the statements sent to it so far. -/

/-- A column value as the driver hands it over in an `interface{}`; `other`
is a value of another type (a float, a time), with its text. -/
inductive Value where
  | null
  | bytes (b : Bytes)
  | str (s : Bytes)
  | int (n : Int)
  | other (text : Bytes)
  deriving DecidableEq

/-- A `map[string]interface{}`: column names with their values. -/
abbrev Row := List (Bytes × Value)

/-- A `*sqlx.Rows`: what `rows.Columns()` returns and, for each row that
`rows.Next()` delivers, what `rows.MapScan` makes of it (the filled map, or
the error). `rows.Next()` is true as long as `scans` has an entry left. -/
structure Rows where
  columns : Except Bytes (List Bytes)
  scans : List (Except Bytes Row)

/-- A statement sent to the server: the SQL text and the bound arguments. -/
structure Stmt where
  text : Bytes
  args : List Bytes
  deriving DecidableEq

/-- How a database server answers: `Exec` gives the error of `db.Exec` (or
none), `Queryx` the error or the rows of `db.Queryx`, each with the next
state of the server. -/
structure Server (σ : Type) where
  Exec : σ → Bytes → Option Bytes × σ
  Queryx : σ → Bytes → List Bytes → Except Bytes Rows × σ

/-- A connection: the state of the server and the statements issued so far. -/
structure Conn (σ : Type) where
  state : σ
  issued : List Stmt

/-- The errors that the functions of the package return: one passed on from
the driver, or `fmt.Errorf("row not found")`. -/
inductive DBError where
  | driver (msg : Bytes)
  | rowNotFound
  deriving DecidableEq

/-- The call `db.Exec(text)`. -/
def dbExec {σ : Type} (S : Server σ) (c : Conn σ) (text : Bytes) : Option Bytes × Conn σ :=
  match S.Exec c.state text with
  | (r, st) => (r, { state := st, issued := c.issued ++ [{ text := text, args := [] }] })

/-- The call `db.Queryx(text, args...)`. -/
def dbQueryx {σ : Type} (S : Server σ) (c : Conn σ) (text : Bytes) (args : List Bytes) :
    Except Bytes Rows × Conn σ :=
  match S.Queryx c.state text args with
  | (r, st) => (r, { state := st, issued := c.issued ++ [{ text := text, args := args }] })

/-- The text built by `fmt.Sprintf` with the format "USE" and a quoted `%s`. -/
def useStatement (database : Bytes) : Bytes := ascii "USE `" ++ database ++ ascii "`"

/-- The block `// Select database first`: the error of the `USE` statement,
if the database name is not empty and the statement fails. -/
def selectDatabase {σ : Type} (S : Server σ) (c : Conn σ) (database : Bytes) :
    Option Bytes × Conn σ :=
  if database ≠ [] then dbExec S c (useStatement database) else (none, c)

/-- The verb `%d` on a natural number: its decimal digits. -/
def formatNat (n : Nat) : Bytes := (Nat.toDigits 10 n).map (fun ch => byte ch.toNat)

/-- The verb `%d` of `fmt.Sprintf` on an `int`. -/
def formatInt (n : Int) : Bytes :=
  match n with
  | .ofNat m => formatNat m
  | .negSucc m => ascii "-" ++ formatNat (m + 1)

/-- The loop `// Convert []byte to string for display` over one row. -/
def displayRow (row : Row) : Row :=
  row.map (fun kv =>
    match kv.2 with
    | .bytes b => (kv.1, .str b)
    | _ => kv)

/-- The loop `for rows.Next()` of `GetTableData`: it stops at the first
error of `MapScan`. -/
def scanRows : List (Except Bytes Row) → Except DBError (List Row)
  | [] => .ok []
  | .error e :: _ => .error (.driver e)
  | .ok row :: rest =>
    match scanRows rest with
    | .error e => .error e
    | .ok results => .ok (displayRow row :: results)

/-- The query text of `GetTableData`. -/
def tableDataQuery (tableName : Bytes) (limit : Int) : Bytes :=
  ascii "SELECT * FROM `" ++ tableName ++ ascii "` LIMIT " ++ formatInt limit

/-- The function `GetTableData`: the rows and the column names, or the error. -/
def GetTableData {σ : Type} (S : Server σ) (c : Conn σ) (database tableName : Bytes)
    (limit : Int) : Except DBError (List Row × List Bytes) × Conn σ :=
  let limit := if limit ≤ 0 then 100 else limit
  match selectDatabase S c database with
  | (some e, c1) => (.error (.driver e), c1)
  | (none, c1) =>
    match dbQueryx S c1 (tableDataQuery tableName limit) [] with
    | (.error e, c2) => (.error (.driver e), c2)
    | (.ok rows, c2) =>
      match rows.columns with
      | .error e => (.error (.driver e), c2)
      | .ok columns =>
        match scanRows rows.scans with
        | .error e => (.error e, c2)
        | .ok results => (.ok (results, columns), c2)

/-- The first loop of `// Build WHERE clause`: one clause per key column. -/
def whereClauses (pkColumns : List Bytes) : List Bytes :=
  pkColumns.map (fun col => ascii "`" ++ col ++ ascii "` = ?")

/-- The rest of `// Build WHERE clause`: the clauses joined, the first behind
`WHERE`, each later one behind `AND`. -/
def whereClause (clauses : List Bytes) : Bytes :=
  match clauses with
  | [] => []
  | first :: rest =>
    rest.foldl (fun acc clause => acc ++ ascii " AND " ++ clause) (ascii " WHERE " ++ first)

/-- The query text of `GetRowData`. -/
def rowQuery (tableName : Bytes) (pkColumns : List Bytes) : Bytes :=
  ascii "SELECT * FROM `" ++ tableName ++ ascii "`" ++ whereClause (whereClauses pkColumns)
    ++ ascii " LIMIT 1"

/-- The function `GetRowData`: the row, or the error. -/
def GetRowData {σ : Type} (S : Server σ) (c : Conn σ) (database tableName : Bytes)
    (pkColumns pkValues : List Bytes) : Except DBError Row × Conn σ :=
  match selectDatabase S c database with
  | (some e, c1) => (.error (.driver e), c1)
  | (none, c1) =>
    match dbQueryx S c1 (rowQuery tableName pkColumns) pkValues with
    | (.error e, c2) => (.error (.driver e), c2)
    | (.ok rows, c2) =>
      match rows.scans with
      | [] => (.error .rowNotFound, c2)
      | .error e :: _ => (.error (.driver e), c2)
      | .ok row :: _ => (.ok (displayRow row), c2)

/-- The predicate that the claim about `GetRowData` describes: one equality
per key column, joined by `AND`. -/
def keyPredicate : List Bytes → Bytes
  | [] => []
  | [col] => ascii "`" ++ col ++ ascii "` = ?"
  | col :: rest => ascii "`" ++ col ++ ascii "` = ?" ++ ascii " AND " ++ keyPredicate rest

/-- The placeholder character `?`. -/
def placeholder : Byte := 63

/-- A server without state that rejects a query whose number of `?` differs
from the number of bound arguments and answers any other query with an empty
result. -/
def strictServer : Server Unit :=
  { Exec := fun _ _ => (none, ()),
    Queryx := fun _ text args =>
      if text.count placeholder = args.length then
        (.ok { columns := .ok [], scans := [] }, ())
      else (.error (ascii "wrong number of arguments"), ()) }

/-- A server without state that answers every query with one row, the
column `id` holding the bytes `7` and the column `name` the bytes `x`. -/
def oneRowServer : Server Unit :=
  { Exec := fun _ _ => (none, ()),
    Queryx := fun _ _ _ =>
      (.ok { columns := .ok [ascii "id", ascii "name"],
             scans := [.ok [(ascii "id", .bytes (ascii "7")),
                            (ascii "name", .bytes (ascii "x"))]] }, ()) }

/-- A connection on which nothing has been sent yet. -/
def newConn : Conn Unit := { state := (), issued := [] }

/-! ## db/db.go: the other fetches

`db.Select` and `db.QueryRow(...).Scan` run a query and scan its rows into
Go values; the scan is a parameter of the two functions that use them. -/

/-- The struct `ColumnInfo` (`Typ` is its field `Type`). -/
structure ColumnInfo where
  Field : Bytes
  Typ : Bytes
  Null : Bytes
  Key : Bytes
  Default : Option Bytes
  Extra : Bytes
  deriving DecidableEq

/-- The query text of `GetTableDataAll`. -/
def tableDataAllQuery (tableName : Bytes) : Bytes :=
  ascii "SELECT * FROM `" ++ tableName ++ ascii "`"

/-- The function `GetTableDataAll`: the rows, or the error. -/
def GetTableDataAll {σ : Type} (S : Server σ) (c : Conn σ) (database tableName : Bytes) :
    Except DBError (List Row) × Conn σ :=
  match selectDatabase S c database with
  | (some e, c1) => (.error (.driver e), c1)
  | (none, c1) =>
    match dbQueryx S c1 (tableDataAllQuery tableName) [] with
    | (.error e, c2) => (.error (.driver e), c2)
    | (.ok rows, c2) =>
      match scanRows rows.scans with
      | .error e => (.error e, c2)
      | .ok results => (.ok results, c2)

/-- The query text of `GetTableColumns`. -/
def showColumnsQuery (tableName : Bytes) : Bytes :=
  ascii "SHOW COLUMNS FROM `" ++ tableName ++ ascii "`"

/-- The function `GetTableColumns`; `scanAll` is what `db.Select` makes of
the rows of the query: the column descriptions, or the error of the scan. -/
def GetTableColumns {σ : Type} (S : Server σ) (scanAll : Rows → Except Bytes (List ColumnInfo))
    (c : Conn σ) (database tableName : Bytes) :
    Except DBError (List ColumnInfo) × Conn σ :=
  match selectDatabase S c database with
  | (some e, c1) => (.error (.driver e), c1)
  | (none, c1) =>
    match dbQueryx S c1 (showColumnsQuery tableName) [] with
    | (.error e, c2) => (.error (.driver e), c2)
    | (.ok rows, c2) =>
      match scanAll rows with
      | .error e => (.error (.driver e), c2)
      | .ok columns => (.ok columns, c2)

/-- The query text of `GetTableCreateStatement`. -/
def showCreateQuery (tableName : Bytes) : Bytes :=
  ascii "SHOW CREATE TABLE `" ++ tableName ++ ascii "`"

/-- The function `GetTableCreateStatement`; `scanPair` is what
`QueryRow(query).Scan(&tblName, &createStmt)` makes of the rows: the two
strings, or the error. -/
def GetTableCreateStatement {σ : Type} (S : Server σ)
    (scanPair : Rows → Except Bytes (Bytes × Bytes)) (c : Conn σ)
    (database tableName : Bytes) : Except DBError Bytes × Conn σ :=
  match selectDatabase S c database with
  | (some e, c1) => (.error (.driver e), c1)
  | (none, c1) =>
    match dbQueryx S c1 (showCreateQuery tableName) [] with
    | (.error e, c2) => (.error (.driver e), c2)
    | (.ok rows, c2) =>
      match scanPair rows with
      | .error e => (.error (.driver e), c2)
      | .ok pair => (.ok pair.2, c2)

/-- The backtick. -/
def backtick : Byte := 96

/-- How MySQL reads a quoted identifier, from the character after the
opening backtick on: two backticks in a row stand for one backtick of the
name, and a single backtick closes the identifier. The result is the name
read and the text that follows the closing backtick; `none` when the
identifier is never closed. -/
def readQuoted : Bytes → Option (Bytes × Bytes)
  | [] => none
  | [ch] => if ch = backtick then some ([], []) else none
  | ch :: next :: rest =>
    if ch = backtick then
      if next = backtick then
        match readQuoted rest with
        | some (name, after) => some (backtick :: name, after)
        | none => none
      else some ([], next :: rest)
    else
      match readQuoted (next :: rest) with
      | some (name, after) => some (ch :: name, after)
      | none => none

/-- A table name that closes the quoted identifier and goes on with a
second statement. -/
def hostileName : Bytes := ascii "t`; DROP TABLE `u"

/-! ## handlers/database.go: `ExportData`

The output is the list of records handed to `w.Write`, in order; an empty
record is the blank line. What `csv.Writer` and the transcoding writer make
of a record is outside the model. -/

/-- The verb `%v` of `fmt.Sprintf` on `row[colName]`; `none` is a column
that the map does not hold, for which the lookup gives `nil`. -/
def sprintV : Option Value → Bytes
  | none => ascii "<nil>"
  | some .null => ascii "<nil>"
  | some (.str s) => s
  | some (.bytes b) =>
    ascii "[" ++ List.intercalate (ascii " ") (b.map (fun x => formatNat x.val)) ++ ascii "]"
  | some (.int n) => formatInt n
  | some (.other text) => text

/-- The inner loop of `// Write data`: the record of one row. -/
def exportRecord (columnNames : List Bytes) (row : Row) : List Bytes :=
  columnNames.map (fun colName => sprintV (row.lookup colName))

/-- The body of the loop `// Export each table` for the table at position
`tableIndex` of `total`: the records written and the connection afterwards. -/
def exportTable {σ : Type} (S : Server σ) (scanAll : Rows → Except Bytes (List ColumnInfo))
    (dbName : Bytes) (includeHeaders : Bool) (total tableIndex : Nat) (tableName : Bytes)
    (c : Conn σ) : List (List Bytes) × Conn σ :=
  match GetTableDataAll S c dbName tableName with
  | (.error _, c1) => ([], c1)
  | (.ok data, c1) =>
    if data.length = 0 then ([], c1)
    else
      match GetTableColumns S scanAll c1 dbName tableName with
      | (.error _, c2) => ([], c2)
      | (.ok columns, c2) =>
        let columnNames := columns.map (fun col => col.Field)
        ((if includeHeaders then [columnNames] else [])
          ++ data.map (exportRecord columnNames)
          ++ (if tableIndex < total - 1 then [[]] else []), c2)

/-- The loop `// Export each table` from position `tableIndex` on. -/
def exportLoop {σ : Type} (S : Server σ) (scanAll : Rows → Except Bytes (List ColumnInfo))
    (dbName : Bytes) (includeHeaders : Bool) (total : Nat) :
    Nat → List Bytes → Conn σ → List (List Bytes) × Conn σ
  | _, [], c => ([], c)
  | tableIndex, tableName :: rest, c =>
    match exportTable S scanAll dbName includeHeaders total tableIndex tableName c with
    | (records, c1) =>
      match exportLoop S scanAll dbName includeHeaders total (tableIndex + 1) rest c1 with
      | (more, c2) => (records ++ more, c2)

/-- What the handler reads from the request: the path parameters, the
outcome of `ParseForm`, and the form values. -/
structure ExportRequest where
  serverID : Bytes
  dbName : Bytes
  parseFormOk : Bool
  tables : List Bytes
  delimiter : Bytes
  include_headers : Bytes
  encoding : Bytes

/-- How `ExportData` ends: with an HTTP error, with a run-time panic, or
with `nil` after the records were written with the delimiter `comma`. -/
inductive ExportOutcome (σ : Type) where
  | httpError (status : Nat)
  | panicked
  | done (comma : Byte) (records : List (List Bytes)) (conn : Conn σ)

/-- The records written, when the handler ended with `nil`. -/
def ExportOutcome.records {σ : Type} : ExportOutcome σ → Option (List (List Bytes))
  | .done _ records _ => some records
  | _ => none

/-- The delimiter used, when the handler ended with `nil`. -/
def ExportOutcome.comma {σ : Type} : ExportOutcome σ → Option Byte
  | .done comma _ _ => some comma
  | _ => none

/-- Did the handler end with a run-time panic. -/
def ExportOutcome.isPanic {σ : Type} : ExportOutcome σ → Bool
  | .panicked => true
  | _ => false

/-- Lines 565-583: the two characters backslash and `t` become a tab, and
the delimiter is `delimiter[0]`; `none` is the run-time panic of an index
out of range. -/
def exportComma (delimiter : Bytes) : Option Byte :=
  (if delimiter = ascii "\\t" then ascii "\t" else delimiter)[0]?

/-- The handler `ExportData`; `connect` is the outcome of
`db.ConnectWithoutDB` for the profile found. -/
def ExportData {σ : Type} (S : Server σ) (scanAll : Rows → Except Bytes (List ColumnInfo))
    (connect : ServerConfig → Except Bytes (Conn σ)) (settings : Settings)
    (req : ExportRequest) : ExportOutcome σ :=
  match (GetServer settings req.serverID).1 with
  | (some server, true) =>
    if req.parseFormOk then
      let includeHeaders : Bool := req.include_headers = ascii "true"
      if req.tables.length = 0 then .httpError 400
      else
        match connect server with
        | .error _ => .httpError 500
        | .ok dbConn =>
          match exportComma req.delimiter with
          | none => .panicked
          | some comma =>
            match exportLoop S scanAll req.dbName includeHeaders req.tables.length 0
                req.tables dbConn with
            | (records, c1) => .done comma records c1
    else .httpError 400
  | _ => .httpError 404

/-! ### Sample data for the export -/

/-- A server without state that holds the table `a`, with the column `id`
and one row, and the table `b`, with no row; any other query is an error. -/
def exportServer : Server Unit :=
  { Exec := fun _ _ => (none, ()),
    Queryx := fun _ text _ =>
      if text = ascii "SELECT * FROM `a`" then
        (.ok { columns := .ok [ascii "id"], scans := [.ok [(ascii "id", .bytes (ascii "1"))]] },
          ())
      else if text = ascii "SHOW COLUMNS FROM `a`" ∨ text = ascii "SHOW COLUMNS FROM `b`" then
        (.ok { columns := .ok [ascii "Field"],
               scans := [.ok [(ascii "Field", .bytes (ascii "id"))]] }, ())
      else if text = ascii "SELECT * FROM `b`" then
        (.ok { columns := .ok [ascii "id"], scans := [] }, ())
      else (.error (ascii "no such table"), ()) }

/-- A scan of the rows of `SHOW COLUMNS` that fills the field `Field`. -/
def scanFields (rows : Rows) : Except Bytes (List ColumnInfo) :=
  match scanRows rows.scans with
  | .error _ => .error (ascii "scan error")
  | .ok results =>
    .ok (results.map (fun row =>
      { Field := sprintV (row.lookup (ascii "Field")), Typ := [], Null := [], Key := [],
        Default := none, Extra := [] }))

/-- A connection that always opens. -/
def connectOk (_ : ServerConfig) : Except Bytes (Conn Unit) := .ok newConn

/-- An export request for the tables `a` and `b`, with headers and a comma. -/
def exportRequest : ExportRequest :=
  { serverID := ascii "1", dbName := ascii "db", parseFormOk := true,
    tables := [ascii "a", ascii "b"], delimiter := ascii ",",
    include_headers := ascii "true", encoding := [] }

/-- Spec side: the connection with which the export reaches the table at
position `k` of the list, when it started with `c`: each earlier table was
handled by the loop body, one after the other. -/
def connBefore {σ : Type} (S : Server σ) (scanAll : Rows → Except Bytes (List ColumnInfo))
    (dbName : Bytes) (includeHeaders : Bool) (tables : List Bytes) (c : Conn σ) : Nat → Conn σ
  | 0 => c
  | k + 1 =>
    match tables[k]? with
    | some t =>
      (exportTable S scanAll dbName includeHeaders tables.length k t
        (connBefore S scanAll dbName includeHeaders tables c k)).2
    | none => connBefore S scanAll dbName includeHeaders tables c k

/-- Spec side: the records that the table at position `k` of the list
contributes to the export: what the loop body writes for it at the
connection reached; nothing past the end of the list. -/
def tableRecordsAt {σ : Type} (S : Server σ) (scanAll : Rows → Except Bytes (List ColumnInfo))
    (dbName : Bytes) (includeHeaders : Bool) (tables : List Bytes) (c : Conn σ) (k : Nat) :
    List (List Bytes) :=
  match tables[k]? with
  | some t =>
    (exportTable S scanAll dbName includeHeaders tables.length k t
      (connBefore S scanAll dbName includeHeaders tables c k)).1
  | none => []

/-- A server without state with the table `items` (four columns, two rows),
the view `v` (one row, but its columns cannot be shown); any other query is
an error. -/
def inventoryServer : Server Unit :=
  { Exec := fun _ _ => (none, ()),
    Queryx := fun _ text _ =>
      if text = ascii "SELECT * FROM `items`" then
        (.ok { columns := .ok [ascii "id", ascii "name", ascii "note", ascii "qty"],
               scans := [.ok [(ascii "id", .bytes (ascii "1")), (ascii "name", .bytes (ascii "ann")),
                              (ascii "note", .null), (ascii "qty", .int 42)],
                         .ok [(ascii "id", .bytes (ascii "2")), (ascii "name", .bytes (ascii "bob")),
                              (ascii "note", .bytes []), (ascii "qty", .int (-7))]] }, ())
      else if text = ascii "SHOW COLUMNS FROM `items`" then
        (.ok { columns := .ok [ascii "Field"],
               scans := [.ok [(ascii "Field", .bytes (ascii "id"))],
                         .ok [(ascii "Field", .bytes (ascii "name"))],
                         .ok [(ascii "Field", .bytes (ascii "note"))],
                         .ok [(ascii "Field", .bytes (ascii "qty"))]] }, ())
      else if text = ascii "SELECT * FROM `v`" then
        (.ok { columns := .ok [ascii "id"], scans := [.ok [(ascii "id", .bytes (ascii "9"))]] },
          ())
      else (.error (ascii "no such table"), ()) }

/-- An export request for the tables `zz`, `v` and `items`, with headers and
a comma. -/
def inventoryRequest : ExportRequest :=
  { serverID := ascii "1", dbName := ascii "db", parseFormOk := true,
    tables := [ascii "zz", ascii "v", ascii "items"], delimiter := ascii ",",
    include_headers := ascii "true", encoding := [] }

/-- The columns of the table `items`, as `scanFields` reads them. -/
def itemsColumns : List ColumnInfo :=
  [ascii "id", ascii "name", ascii "note", ascii "qty"].map (fun name =>
    { Field := name, Typ := [], Null := [], Key := [], Default := none, Extra := [] })

/-- The rows of the table `items`, as `GetTableDataAll` returns them. -/
def itemsRows : List Row :=
  [[(ascii "id", .str (ascii "1")), (ascii "name", .str (ascii "ann")),
    (ascii "note", .null), (ascii "qty", .int 42)],
   [(ascii "id", .str (ascii "2")), (ascii "name", .str (ascii "bob")),
    (ascii "note", .str []), (ascii "qty", .int (-7))]]

set_option maxRecDepth 100000

/-! ### Facts about the two encodings -/

theorem fromHexChar_hextable (i : Fin 16) : fromHexChar (hextable.getD i.val 0) = some i.val := by
  revert i; decide

theorem hexDecode_encode (k : Bytes) : hexDecodeString (hexEncodeToString k) = some k := by
  induction k with
  | nil => rfl
  | cons b rest ih =>
    have h1 := fromHexChar_hextable ⟨b.val / 16, by omega⟩
    have h2 := fromHexChar_hextable ⟨b.val % 16, by omega⟩
    simp only at h1 h2
    simp only [hexEncodeToString, hexDecodeString, h1, h2, ih]
    congr 2
    apply Fin.ext
    simp only [byte]
    omega

theorem decodeMap_b64Char (i : Fin 64) : decodeMap (b64Char i.val) = some i.val := by
  revert i; decide

theorem b64Char_ne_pad (i : Fin 64) : b64Char i.val ≠ padChar := by
  revert i; decide

theorem b64Char_not_newline (i : Fin 64) : isNewline (b64Char i.val) = false := by
  revert i; decide

theorem filter_newline_encode : ∀ l : Bytes,
    (b64Encode l).filter (fun c => !isNewline c) = b64Encode l
  | [] => rfl
  | [a] => by
    have h0 := b64Char_not_newline ⟨a.val * 65536 / 262144 % 64, by omega⟩
    have h1 := b64Char_not_newline ⟨a.val * 65536 / 4096 % 64, by omega⟩
    have hp : isNewline padChar = false := by decide
    simp only at h0 h1
    simp [b64Encode, List.filter, h0, h1, hp]
  | [a, b] => by
    have h0 := b64Char_not_newline ⟨(a.val * 65536 + b.val * 256) / 262144 % 64, by omega⟩
    have h1 := b64Char_not_newline ⟨(a.val * 65536 + b.val * 256) / 4096 % 64, by omega⟩
    have h2 := b64Char_not_newline ⟨(a.val * 65536 + b.val * 256) / 64 % 64, by omega⟩
    have hp : isNewline padChar = false := by decide
    simp only at h0 h1 h2
    simp [b64Encode, List.filter, h0, h1, h2, hp]
  | a :: b :: c :: rest => by
    have h0 := b64Char_not_newline
      ⟨(a.val * 65536 + b.val * 256 + c.val) / 262144 % 64, by omega⟩
    have h1 := b64Char_not_newline
      ⟨(a.val * 65536 + b.val * 256 + c.val) / 4096 % 64, by omega⟩
    have h2 := b64Char_not_newline
      ⟨(a.val * 65536 + b.val * 256 + c.val) / 64 % 64, by omega⟩
    have h3 := b64Char_not_newline
      ⟨(a.val * 65536 + b.val * 256 + c.val) % 64, by omega⟩
    have ih := filter_newline_encode rest
    simp only at h0 h1 h2 h3
    simp [b64Encode, List.filter, h0, h1, h2, h3, ih]

theorem decodeQuanta_encode : ∀ l : Bytes, decodeQuanta (b64Encode l) = some l
  | [] => rfl
  | [a] => by
    have h0 := decodeMap_b64Char ⟨a.val * 65536 / 262144 % 64, by omega⟩
    have h1 := decodeMap_b64Char ⟨a.val * 65536 / 4096 % 64, by omega⟩
    have hp : decodeMap padChar = none := by decide
    simp only at h0 h1
    simp only [b64Encode, decodeQuanta, h0, h1, hp, and_self, if_true]
    congr 2
    apply Fin.ext
    simp only [byte]
    omega
  | [a, b] => by
    have h0 := decodeMap_b64Char ⟨(a.val * 65536 + b.val * 256) / 262144 % 64, by omega⟩
    have h1 := decodeMap_b64Char ⟨(a.val * 65536 + b.val * 256) / 4096 % 64, by omega⟩
    have h2 := decodeMap_b64Char ⟨(a.val * 65536 + b.val * 256) / 64 % 64, by omega⟩
    have hp : decodeMap padChar = none := by decide
    simp only at h0 h1 h2
    simp only [b64Encode, decodeQuanta, h0, h1, h2, hp, and_self, if_true]
    have e0 : byte (((a.val * 65536 + b.val * 256) / 262144 % 64 * 262144
        + (a.val * 65536 + b.val * 256) / 4096 % 64 * 4096
        + (a.val * 65536 + b.val * 256) / 64 % 64 * 64) / 65536) = a := by
      apply Fin.ext; simp only [byte]; omega
    have e1 : byte (((a.val * 65536 + b.val * 256) / 262144 % 64 * 262144
        + (a.val * 65536 + b.val * 256) / 4096 % 64 * 4096
        + (a.val * 65536 + b.val * 256) / 64 % 64 * 64) / 256) = b := by
      apply Fin.ext; simp only [byte]; omega
    rw [e0, e1]
  | a :: b :: c :: rest => by
    have h0 := decodeMap_b64Char
      ⟨(a.val * 65536 + b.val * 256 + c.val) / 262144 % 64, by omega⟩
    have h1 := decodeMap_b64Char
      ⟨(a.val * 65536 + b.val * 256 + c.val) / 4096 % 64, by omega⟩
    have h2 := decodeMap_b64Char
      ⟨(a.val * 65536 + b.val * 256 + c.val) / 64 % 64, by omega⟩
    have h3 := decodeMap_b64Char
      ⟨(a.val * 65536 + b.val * 256 + c.val) % 64, by omega⟩
    have ih := decodeQuanta_encode rest
    simp only at h0 h1 h2 h3
    simp only [b64Encode, decodeQuanta, h0, h1, h2, h3, ih]
    have ev : (a.val * 65536 + b.val * 256 + c.val) / 262144 % 64 * 262144
        + (a.val * 65536 + b.val * 256 + c.val) / 4096 % 64 * 4096
        + (a.val * 65536 + b.val * 256 + c.val) / 64 % 64 * 64
        + (a.val * 65536 + b.val * 256 + c.val) % 64
        = a.val * 65536 + b.val * 256 + c.val := by omega
    rw [ev]
    have e0 : byte ((a.val * 65536 + b.val * 256 + c.val) / 65536) = a := by
      apply Fin.ext; simp only [byte]; omega
    have e1 : byte ((a.val * 65536 + b.val * 256 + c.val) / 256) = b := by
      apply Fin.ext; simp only [byte]; omega
    have e2 : byte (a.val * 65536 + b.val * 256 + c.val) = c := by
      apply Fin.ext; simp only [byte]; omega
    rw [e0, e1, e2]

/-- Decoding undoes encoding. -/
theorem b64Decode_encode (l : Bytes) : b64Decode (b64Encode l) = some l := by
  unfold b64Decode
  rw [filter_newline_encode, decodeQuanta_encode]

/-- The encoded text of `n` bytes has `4 * ceil(n / 3)` characters. -/
theorem b64Encode_length : ∀ l : Bytes, (b64Encode l).length = 4 * ((l.length + 2) / 3)
  | [] => rfl
  | [_] => by simp [b64Encode]
  | [_, _] => by simp [b64Encode]
  | _ :: _ :: _ :: rest => by
    have ih := b64Encode_length rest
    simp only [b64Encode, List.length_cons, ih]
    omega

theorem toyTag_length (key nonce plaintext : Bytes) : (toyTag key nonce plaintext).length = 16 := by
  simp [toyTag]

theorem toyGCM_inverse : toyGCM.Inverse := by
  intro key nonce plaintext
  have hmap : (plaintext.map (fun b => b + toyPad key nonce)).map
      (fun b => b - toyPad key nonce) = plaintext := by
    rw [List.map_map]
    conv => rhs; rw [← List.map_id plaintext]
    apply List.map_congr_left
    intro a _
    simp
  have hlen : (toySeal key nonce plaintext).length - 16 = plaintext.length := by
    simp [toySeal, toyTag_length]
  show toyOpen key nonce (toySeal key nonce plaintext) = some plaintext
  unfold toyOpen
  rw [if_neg (by simp [toySeal, toyTag_length])]
  simp only [hlen]
  have htake : (toySeal key nonce plaintext).take plaintext.length
      = plaintext.map (fun b => b + toyPad key nonce) := by
    unfold toySeal
    rw [List.take_left' (by simp)]
  have hdrop : (toySeal key nonce plaintext).drop plaintext.length
      = toyTag key nonce plaintext := by
    unfold toySeal
    rw [List.drop_left' (by simp)]
  rw [htake, hdrop, hmap]
  simp

theorem toyGCM_exact : toyGCM.Exact := by
  intro key nonce box plaintext h
  change toyOpen key nonce box = some plaintext at h
  unfold toyOpen at h
  split at h
  · exact absurd h (by simp)
  · simp only at h
    split at h
    · rename_i htag
      have hp := Option.some.inj h
      show box = toySeal key nonce plaintext
      unfold toySeal
      subst hp
      rw [← htag, List.map_map]
      have hid : (box.take (box.length - 16)).map
          ((fun b => b + toyPad key nonce) ∘ fun b => b - toyPad key nonce)
          = box.take (box.length - 16) := by
        conv => rhs; rw [← List.map_id (box.take (box.length - 16))]
        apply List.map_congr_left
        intro a _
        simp
      rw [hid, List.take_append_drop]
    · exact absurd h (by simp)

theorem toyGCM_noShrink : toyGCM.NoShrink := by
  intro key nonce plaintext
  show plaintext.length ≤ (toySeal key nonce plaintext).length
  simp [toySeal]

/-! ### The key -/

theorem readFull_length {r r1 : Entropy} {n : Nat} {bs : Bytes}
    (h : readFull r n = (some bs, r1)) : bs.length = n := by
  unfold readFull at h
  split at h
  · simp at h
  · simp at h
  · simp only [Prod.mk.injEq, Option.some.injEq] at h
    rw [← h.1]
    simp

theorem storedKey_length {s : Settings} {key : Bytes} (h : storedKey s = some key) :
    key.length = 32 := by
  unfold storedKey at h
  split at h
  · split at h
    · split at h
      · rename_i hl
        rw [← Option.some.inj h]; exact hl
      · simp at h
    · simp at h
  · simp at h

theorem hexEncode_ne_nil {k : Bytes} (h : k ≠ []) : hexEncodeToString k ≠ [] := by
  cases k with
  | nil => exact absurd rfl h
  | cons b rest => simp [hexEncodeToString]

/-- A key of 32 bytes written to the settings as hex is read back as itself. -/
theorem storedKey_hexEncode (servers : List ServerConfig) {key : Bytes}
    (h : key.length = 32) :
    storedKey { Servers := servers, EncryptionKey := hexEncodeToString key } = some key := by
  have hne : key ≠ [] := by
    intro h0; rw [h0] at h; simp at h
  unfold storedKey
  simp only
  rw [if_pos (hexEncode_ne_nil hne), hexDecode_encode]
  simp [h]

theorem fallbackKey_length : fallbackKey.length = 32 := by
  decide

theorem GetEncryptionKey_stored {w : World} {key : Bytes}
    (h : storedKey w.settings = some key) : GetEncryptionKey w = (key, w) := by
  unfold GetEncryptionKey
  rw [h]

/-- The key returned always has 32 bytes. -/
theorem GetEncryptionKey_length (w : World) : (GetEncryptionKey w).1.length = 32 := by
  unfold GetEncryptionKey
  split
  · rename_i key h
    exact storedKey_length h
  · split
    · exact fallbackKey_length
    · rename_i key r h
      exact readFull_length h

theorem aesNewCipher_of_length {key : Bytes} (h : key.length = 32) : aesNewCipher key = true := by
  simp [aesNewCipher, h]

/-- `GetEncryptionKey` leaves the profile list alone. -/
theorem GetEncryptionKey_servers (w : World) :
    (GetEncryptionKey w).2.settings.Servers = w.settings.Servers := by
  unfold GetEncryptionKey
  split
  · rfl
  · split <;> rfl

/-- A token opens, under the key and nonce it was sealed with, to its plaintext. -/
theorem openToken_sealToken {A : AEAD} (hA : A.Inverse) {key nonce : Bytes}
    (hk : key.length = 32) (hn : nonce.length = nonceSize) (plaintext : Bytes) :
    openToken A key (sealToken A key nonce plaintext) = .ok plaintext := by
  unfold openToken sealToken
  rw [b64Decode_encode]
  simp only [aesNewCipher_of_length hk, if_true]
  rw [if_neg (by simp [hn])]
  rw [← hn, List.take_left, List.drop_left, hA]

theorem GetEncryptionKey_fallback {w : World} (hs : storedKey w.settings = none)
    (hr : (readFull w.rand 32).1 = none) :
    GetEncryptionKey w = (fallbackKey, { w with rand := (readFull w.rand 32).2 }) := by
  unfold GetEncryptionKey
  rw [hs]
  simp only
  split
  · rename_i r h
    rw [h]
  · rename_i key r h
    rw [h] at hr
    exact absurd hr (by simp)

/-- What a successful `Encrypt` has done: the token is sealed under a 32-byte
key and a 12-byte nonce, the profile list is untouched, and afterwards either
the key is the stored one or nothing valid is stored and the key was the
fallback. -/
theorem Encrypt_ok {A : AEAD} {P T : Bytes} {w w1 : World}
    (hE : Encrypt A P w = (.ok T, w1)) :
    ∃ key nonce, key.length = 32 ∧ nonce.length = nonceSize ∧ T = sealToken A key nonce P ∧
      w1.settings.Servers = w.settings.Servers ∧
      (storedKey w1.settings = some key ∨
        (storedKey w1.settings = none ∧ storedKey w.settings = none ∧ key = fallbackKey)) := by
  unfold Encrypt at hE
  have hlen := GetEncryptionKey_length w
  have hsrv := GetEncryptionKey_servers w
  have hcases : storedKey (GetEncryptionKey w).2.settings = some (GetEncryptionKey w).1 ∨
      (storedKey (GetEncryptionKey w).2.settings = none ∧ storedKey w.settings = none ∧
        (GetEncryptionKey w).1 = fallbackKey) := by
    unfold GetEncryptionKey
    split
    · rename_i key h
      exact Or.inl h
    · rename_i h
      split
      · exact Or.inr ⟨h, h, rfl⟩
      · rename_i key r hr
        exact Or.inl (storedKey_hexEncode _ (readFull_length hr))
  generalize GetEncryptionKey w = g at hE hlen hsrv hcases
  obtain ⟨key, w0⟩ := g
  simp only at hE hlen hsrv hcases
  rw [if_pos (aesNewCipher_of_length hlen)] at hE
  split at hE
  · simp at hE
  · rename_i nonce r hr
    simp only [Prod.mk.injEq, Except.ok.injEq] at hE
    obtain ⟨hT, hw⟩ := hE
    refine ⟨key, nonce, hlen, readFull_length hr, hT.symm, ?_, ?_⟩
    · rw [← hw]; exact hsrv
    · rw [← hw]; exact hcases

/-- After a successful `Encrypt`, under the proviso of C1, the next call of
`GetEncryptionKey` returns the key the token was sealed under. -/
theorem Encrypt_key_kept {A : AEAD} {P T : Bytes} {w w1 : World}
    (hE : Encrypt A P w = (.ok T, w1))
    (hk : storedKey w1.settings ≠ none ∨ (readFull w1.rand 32).1 = none) :
    ∃ nonce, nonce.length = nonceSize ∧
      T = sealToken A (GetEncryptionKey w1).1 nonce P := by
  obtain ⟨key, nonce, -, hnl, hT, -, hs⟩ := Encrypt_ok hE
  refine ⟨nonce, hnl, ?_⟩
  rcases hs with hs | ⟨hs, -, hf⟩
  · rw [GetEncryptionKey_stored hs]
    exact hT
  · rcases hk with hk | hk
    · exact absurd hs hk
    · rw [GetEncryptionKey_fallback hs hk, ← hf]
      exact hT

/-- C1 (amended). When `Encrypt(P)` returns a token `T`, `Decrypt(T)` called
next in the same process returns exactly `P`, provided a valid key is stored
once `Encrypt` has returned (it was stored before, or `Encrypt` generated it)
or the random read of `Decrypt` fails as well, so that both calls use the
fallback key. -/
theorem Decrypt_Encrypt (A : AEAD) (hA : A.Inverse) (P T : Bytes) (w w1 : World)
    (hE : Encrypt A P w = (.ok T, w1))
    (hk : storedKey w1.settings ≠ none ∨ (readFull w1.rand 32).1 = none) :
    (Decrypt A T w1).1 = .ok P := by
  obtain ⟨nonce, hnl, hT⟩ := Encrypt_key_kept hE hk
  have hkl := GetEncryptionKey_length w1
  unfold Decrypt
  simp only
  rw [hT]
  exact openToken_sealToken hA hkl hnl P

/-- The first scenario behind the proviso of C1, for any cipher: without a
stored key, when the random read for the key fails, the one for the nonce
succeeds and the next one succeeds as well, `Encrypt` seals under the
fallback key and `Decrypt` opens under the key it has just generated. -/
theorem Decrypt_Encrypt_flaky_keys (A : AEAD) (P : Bytes) :
    (Encrypt A P flakyWorld).1 = .ok (sealToken A fallbackKey sampleNonce P) ∧
    (Decrypt A (sealToken A fallbackKey sampleNonce P) (Encrypt A P flakyWorld).2).1
      = openToken A sampleKey (sealToken A fallbackKey sampleNonce P) :=
  ⟨rfl, rfl⟩

/-- `Encrypt` returns an error, and no token, when the random read for the
nonce fails. -/
theorem Encrypt_nonce_failure (A : AEAD) (P : Bytes) (w : World)
    (h : (readFull (GetEncryptionKey w).2.rand nonceSize).1 = none) :
    (Encrypt A P w).1 = .error .randRead := by
  unfold Encrypt
  have hlen := GetEncryptionKey_length w
  generalize GetEncryptionKey w = g at h hlen
  obtain ⟨key, w0⟩ := g
  simp only at h hlen ⊢
  rw [if_pos (aesNewCipher_of_length hlen)]
  generalize readFull w0.rand nonceSize = rd at h
  obtain ⟨ro, r⟩ := rd
  cases ro with
  | none => rfl
  | some n => simp at h

/-- C1, witness: a key generated by `Encrypt` itself, then `Decrypt`. -/
theorem Decrypt_Encrypt_witness :
    toyGCM.Inverse ∧
    Encrypt toyGCM (ascii "abc") healthyWorld
      = (.ok sampleToken, (Encrypt toyGCM (ascii "abc") healthyWorld).2) ∧
    (storedKey (Encrypt toyGCM (ascii "abc") healthyWorld).2.settings ≠ none ∨
      (readFull (Encrypt toyGCM (ascii "abc") healthyWorld).2.rand 32).1 = none) ∧
    (Decrypt toyGCM sampleToken (Encrypt toyGCM (ascii "abc") healthyWorld).2).1
      = .ok (ascii "abc") :=
  ⟨toyGCM_inverse, rfl, Or.inl (by decide),
    Decrypt_Encrypt toyGCM toyGCM_inverse (ascii "abc") sampleToken healthyWorld
      (Encrypt toyGCM (ascii "abc") healthyWorld).2 rfl (Or.inl (by decide))⟩

/-- C1, counterexample: no key is stored, the random read of `Encrypt` for the
key fails and the one for the nonce succeeds, so the token is sealed under
the fallback key, which is not stored; the random read of `Decrypt` succeeds,
so `Decrypt` uses a new key and rejects the token. -/
theorem Decrypt_Encrypt_fallback_counterexample :
    (Encrypt toyGCM (ascii "secret") flakyWorld).1
      = .ok (ascii "bm9uY2UtMDAwMDAxJhgWJRgnhoaGhoaGhoaGhoaGhoaGhg==") ∧
    (GetEncryptionKey flakyWorld).1 = fallbackKey ∧
    (GetEncryptionKey (Encrypt toyGCM (ascii "secret") flakyWorld).2).1 = sampleKey ∧
    (Decrypt toyGCM (ascii "bm9uY2UtMDAwMDAxJhgWJRgnhoaGhoaGhoaGhoaGhoaGhg==")
      (Encrypt toyGCM (ascii "secret") flakyWorld).2).1 = .error .openFailed := by
  decide

/-- What `openToken` accepts: when it returns a plaintext, the input decodes
to a 12-byte nonce followed by the sealed box of that plaintext. -/
theorem openToken_ok {A : AEAD} (hX : A.Exact) {key c P : Bytes}
    (h : openToken A key c = .ok P) :
    ∃ nonce, nonce.length = nonceSize ∧ b64Decode c = some (nonce ++ A.Seal key nonce P) := by
  unfold openToken at h
  split at h
  · simp at h
  · rename_i data hd
    split at h
    · split at h
      · simp at h
      · rename_i hlen
        split at h
        · simp at h
        · rename_i plaintext ho
          have hp : plaintext = P := by
            simpa using h
          subst hp
          refine ⟨data.take nonceSize, ?_, ?_⟩
          · rw [List.length_take]; omega
          · rw [hd, ← hX _ _ _ _ ho, List.take_append_drop]
    · simp at h

/-- The result of `openToken` depends on the input through its decoding only. -/
theorem openToken_congr (A : AEAD) (key : Bytes) {c c1 : Bytes}
    (h : b64Decode c1 = b64Decode c) : openToken A key c1 = openToken A key c := by
  unfold openToken
  rw [h]

/-! ### Texts that differ from a token in one byte -/

theorem echoSeal_length (key nonce plaintext : Bytes) :
    (echoSeal key nonce plaintext).length = 4 * plaintext.length + 3 * nonce.length := by
  simp only [echoSeal, List.length_append, List.length_map]
  omega

theorem echoGCM_inverse : echoGCM.Inverse := by
  intro key nonce plaintext
  show echoOpen key nonce (echoSeal key nonce plaintext) = some plaintext
  have hm : ((echoSeal key nonce plaintext).length - 3 * nonce.length) / 4
      = plaintext.length := by
    rw [echoSeal_length]
    omega
  have hp : ((echoSeal key nonce plaintext).take
      (((echoSeal key nonce plaintext).length - 3 * nonce.length) / 4)).map
        (fun b => b - toyPad key nonce) = plaintext := by
    rw [hm]
    simp only [echoSeal, List.append_assoc]
    rw [List.take_left' (by simp)]
    simp [List.map_map, Function.comp_def]
  unfold echoOpen
  rw [hp]
  simp

theorem echoGCM_exact : echoGCM.Exact := by
  intro key nonce box plaintext h
  have h2 : echoOpen key nonce box = some plaintext := h
  unfold echoOpen at h2
  split at h2
  · rename_i hb
    simp only [Option.some.injEq] at h2
    rw [h2] at hb
    exact hb
  · simp at h2

/-- Two strings written four times each that agree but for one stretch of
at most three bytes are the same string. -/
theorem four_copies_window (X X1 pre mid mid1 post : Bytes)
    (h : X ++ X ++ X ++ X = pre ++ mid ++ post)
    (h1 : X1 ++ X1 ++ X1 ++ X1 = pre ++ mid1 ++ post)
    (hm : mid.length ≤ 3) (hm1 : mid1.length ≤ 3) :
    X = X1 := by
  have hl := congrArg List.length h
  have hl1 := congrArg List.length h1
  simp only [List.length_append] at hl hl1
  have hn : X.length = X1.length := by omega
  by_cases hp : X.length ≤ pre.length
  · have e : (X ++ X ++ X ++ X).take X.length = (pre ++ mid ++ post).take X.length := by
      rw [h]
    have e1 : (X1 ++ X1 ++ X1 ++ X1).take X.length = (pre ++ mid1 ++ post).take X.length := by
      rw [h1]
    rw [List.append_assoc, List.append_assoc, List.take_left' rfl, List.append_assoc,
      List.take_append_of_le_length hp] at e
    rw [List.append_assoc, List.append_assoc, List.take_left' hn.symm, List.append_assoc,
      List.take_append_of_le_length hp] at e1
    rw [e, e1]
  · have e : (X ++ X ++ X ++ X).drop (3 * X.length)
        = (pre ++ mid ++ post).drop (3 * X.length) := by
      rw [h]
    have e1 : (X1 ++ X1 ++ X1 ++ X1).drop (3 * X.length)
        = (pre ++ mid1 ++ post).drop (3 * X.length) := by
      rw [h1]
    have k : 3 * X.length = (pre ++ mid).length + (post.length - X.length) := by
      simp only [List.length_append]
      omega
    have k1 : 3 * X.length = (pre ++ mid1).length + (post.length - X.length) := by
      simp only [List.length_append]
      omega
    rw [List.drop_left' (by simp only [List.length_append]; omega)] at e e1
    conv at e => rhs; rw [k, List.drop_append]
    conv at e1 => rhs; rw [k1, List.drop_append]
    rw [e, e1]

/-- The nonce followed by the box of the second small cipher is one string
four times. -/
theorem echoSeal_message (key nonce plaintext : Bytes) :
    nonce ++ echoSeal key nonce plaintext
      = (nonce ++ plaintext.map (fun b => b + toyPad key nonce))
        ++ (nonce ++ plaintext.map (fun b => b + toyPad key nonce))
        ++ (nonce ++ plaintext.map (fun b => b + toyPad key nonce))
        ++ (nonce ++ plaintext.map (fun b => b + toyPad key nonce)) := by
  simp only [echoSeal, List.append_assoc]

theorem echoGCM_tamperEvident : echoGCM.TamperEvident := by
  intro key nonce plaintext pre mid mid1 post hn hd hm hm1 hne hlen
  cases ho : echoGCM.Open key ((pre ++ mid1 ++ post).take nonceSize)
      ((pre ++ mid1 ++ post).drop nonceSize) with
  | none => rfl
  | some p1 =>
    exfalso
    have hb := echoGCM_exact _ _ _ _ ho
    have hn1 : ((pre ++ mid1 ++ post).take nonceSize).length = nonceSize := by
      rw [List.length_take]
      omega
    have hd1 : (pre ++ mid1 ++ post).take nonceSize
        ++ echoSeal key ((pre ++ mid1 ++ post).take nonceSize) p1 = pre ++ mid1 ++ post := by
      have : echoGCM.Seal key ((pre ++ mid1 ++ post).take nonceSize) p1
          = echoSeal key ((pre ++ mid1 ++ post).take nonceSize) p1 := rfl
      rw [← this, ← hb, List.take_append_drop]
    have hd0 : nonce ++ echoSeal key nonce plaintext = pre ++ mid ++ post := hd
    generalize (pre ++ mid1 ++ post).take nonceSize = nonce1 at hn1 hd1
    rw [echoSeal_message] at hd0 hd1
    have hX := four_copies_window _ _ pre mid mid1 post hd0 hd1 hm hm1
    rw [hX, hd1] at hd0
    rw [List.append_assoc, List.append_assoc] at hd0
    exact hne (List.append_cancel_right (List.append_cancel_left hd0))

/-- Two strings of one length without a position at which they differ are
the same string. -/
theorem eq_of_zip_filter_nil :
    ∀ (s t : Bytes), s.length = t.length →
      ((s.zip t).filter (fun p => p.1 ≠ p.2)).length = 0 → s = t := by
  intro s
  induction s with
  | nil =>
    intro t hl _
    cases t with
    | nil => rfl
    | cons b t => simp at hl
  | cons a s ih =>
    intro t hl hf
    cases t with
    | nil => simp at hl
    | cons b t =>
      simp only [List.length_cons, Nat.add_right_cancel_iff] at hl
      simp only [List.zip_cons_cons, List.filter_cons] at hf
      by_cases hab : a = b
      · subst hab
        simp only [ne_eq, not_true_eq_false, decide_False, Bool.false_eq_true, if_false] at hf
        rw [ih t hl hf]
      · simp [hab] at hf

/-- Two strings that differ in exactly one byte are one string with one
byte replaced. -/
theorem differInOneByte_split :
    ∀ (s t : Bytes), differInOneByte s t = true →
      ∃ l1 a b l2, s = l1 ++ a :: l2 ∧ t = l1 ++ b :: l2 ∧ a ≠ b := by
  intro s
  induction s with
  | nil =>
    intro t h
    cases t with
    | nil => simp [differInOneByte] at h
    | cons b t => simp [differInOneByte] at h
  | cons a s ih =>
    intro t h
    cases t with
    | nil => simp [differInOneByte] at h
    | cons b t =>
      simp only [differInOneByte, List.length_cons, Nat.add_right_cancel_iff,
        List.zip_cons_cons, List.filter_cons, Bool.and_eq_true, decide_eq_true_eq] at h
      obtain ⟨hl, hf⟩ := h
      by_cases hab : a = b
      · subst hab
        simp only [ne_eq, not_true_eq_false, decide_False, Bool.false_eq_true, if_false] at hf
        have hd : differInOneByte s t = true := by
          simp only [differInOneByte, hl, decide_True, Bool.true_and, decide_eq_true_eq]
          exact hf
        obtain ⟨l1, x, y, l2, hs, ht, hxy⟩ := ih t hd
        exact ⟨a :: l1, x, y, l2, by rw [hs]; rfl, by rw [ht]; rfl, hxy⟩
      · simp only [ne_eq, hab, not_false_eq_true, decide_True, if_true, List.length_cons,
          Nat.add_left_eq_self] at hf
        have := eq_of_zip_filter_nil s t hl (by simpa using hf)
        exact ⟨[], a, b, s, rfl, by rw [this]; rfl, hab⟩


/-- What the decoder makes of a text that begins with four characters:
three bytes and the decoding of the rest, or, when nothing follows, one or
two bytes. -/
theorem decodeQuanta_four (u0 u1 u2 u3 : Byte) (tail d1 : Bytes)
    (h : decodeQuanta (u0 :: u1 :: u2 :: u3 :: tail) = some d1) :
    (∃ g out, g.length = 3 ∧ decodeQuanta tail = some out ∧ d1 = g ++ out) ∨
    (tail = [] ∧ d1.length ≤ 2) := by
  rw [decodeQuanta] at h
  split at h
  · split at h
    · cases hq : decodeQuanta tail with
      | none => rw [hq] at h; simp at h
      | some out =>
        rw [hq] at h
        simp only [Option.some.injEq] at h
        left
        refine ⟨d1.take 3, out, ?_, rfl, ?_⟩
        · rw [← h]; simp
        · rw [← h]; simp
    · split at h
      · rename_i hc
        simp only [Option.some.injEq] at h
        right
        exact ⟨hc.2, by rw [← h]; simp⟩
      · simp at h
    · split at h
      · rename_i hc
        simp only [Option.some.injEq] at h
        right
        exact ⟨hc.2.2, by rw [← h]; simp⟩
      · simp at h
  · simp at h

/-- The decoder accepts only texts whose length is a multiple of four. -/
theorem decodeQuanta_length :
    ∀ (t d : Bytes), decodeQuanta t = some d → t.length % 4 = 0 ∧ d.length * 4 ≤ t.length * 3
  | [], d, h => by
    simp only [decodeQuanta, Option.some.injEq] at h
    subst h
    simp
  | [_], d, h => by simp [decodeQuanta] at h
  | [_, _], d, h => by simp [decodeQuanta] at h
  | [_, _, _], d, h => by simp [decodeQuanta] at h
  | u0 :: u1 :: u2 :: u3 :: tail, d, h => by
    rcases decodeQuanta_four u0 u1 u2 u3 tail d h with ⟨g, out, hg, ho, hd⟩ | ⟨ht, hd⟩
    · have ih := decodeQuanta_length tail out ho
      subst hd
      simp only [List.length_cons, List.length_append, hg]
      omega
    · subst ht
      refine ⟨by simp, ?_⟩
      simp only [List.length_cons, List.length_nil]
      omega


/-- The decoder reads the four characters written for three bytes back as
these bytes, whatever follows. -/
theorem decodeQuanta_encode_cons (a b c : Byte) (tail : Bytes) :
    decodeQuanta (b64Char ((a.val * 65536 + b.val * 256 + c.val) / 262144 % 64)
        :: b64Char ((a.val * 65536 + b.val * 256 + c.val) / 4096 % 64)
        :: b64Char ((a.val * 65536 + b.val * 256 + c.val) / 64 % 64)
        :: b64Char ((a.val * 65536 + b.val * 256 + c.val) % 64) :: tail)
      = match decodeQuanta tail with
        | some out => some (a :: b :: c :: out)
        | none => none := by
  have h0 := decodeMap_b64Char
    ⟨(a.val * 65536 + b.val * 256 + c.val) / 262144 % 64, by omega⟩
  have h1 := decodeMap_b64Char
    ⟨(a.val * 65536 + b.val * 256 + c.val) / 4096 % 64, by omega⟩
  have h2 := decodeMap_b64Char
    ⟨(a.val * 65536 + b.val * 256 + c.val) / 64 % 64, by omega⟩
  have h3 := decodeMap_b64Char
    ⟨(a.val * 65536 + b.val * 256 + c.val) % 64, by omega⟩
  simp only at h0 h1 h2 h3
  simp only [decodeQuanta, h0, h1, h2, h3]
  have ev : (a.val * 65536 + b.val * 256 + c.val) / 262144 % 64 * 262144
      + (a.val * 65536 + b.val * 256 + c.val) / 4096 % 64 * 4096
      + (a.val * 65536 + b.val * 256 + c.val) / 64 % 64 * 64
      + (a.val * 65536 + b.val * 256 + c.val) % 64
      = a.val * 65536 + b.val * 256 + c.val := by omega
  rw [ev]
  have e0 : byte ((a.val * 65536 + b.val * 256 + c.val) / 65536) = a := by
    apply Fin.ext; simp only [byte]; omega
  have e1 : byte ((a.val * 65536 + b.val * 256 + c.val) / 256) = b := by
    apply Fin.ext; simp only [byte]; omega
  have e2 : byte (a.val * 65536 + b.val * 256 + c.val) = c := by
    apply Fin.ext; simp only [byte]; omega
  rw [e0, e1, e2]

theorem b64Encode_eq_nil {l : Bytes} (h : b64Encode l = []) : l = [] := by
  have hl := b64Encode_length l
  rw [h] at hl
  simp only [List.length_nil] at hl
  apply List.length_eq_zero.mp
  omega

/-- When one character of the text written for `d` is replaced and the
decoder still accepts the text, the bytes it returns are those of `d` but
for one stretch of at most three bytes, in the place of which they hold a
stretch of at most three bytes. -/
theorem decodeQuanta_window :
    ∀ (d l1 : Bytes) (a b : Byte) (l2 d1 : Bytes), b64Encode d = l1 ++ a :: l2 →
      decodeQuanta (l1 ++ b :: l2) = some d1 →
      ∃ pre mid mid1 post, d = pre ++ mid ++ post ∧ d1 = pre ++ mid1 ++ post ∧
        mid.length ≤ 3 ∧ mid1.length ≤ 3
  | [], l1, a, b, l2, d1, hT, _ => by
    simp [b64Encode] at hT
  | [x], l1, a, b, l2, d1, hT, hD => by
    have hl : (l1 ++ b :: l2).length = 4 := by
      have := congrArg List.length hT
      simp only [b64Encode, List.length_cons, List.length_nil, List.length_append] at this
      simp only [List.length_append, List.length_cons]
      omega
    have := (decodeQuanta_length _ _ hD).2
    rw [hl] at this
    exact ⟨[], [x], d1, [], rfl, by simp, by simp, by omega⟩
  | [x, y], l1, a, b, l2, d1, hT, hD => by
    have hl : (l1 ++ b :: l2).length = 4 := by
      have := congrArg List.length hT
      simp only [b64Encode, List.length_cons, List.length_nil, List.length_append] at this
      simp only [List.length_append, List.length_cons]
      omega
    have := (decodeQuanta_length _ _ hD).2
    rw [hl] at this
    exact ⟨[], [x, y], d1, [], rfl, by simp, by simp, by omega⟩
  | x :: y :: z :: rest, l1, a, b, l2, d1, hT, hD => by
    have first : ∀ u0 u1 u2 u3 : Byte,
        decodeQuanta (u0 :: u1 :: u2 :: u3 :: b64Encode rest) = some d1 →
        ∃ pre mid mid1 post, x :: y :: z :: rest = pre ++ mid ++ post ∧
          d1 = pre ++ mid1 ++ post ∧ mid.length ≤ 3 ∧ mid1.length ≤ 3 := by
      intro u0 u1 u2 u3 h
      rcases decodeQuanta_four u0 u1 u2 u3 _ d1 h with ⟨g, out, hg, ho, hd⟩ | ⟨ht, hd⟩
      · rw [decodeQuanta_encode] at ho
        simp only [Option.some.injEq] at ho
        subst ho
        exact ⟨[], [x, y, z], g, rest, rfl, by simpa using hd, by simp, by omega⟩
      · have hr := b64Encode_eq_nil ht
        subst hr
        exact ⟨[], [x, y, z], d1, [], rfl, by simp, by simp, by omega⟩
    rw [b64Encode] at hT
    rcases l1 with _ | ⟨e0, _ | ⟨e1, _ | ⟨e2, _ | ⟨e3, l1⟩⟩⟩⟩
    · simp only [List.nil_append, List.cons.injEq] at hT
      obtain ⟨-, hl2⟩ := hT
      rw [← hl2] at hD
      exact first _ _ _ _ hD
    · simp only [List.cons_append, List.nil_append, List.cons.injEq] at hT
      obtain ⟨-, -, hl2⟩ := hT
      rw [← hl2] at hD
      exact first _ _ _ _ hD
    · simp only [List.cons_append, List.nil_append, List.cons.injEq] at hT
      obtain ⟨-, -, -, hl2⟩ := hT
      rw [← hl2] at hD
      exact first _ _ _ _ hD
    · simp only [List.cons_append, List.nil_append, List.cons.injEq] at hT
      obtain ⟨-, -, -, -, hl2⟩ := hT
      rw [← hl2] at hD
      exact first _ _ _ _ hD
    · simp only [List.cons_append, List.cons.injEq] at hT
      obtain ⟨h0, h1, h2, h3, hrest⟩ := hT
      rw [List.cons_append, List.cons_append, List.cons_append, List.cons_append,
        ← h0, ← h1, ← h2, ← h3, decodeQuanta_encode_cons] at hD
      cases hq : decodeQuanta (l1 ++ b :: l2) with
      | none => rw [hq] at hD; simp at hD
      | some out =>
        rw [hq] at hD
        simp only [Option.some.injEq] at hD
        obtain ⟨pre, mid, mid1, post, hd, ho, hm, hm1⟩ :=
          decodeQuanta_window rest l1 a b l2 out hrest hq
        refine ⟨x :: y :: z :: pre, mid, mid1, post, ?_, ?_, hm, hm1⟩
        · rw [hd]; simp
        · rw [← hD, ho]; simp


/-- When a text differs in exactly one byte from the text written for `d`
and the decoder accepts it, the bytes it returns are those of `d` but for
one stretch of at most three bytes, in the place of which they hold a
stretch of at most three bytes. -/
theorem b64Decode_window (d T1 d1 : Bytes) (h1 : differInOneByte (b64Encode d) T1 = true)
    (hD : b64Decode T1 = some d1) :
    ∃ pre mid mid1 post, d = pre ++ mid ++ post ∧ d1 = pre ++ mid1 ++ post ∧
      mid.length ≤ 3 ∧ mid1.length ≤ 3 := by
  obtain ⟨l1, a, b, l2, hT, hT1, -⟩ := differInOneByte_split _ _ h1
  have hall : ∀ x ∈ l1 ++ a :: l2, (!isNewline x) = true := by
    have hf := filter_newline_encode d
    rw [hT] at hf
    exact List.filter_eq_self.mp hf
  have hf1 : l1.filter (fun c => !isNewline c) = l1 :=
    List.filter_eq_self.mpr (fun x hx => hall x (by simp [hx]))
  have hf2 : l2.filter (fun c => !isNewline c) = l2 :=
    List.filter_eq_self.mpr (fun x hx => hall x (by simp [hx]))
  unfold b64Decode at hD
  rw [hT1, List.filter_append, List.filter_cons, hf1, hf2] at hD
  by_cases hb : isNewline b = true
  · exfalso
    simp only [hb, Bool.not_true, Bool.false_eq_true, if_false] at hD
    have hm := (decodeQuanta_length _ _ hD).1
    have hl := b64Encode_length d
    rw [hT] at hl
    simp only [List.length_append, List.length_cons] at hl hm
    omega
  · have hb2 : (!isNewline b) = true := by simpa using hb
    rw [if_pos hb2] at hD
    exact decodeQuanta_window d l1 a b l2 d1 hT hD


/-- A text that differs in exactly one byte from a token and does not decode
to the bytes of the token is rejected, by a cipher that is tamper evident. -/
theorem openToken_tampered {A : AEAD} (hT : A.TamperEvident) {key nonce P T1 : Bytes}
    (hkl : key.length = 32) (hn : nonce.length = nonceSize)
    (h1 : differInOneByte (sealToken A key nonce P) T1 = true)
    (hne : b64Decode T1 ≠ b64Decode (sealToken A key nonce P)) :
    openToken A key T1 = .error .corruptInput ∨
    openToken A key T1 = .error .ciphertextTooShort ∨
    openToken A key T1 = .error .openFailed := by
  unfold openToken
  cases hD : b64Decode T1 with
  | none => exact Or.inl rfl
  | some d1 =>
    simp only [aesNewCipher_of_length hkl, if_true]
    by_cases hs : d1.length < nonceSize
    · rw [if_pos hs]
      exact Or.inr (Or.inl rfl)
    · rw [if_neg hs]
      right; right
      have hd : b64Decode (sealToken A key nonce P) = some (nonce ++ A.Seal key nonce P) := by
        unfold sealToken
        exact b64Decode_encode _
      obtain ⟨pre, mid, mid1, post, e, e1, hm, hm1⟩ :=
        b64Decode_window (nonce ++ A.Seal key nonce P) T1 d1 h1 hD
      have hmm : mid1 ≠ mid := by
        intro hmm
        apply hne
        rw [hD, hd, e, e1, hmm]
      have ho := hT key nonce P pre mid mid1 post hn e hm hm1 hmm
        (by rw [← e1]; omega)
      rw [← e1] at ho
      rw [ho]

/-- C2 (amended). Let `T` be a token returned by `Encrypt(P)`, with the key
of `Decrypt` the key of `Encrypt`, and let `T1` differ from `T` in exactly
one byte. If `T1` decodes to the same bytes as `T`, `Decrypt(T1)` returns
`P`. In every other case `Decrypt(T1)` returns an error, for a cipher that
is tamper evident: the error of the decoder when `T1` is not valid base64,
and else the error of a text that is too short or the error of `Open`. -/
theorem Decrypt_tampered (A : AEAD) (hA : A.Inverse) (hT : A.TamperEvident)
    (P T T1 : Bytes) (w w1 : World) (hE : Encrypt A P w = (.ok T, w1))
    (hk : storedKey w1.settings ≠ none ∨ (readFull w1.rand 32).1 = none)
    (h1 : differInOneByte T T1 = true) :
    (b64Decode T1 = b64Decode T → (Decrypt A T1 w1).1 = .ok P) ∧
    (b64Decode T1 ≠ b64Decode T →
      (Decrypt A T1 w1).1 = .error .corruptInput ∨
      (Decrypt A T1 w1).1 = .error .ciphertextTooShort ∨
      (Decrypt A T1 w1).1 = .error .openFailed) ∧
    (b64Decode T1 = none → (Decrypt A T1 w1).1 = .error .corruptInput) := by
  obtain ⟨nonce, hnl, hTok⟩ := Encrypt_key_kept hE hk
  refine ⟨?_, ?_, ?_⟩
  · intro hd
    unfold Decrypt
    simp only
    rw [openToken_congr A _ hd, hTok]
    exact openToken_sealToken hA (GetEncryptionKey_length w1) hnl P
  · intro hd
    unfold Decrypt
    simp only
    rw [hTok] at h1 hd
    exact openToken_tampered hT (GetEncryptionKey_length w1) hnl h1 hd
  · intro hd
    unfold Decrypt
    simp only
    unfold openToken
    rw [hd]


/-- The first small cipher is not tamper evident: with the first byte of the
nonce lowered by 16 the box of `abc` is opened, as another plaintext. -/
theorem toyGCM_not_tamperEvident : ¬ toyGCM.TamperEvident := by
  intro h
  have h0 := h sampleKey sampleNonce (ascii "abc") [] [0x6E] [0x5E]
    ((sampleNonce ++ toySeal sampleKey sampleNonce (ascii "abc")).drop 1)
    (by decide) (by decide) (by decide) (by decide) (by decide) (by decide)
  revert h0
  decide

/-- C2, witness: the token of `pw` with the second small cipher, and three
texts that differ from it in exactly one byte. With a character of the box
changed the text decodes to other bytes and `Open` rejects it; with a
character that is not in the alphabet the decoder rejects it; with the last
character before the padding changed in its unused bits the text decodes to
the same bytes and `Decrypt` returns the plaintext. -/
theorem Decrypt_tampered_witness :
    echoGCM.Inverse ∧ echoGCM.TamperEvident ∧
    Encrypt echoGCM (ascii "pw") healthyWorld
      = (.ok echoToken, (Encrypt echoGCM (ascii "pw") healthyWorld).2) ∧
    (differInOneByte echoToken echoForged = true ∧
      b64Decode echoForged ≠ b64Decode echoToken ∧
      ((Decrypt echoGCM echoForged (Encrypt echoGCM (ascii "pw") healthyWorld).2).1
          = .error .corruptInput ∨
        (Decrypt echoGCM echoForged (Encrypt echoGCM (ascii "pw") healthyWorld).2).1
          = .error .ciphertextTooShort ∨
        (Decrypt echoGCM echoForged (Encrypt echoGCM (ascii "pw") healthyWorld).2).1
          = .error .openFailed) ∧
      (Decrypt echoGCM echoForged (Encrypt echoGCM (ascii "pw") healthyWorld).2).1
        = .error .openFailed) ∧
    (differInOneByte echoToken echoCorrupt = true ∧
      b64Decode echoCorrupt = none ∧
      (Decrypt echoGCM echoCorrupt (Encrypt echoGCM (ascii "pw") healthyWorld).2).1
        = .error .corruptInput) ∧
    (differInOneByte echoToken echoRespelled = true ∧
      b64Decode echoRespelled = b64Decode echoToken ∧
      (Decrypt echoGCM echoRespelled (Encrypt echoGCM (ascii "pw") healthyWorld).2).1
        = .ok (ascii "pw")) :=
  ⟨echoGCM_inverse, echoGCM_tamperEvident, rfl,
    ⟨by decide, by decide,
      (Decrypt_tampered echoGCM echoGCM_inverse echoGCM_tamperEvident (ascii "pw") echoToken
        echoForged healthyWorld (Encrypt echoGCM (ascii "pw") healthyWorld).2 rfl
        (Or.inl (by decide)) (by decide)).2.1 (by decide),
      by decide⟩,
    ⟨by decide, by decide,
      (Decrypt_tampered echoGCM echoGCM_inverse echoGCM_tamperEvident (ascii "pw") echoToken
        echoCorrupt healthyWorld (Encrypt echoGCM (ascii "pw") healthyWorld).2 rfl
        (Or.inl (by decide)) (by decide)).2.2 (by decide)⟩,
    ⟨by decide, by decide,
      (Decrypt_tampered echoGCM echoGCM_inverse echoGCM_tamperEvident (ascii "pw") echoToken
        echoRespelled healthyWorld (Encrypt echoGCM (ascii "pw") healthyWorld).2 rfl
        (Or.inl (by decide)) (by decide)).1 (by decide)⟩⟩

/-- C2, counterexample: the token of `abc` ends in `g==`; the character `g`
carries two bits of data and four unused bits, which the decoder drops. With
`g` replaced by `h` the text differs from the token in exactly one byte,
decodes to the same bytes, and `Decrypt` returns the plaintext. -/
theorem Decrypt_tampered_counterexample :
    (Encrypt toyGCM (ascii "abc") healthyWorld).1 = .ok sampleToken ∧
    differInOneByte sampleToken tamperedToken = true ∧
    b64Decode tamperedToken = b64Decode sampleToken ∧
    (Decrypt toyGCM tamperedToken (Encrypt toyGCM (ascii "abc") healthyWorld).2).1
      = .ok (ascii "abc") := by
  decide

/-! ### The list operations of the store -/

theorem set_length_append {α : Type} (pre : List α) (x y : α) (rest : List α) :
    (pre ++ x :: rest).set pre.length y = pre ++ y :: rest := by
  induction pre with
  | nil => rfl
  | cons a pre ih => simp [List.set, ih]

theorem take_drop_length_append {α : Type} (pre : List α) (x : α) (rest : List α) :
    (pre ++ x :: rest).take pre.length ++ (pre ++ x :: rest).drop (pre.length + 1)
      = pre ++ rest := by
  induction pre with
  | nil => rfl
  | cons a pre ih => simp

/-- The loop of `UpdateServer`, started behind a prefix without a match. -/
theorem updateFrom_spec (id : Bytes) (server : ServerConfig) :
    ∀ (rest pre : List ServerConfig), (∀ x ∈ pre, x.ID ≠ id) →
      (updateFrom id server (pre ++ rest) pre.length rest = (false, pre ++ rest) ∧
        ∀ x ∈ pre ++ rest, x.ID ≠ id) ∨
      ∃ l1 srv l2, pre ++ rest = l1 ++ srv :: l2 ∧ (∀ x ∈ l1, x.ID ≠ id) ∧ srv.ID = id ∧
        updateFrom id server (pre ++ rest) pre.length rest = (true, l1 ++ server :: l2) := by
  intro rest
  induction rest with
  | nil =>
    intro pre hpre
    left
    refine ⟨rfl, ?_⟩
    simpa using hpre
  | cons srv rest ih =>
    intro pre hpre
    by_cases h : srv.ID = id
    · right
      refine ⟨pre, srv, rest, rfl, hpre, h, ?_⟩
      simp only [updateFrom, h, if_true]
      rw [set_length_append]
    · have hpre1 : ∀ x ∈ pre ++ [srv], x.ID ≠ id := by
        intro x hx
        rcases List.mem_append.mp hx with hx | hx
        · exact hpre x hx
        · rw [List.mem_singleton.mp hx]; exact h
      have e : pre ++ srv :: rest = (pre ++ [srv]) ++ rest := by simp
      have el : pre.length + 1 = (pre ++ [srv]).length := by simp
      have step : updateFrom id server (pre ++ srv :: rest) pre.length (srv :: rest)
          = updateFrom id server ((pre ++ [srv]) ++ rest) (pre ++ [srv]).length rest := by
        simp only [updateFrom, h, if_false]
        rw [e, el]
      rw [step, e]
      exact ih (pre ++ [srv]) hpre1

/-- The loop of `DeleteServer`, started behind a prefix without a match. -/
theorem deleteFrom_spec (id : Bytes) :
    ∀ (rest pre : List ServerConfig), (∀ x ∈ pre, x.ID ≠ id) →
      (deleteFrom id (pre ++ rest) pre.length rest = (false, pre ++ rest) ∧
        ∀ x ∈ pre ++ rest, x.ID ≠ id) ∨
      ∃ l1 srv l2, pre ++ rest = l1 ++ srv :: l2 ∧ (∀ x ∈ l1, x.ID ≠ id) ∧ srv.ID = id ∧
        deleteFrom id (pre ++ rest) pre.length rest = (true, l1 ++ l2) := by
  intro rest
  induction rest with
  | nil =>
    intro pre hpre
    left
    refine ⟨rfl, ?_⟩
    simpa using hpre
  | cons srv rest ih =>
    intro pre hpre
    by_cases h : srv.ID = id
    · right
      refine ⟨pre, srv, rest, rfl, hpre, h, ?_⟩
      simp only [deleteFrom, h, if_true]
      rw [take_drop_length_append]
    · have hpre1 : ∀ x ∈ pre ++ [srv], x.ID ≠ id := by
        intro x hx
        rcases List.mem_append.mp hx with hx | hx
        · exact hpre x hx
        · rw [List.mem_singleton.mp hx]; exact h
      have e : pre ++ srv :: rest = (pre ++ [srv]) ++ rest := by simp
      have el : pre.length + 1 = (pre ++ [srv]).length := by simp
      have step : deleteFrom id (pre ++ srv :: rest) pre.length (srv :: rest)
          = deleteFrom id ((pre ++ [srv]) ++ rest) (pre ++ [srv]).length rest := by
        simp only [deleteFrom, h, if_false]
        rw [e, el]
      rw [step, e]
      exact ih (pre ++ [srv]) hpre1

/-- C9. `UpdateServer(id, p)` returns true exactly when some stored profile
has the ID `id`. When it returns true, the list splits as `l1 ++ srv :: l2`
with `srv` the first profile whose ID is `id`, and the new list is
`l1 ++ p :: l2`: same length, `p` at the position of `srv`, every other
position unchanged. When it returns false the store is unchanged. -/
theorem UpdateServer_spec (s : Settings) (id : Bytes) (p : ServerConfig) :
    ((UpdateServer s id p).1 = true ↔ ∃ srv ∈ s.Servers, srv.ID = id) ∧
    ((UpdateServer s id p).1 = true →
      ∃ l1 srv l2, s.Servers = l1 ++ srv :: l2 ∧ (∀ x ∈ l1, x.ID ≠ id) ∧ srv.ID = id ∧
        (UpdateServer s id p).2.Servers = l1 ++ p :: l2 ∧
        (UpdateServer s id p).2.Servers.length = s.Servers.length ∧
        (UpdateServer s id p).2.Servers[l1.length]? = some p ∧
        ∀ j, j ≠ l1.length → (UpdateServer s id p).2.Servers[j]? = s.Servers[j]?) ∧
    ((UpdateServer s id p).1 = false → (UpdateServer s id p).2 = s) ∧
    (UpdateServer s id p).2.EncryptionKey = s.EncryptionKey := by
  have h := updateFrom_spec id p s.Servers [] (by simp)
  simp only [List.nil_append, List.length_nil] at h
  unfold UpdateServer
  rcases h with ⟨h, hno⟩ | ⟨l1, srv, l2, hs, hl1, hid, h⟩
  · rw [h]
    refine ⟨?_, ?_, ?_, rfl⟩
    · constructor
      · intro hc; simp at hc
      · rintro ⟨srv, hm, hid⟩; exact absurd hid (hno srv hm)
    · intro hc; simp at hc
    · intro _; rfl
  · rw [h]
    refine ⟨?_, ?_, ?_, rfl⟩
    · constructor
      · intro _
        exact ⟨srv, by rw [hs]; simp, hid⟩
      · intro _; rfl
    · intro _
      refine ⟨l1, srv, l2, hs, hl1, hid, rfl, ?_, ?_, ?_⟩
      · simp [hs]
      · show (l1 ++ p :: l2)[l1.length]? = some p
        rw [List.getElem?_append_right (Nat.le_refl _)]
        simp
      · intro j hj
        show (l1 ++ p :: l2)[j]? = s.Servers[j]?
        rw [hs]
        rcases Nat.lt_or_gt_of_ne hj with hlt | hgt
        · rw [List.getElem?_append_left hlt, List.getElem?_append_left hlt]
        · have hle : l1.length ≤ j := Nat.le_of_lt hgt
          rw [List.getElem?_append_right hle, List.getElem?_append_right hle]
          obtain ⟨k, hk⟩ : ∃ k, j - l1.length = k + 1 := ⟨j - l1.length - 1, by omega⟩
          rw [hk]
          rfl
    · intro hc; simp at hc

/-- C10. `DeleteServer(id)` returns true exactly when some stored profile has
the ID `id`. When it returns true, the list splits as `l1 ++ srv :: l2` with
`srv` the first profile whose ID is `id`, and the new list is `l1 ++ l2`:
`srv` is removed, the others keep their order, the length drops by one. When
it returns false the store is unchanged. -/
theorem DeleteServer_spec (s : Settings) (id : Bytes) :
    ((DeleteServer s id).1 = true ↔ ∃ srv ∈ s.Servers, srv.ID = id) ∧
    ((DeleteServer s id).1 = true →
      ∃ l1 srv l2, s.Servers = l1 ++ srv :: l2 ∧ (∀ x ∈ l1, x.ID ≠ id) ∧ srv.ID = id ∧
        (DeleteServer s id).2.Servers = l1 ++ l2 ∧
        (DeleteServer s id).2.Servers.length + 1 = s.Servers.length) ∧
    ((DeleteServer s id).1 = false → (DeleteServer s id).2 = s) ∧
    (DeleteServer s id).2.EncryptionKey = s.EncryptionKey := by
  have h := deleteFrom_spec id s.Servers [] (by simp)
  simp only [List.nil_append, List.length_nil] at h
  unfold DeleteServer
  rcases h with ⟨h, hno⟩ | ⟨l1, srv, l2, hs, hl1, hid, h⟩
  · rw [h]
    refine ⟨?_, ?_, ?_, rfl⟩
    · constructor
      · intro hc; simp at hc
      · rintro ⟨srv, hm, hid⟩; exact absurd hid (hno srv hm)
    · intro hc; simp at hc
    · intro _; rfl
  · rw [h]
    refine ⟨?_, ?_, ?_, rfl⟩
    · constructor
      · intro _
        exact ⟨srv, by rw [hs]; simp, hid⟩
      · intro _; rfl
    · intro _
      refine ⟨l1, srv, l2, hs, hl1, hid, rfl, ?_⟩
      simp [hs]
      omega
    · intro hc; simp at hc

/-! ### Save -/

theorem forall₂_getElem? {α β : Type} {R : α → β → Prop} {l1 : List α} {l2 : List β}
    (h : List.Forall₂ R l1 l2) :
    ∀ (i : Nat) (a : α), l1[i]? = some a → ∃ b, l2[i]? = some b ∧ R a b := by
  induction h with
  | nil => intro i a ha; simp at ha
  | cons hab _ ih =>
    intro i a ha
    cases i with
    | zero =>
      simp only [List.getElem?_cons_zero, Option.some.injEq] at ha
      subst ha
      exact ⟨_, by simp, hab⟩
    | succ i =>
      simp only [List.getElem?_cons_succ] at ha ⊢
      exact ih i a ha

theorem Encrypt_servers (A : AEAD) (P : Bytes) (w : World) :
    (Encrypt A P w).2.settings.Servers = w.settings.Servers := by
  unfold Encrypt
  have h := GetEncryptionKey_servers w
  generalize GetEncryptionKey w = g at h
  obtain ⟨key, w0⟩ := g
  simp only at h ⊢
  split
  · split <;> exact h
  · exact h

theorem encryptPasswords_servers (A : AEAD) :
    ∀ (L : List ServerConfig) (w : World),
      (encryptPasswords A L w).2.settings.Servers = w.settings.Servers := by
  intro L
  induction L with
  | nil => intro w; rfl
  | cons srv rest ih =>
    intro w
    unfold encryptPasswords
    split
    · have hE := Encrypt_servers A srv.Password w
      generalize Encrypt A srv.Password w = e at hE
      obtain ⟨r, w1⟩ := e
      cases r with
      | error e => exact hE
      | ok t =>
        simp only at hE ⊢
        have h2 := ih w1
        generalize encryptPasswords A rest w1 = e2 at h2
        obtain ⟨r2, w2⟩ := e2
        cases r2 with
        | error e => simp only at h2 ⊢; rw [h2, hE]
        | ok out => simp only at h2 ⊢; rw [h2, hE]
    · have h2 := ih w
      generalize encryptPasswords A rest w = e2 at h2
      obtain ⟨r2, w2⟩ := e2
      cases r2 with
      | error e => exact h2
      | ok out => exact h2

/-- C8. `Save` does not change the profile list of the store, whether it
returns an error or not: the passwords in memory stay as they were. -/
theorem Save_servers (A : AEAD) (writeOk : Bool) (w : World) :
    (Save A writeOk w).world.settings.Servers = w.settings.Servers := by
  unfold Save
  have h := encryptPasswords_servers A w.settings.Servers w
  generalize encryptPasswords A w.settings.Servers w = e at h
  obtain ⟨r, w1⟩ := e
  cases r with
  | error e => exact h
  | ok out =>
    simp only at h ⊢
    split <;> exact h

/-- The entries that the loop of `Save` produces. -/
theorem encryptPasswords_ok (A : AEAD) :
    ∀ (L out : List ServerConfig) (w w1 : World),
      encryptPasswords A L w = (.ok out, w1) → List.Forall₂ (Sealed A) L out := by
  intro L
  induction L with
  | nil =>
    intro out w w1 h
    simp only [encryptPasswords, Prod.mk.injEq, Except.ok.injEq] at h
    rw [← h.1]
    exact List.Forall₂.nil
  | cons srv rest ih =>
    intro out w w1 h
    unfold encryptPasswords at h
    split at h
    · rename_i hne
      generalize hE : Encrypt A srv.Password w = e at h
      obtain ⟨r, wa⟩ := e
      cases r with
      | error e => simp at h
      | ok t =>
        simp only at h
        generalize h2 : encryptPasswords A rest wa = e2 at h
        obtain ⟨r2, wb⟩ := e2
        cases r2 with
        | error e => simp at h
        | ok out2 =>
          simp only [Prod.mk.injEq, Except.ok.injEq] at h
          rw [← h.1]
          exact List.Forall₂.cons ⟨rfl, Or.inr ⟨hne, w, wa, hE⟩⟩ (ih out2 wa wb h2)
    · rename_i hne
      have he : srv.Password = [] := by
        by_contra hc; exact hne hc
      generalize h2 : encryptPasswords A rest w = e2 at h
      obtain ⟨r2, wb⟩ := e2
      cases r2 with
      | error e => simp at h
      | ok out2 =>
        simp only [Prod.mk.injEq, Except.ok.injEq] at h
        rw [← h.1]
        exact List.Forall₂.cons ⟨rfl, Or.inl ⟨he, he⟩⟩ (ih out2 w wb h2)

theorem sealToken_length (A : AEAD) (key nonce P : Bytes) :
    (sealToken A key nonce P).length
      = 4 * ((nonce.length + (A.Seal key nonce P).length + 2) / 3) := by
  unfold sealToken
  rw [b64Encode_length, List.length_append]

/-- A token is longer than its plaintext, so it is not the plaintext. -/
theorem sealToken_ne {A : AEAD} (hN : A.NoShrink) (key : Bytes) {nonce : Bytes}
    (hn : nonce.length = nonceSize) (P : Bytes) : sealToken A key nonce P ≠ P := by
  intro h
  have hl := sealToken_length A key nonce P
  rw [h, hn] at hl
  have := hN key nonce P
  simp only [nonceSize] at hl
  omega

theorem sealToken_ne_nil (A : AEAD) (key : Bytes) {nonce : Bytes}
    (hn : nonce.length = nonceSize) (P : Bytes) : sealToken A key nonce P ≠ [] := by
  intro h
  have hl := sealToken_length A key nonce P
  rw [h, hn] at hl
  simp only [List.length_nil, nonceSize] at hl
  omega

/-! ### What the text written by `Save` denotes -/

theorem coerceFrom_valid :
    ∀ (s : Bytes) (pending : Nat), validFrom pending s = true → coerceFrom pending s = s := by
  intro s
  induction s with
  | nil => intro pending _; cases pending <;> rfl
  | cons b rest ih =>
    intro pending h
    cases pending with
    | succ pending =>
      simp only [validFrom] at h
      simp only [coerceFrom, ih pending h]
    | zero =>
      simp only [validFrom] at h
      simp only [coerceFrom]
      cases hr : runeWidth (b :: rest) with
      | none => rw [hr] at h; simp at h
      | some size =>
        rw [hr] at h
        simp only [ih (size - 1) h]

/-- A string that is valid UTF-8 is written so that the text denotes it. -/
theorem toValidUTF8_valid (s : Bytes) (h : utf8Valid s = true) : toValidUTF8 s = s :=
  coerceFrom_valid s 0 h

theorem validFrom_ascii :
    ∀ (s : Bytes), (∀ b ∈ s, b.val < 128) → validFrom 0 s = true := by
  intro s
  induction s with
  | nil => intro _; rfl
  | cons b rest ih =>
    intro h
    have hb : b.val < 0x80 := h b (by simp)
    simp only [validFrom, runeWidth, hb, if_true]
    exact ih (fun x hx => h x (by simp [hx]))


theorem b64Char_ascii (i : Nat) : (b64Char i).val < 128 := by
  by_cases h : i < 64
  · have := (by decide : ∀ k : Fin 64, (b64Char k.val).val < 128) ⟨i, h⟩
    exact this
  · have hl : encodeStd.length ≤ i := by
      have : encodeStd.length = 64 := by decide
      omega
    unfold b64Char
    rw [List.getD_eq_default _ _ hl]
    decide

/-- A base64 text is made of ASCII characters. -/
theorem b64Encode_ascii : ∀ (l : Bytes) (b : Byte), b ∈ b64Encode l → b.val < 128
  | [], b, h => by simp [b64Encode] at h
  | [_], b, h => by
    have hp : padChar.val < 128 := by decide
    simp only [b64Encode, List.mem_cons, List.mem_singleton, List.not_mem_nil, or_false] at h
    rcases h with h | h | h | h <;> rw [h] <;> first | exact b64Char_ascii _ | exact hp
  | [_, _], b, h => by
    have hp : padChar.val < 128 := by decide
    simp only [b64Encode, List.mem_cons, List.mem_singleton, List.not_mem_nil, or_false] at h
    rcases h with h | h | h | h <;> rw [h] <;> first | exact b64Char_ascii _ | exact hp
  | _ :: _ :: _ :: rest, b, h => by
    simp only [b64Encode, List.mem_cons] at h
    rcases h with h | h | h | h | h
    · rw [h]; exact b64Char_ascii _
    · rw [h]; exact b64Char_ascii _
    · rw [h]; exact b64Char_ascii _
    · rw [h]; exact b64Char_ascii _
    · exact b64Encode_ascii rest b h

/-- A token is written so that the text denotes it. -/
theorem toValidUTF8_sealToken (A : AEAD) (key nonce P : Bytes) :
    toValidUTF8 (sealToken A key nonce P) = sealToken A key nonce P := by
  apply toValidUTF8_valid
  unfold utf8Valid sealToken
  exact validFrom_ascii _ (b64Encode_ascii _)

theorem coerceFrom_length :
    ∀ (s : Bytes) (pending : Nat), s.length ≤ (coerceFrom pending s).length ∧
      (validFrom pending s = false → s.length < (coerceFrom pending s).length) := by
  intro s
  induction s with
  | nil => intro pending; cases pending <;> simp [coerceFrom, validFrom]
  | cons b rest ih =>
    intro pending
    cases pending with
    | succ pending =>
      have := ih pending
      simp only [coerceFrom, validFrom, List.length_cons]
      exact ⟨by omega, fun h => by have := this.2 h; omega⟩
    | zero =>
      simp only [coerceFrom, validFrom]
      cases hr : runeWidth (b :: rest) with
      | none =>
        have := ih 0
        simp only [replacementChar, List.length_append, List.length_cons, List.length_nil]
        exact ⟨by omega, fun _ => by omega⟩
      | some size =>
        have := ih (size - 1)
        simp only [List.length_cons]
        exact ⟨by omega, fun h => by have := this.2 h; omega⟩

/-- The text denotes the string exactly when the string is valid UTF-8. -/
theorem toValidUTF8_eq_iff (s : Bytes) : toValidUTF8 s = s ↔ utf8Valid s = true := by
  constructor
  · intro h
    by_contra hv
    have hf : validFrom 0 s = false := by
      unfold utf8Valid at hv
      simpa using hv
    have := (coerceFrom_length s 0).2 hf
    unfold toValidUTF8 at h
    rw [h] at this
    exact Nat.lt_irrefl _ this
  · exact toValidUTF8_valid s

theorem toValidUTF8_eq_nil (s : Bytes) : toValidUTF8 s = [] ↔ s = [] := by
  constructor
  · intro h
    have := (coerceFrom_length s 0).1
    unfold toValidUTF8 at h
    rw [h] at this
    exact List.length_eq_zero.mp (Nat.le_zero.mp this)
  · intro h; rw [h]; rfl


/-- The coercion at work: ASCII and a valid sequence of two bytes stay; a
lone byte `0xE9`, the overlong `C0 80`, the surrogate `ED A0 80` and a
sequence cut short give one U+FFFD per byte. -/
theorem toValidUTF8_examples :
    toValidUTF8 (ascii "db-1") = ascii "db-1" ∧
    toValidUTF8 [0x63, 0xC3, 0xA9] = [0x63, 0xC3, 0xA9] ∧
    toValidUTF8 [0xE2, 0x82, 0xAC] = [0xE2, 0x82, 0xAC] ∧
    toValidUTF8 [0xF0, 0x9F, 0x98, 0x80] = [0xF0, 0x9F, 0x98, 0x80] ∧
    toValidUTF8 [0x63, 0xE9] = [0x63, 0xEF, 0xBF, 0xBD] ∧
    toValidUTF8 [0xC0, 0x80] = [0xEF, 0xBF, 0xBD, 0xEF, 0xBF, 0xBD] ∧
    toValidUTF8 [0xED, 0xA0, 0x80]
      = [0xEF, 0xBF, 0xBD, 0xEF, 0xBF, 0xBD, 0xEF, 0xBF, 0xBD] ∧
    toValidUTF8 [0xE2, 0x82] = [0xEF, 0xBF, 0xBD, 0xEF, 0xBF, 0xBD] ∧
    toValidUTF8 [0xEF, 0xBF, 0xBD] = [0xEF, 0xBF, 0xBD] := by
  decide

/-- In the value that a successful `Save` hands to `json.MarshalIndent`, the
entry at every position has the fields of the in-memory entry but for the
password, which is empty exactly when the in-memory password is empty, and
otherwise is a token that `Encrypt` returned for it. -/
theorem Save_marshalled (A : AEAD) (writeOk : Bool) (w : World)
    (file : Persisted) (hW : (Save A writeOk w).written = some file) :
    ∃ out, file.servers = some out ∧ out.length = w.settings.Servers.length ∧
      ∀ (i : Nat) (srv : ServerConfig), w.settings.Servers[i]? = some srv →
        ∃ enc, out[i]? = some enc ∧ enc = { srv with Password := enc.Password } ∧
          (enc.Password = [] ↔ srv.Password = []) ∧
          (srv.Password ≠ [] →
            ∃ wi key nonce, (Encrypt A srv.Password wi).1 = .ok enc.Password ∧
              nonce.length = nonceSize ∧ enc.Password = sealToken A key nonce srv.Password) := by
  unfold Save at hW
  generalize hE : encryptPasswords A w.settings.Servers w = e at hW
  obtain ⟨r, w1⟩ := e
  cases r with
  | error e => simp at hW
  | ok out =>
    simp only at hW
    split at hW
    · simp only [Option.some.injEq] at hW
      have hF := encryptPasswords_ok A _ _ _ _ hE
      refine ⟨out, by rw [← hW]; rfl, hF.length_eq.symm, ?_⟩
      intro i srv hi
      obtain ⟨enc, henc, heq, hpw⟩ := forall₂_getElem? hF i srv hi
      refine ⟨enc, henc, heq, ?_, ?_⟩
      · rcases hpw with ⟨h1, h2⟩ | ⟨h1, wi, wj, h2⟩
        · simp [h1, h2]
        · obtain ⟨key, nonce, -, hn, hT, -, -⟩ := Encrypt_ok h2
          constructor
          · intro h0
            rw [hT] at h0
            exact absurd h0 (sealToken_ne_nil A key hn _)
          · intro h0; exact absurd h0 h1
      · intro hne
        rcases hpw with ⟨h1, _⟩ | ⟨_, wi, wj, h2⟩
        · exact absurd h1 hne
        · obtain ⟨key, nonce, -, hn, hT, -, -⟩ := Encrypt_ok h2
          exact ⟨wi, key, nonce, by rw [h2], hn, hT⟩
    · simp at hW

/-- C7 (amended). In the text that a successful `Save` writes, the entry at
every position has the port of the in-memory entry at that position, and
its ID, name, type, host, user and database are those of the in-memory
entry as `json.MarshalIndent` writes them: with U+FFFD in the place of
every byte at which no valid UTF-8 sequence starts, so the same string
exactly when the in-memory string is valid UTF-8. Its password is empty
exactly when the in-memory password is empty, and otherwise it is a token
that `Encrypt` returned for the in-memory password, which differs from that
password. -/
theorem Save_serialized (A : AEAD) (hN : A.NoShrink) (writeOk : Bool) (w : World)
    (file : Persisted) (hW : (Save A writeOk w).written = some file) :
    ∃ out, (jsonEncoded file).servers = some out ∧ out.length = w.settings.Servers.length ∧
      ∀ (i : Nat) (srv : ServerConfig), w.settings.Servers[i]? = some srv →
        ∃ enc, out[i]? = some enc ∧
          enc.Port = srv.Port ∧
          (enc.ID = toValidUTF8 srv.ID ∧ enc.Name = toValidUTF8 srv.Name ∧
            enc.DBType = toValidUTF8 srv.DBType ∧ enc.Host = toValidUTF8 srv.Host ∧
            enc.User = toValidUTF8 srv.User ∧ enc.Database = toValidUTF8 srv.Database) ∧
          ((enc.ID = srv.ID ↔ utf8Valid srv.ID = true) ∧
            (enc.Name = srv.Name ↔ utf8Valid srv.Name = true) ∧
            (enc.DBType = srv.DBType ↔ utf8Valid srv.DBType = true) ∧
            (enc.Host = srv.Host ↔ utf8Valid srv.Host = true) ∧
            (enc.User = srv.User ↔ utf8Valid srv.User = true) ∧
            (enc.Database = srv.Database ↔ utf8Valid srv.Database = true)) ∧
          (enc.Password = [] ↔ srv.Password = []) ∧
          (srv.Password ≠ [] →
            enc.Password ≠ srv.Password ∧
            ∃ wi, (Encrypt A srv.Password wi).1 = .ok enc.Password) := by
  obtain ⟨out, hout, hlen, hall⟩ := Save_marshalled A writeOk w file hW
  refine ⟨out.map encodedServer, by simp [jsonEncoded, hout], by simp [hlen], ?_⟩
  intro i srv hi
  obtain ⟨enc, henc, heq, hnil, htok⟩ := hall i srv hi
  refine ⟨encodedServer enc, by simp [henc], ?_, ?_, ?_, ?_, ?_⟩
  · rw [heq]; rfl
  · rw [heq]; exact ⟨rfl, rfl, rfl, rfl, rfl, rfl⟩
  · rw [heq]
    exact ⟨toValidUTF8_eq_iff _, toValidUTF8_eq_iff _, toValidUTF8_eq_iff _,
      toValidUTF8_eq_iff _, toValidUTF8_eq_iff _, toValidUTF8_eq_iff _⟩
  · show toValidUTF8 enc.Password = [] ↔ _
    rw [toValidUTF8_eq_nil]
    exact hnil
  · intro hne
    obtain ⟨wi, key, nonce, hE, hn, hT⟩ := htok hne
    have hp : (encodedServer enc).Password = enc.Password := by
      show toValidUTF8 enc.Password = _
      rw [hT, toValidUTF8_sealToken]
    rw [hp]
    refine ⟨?_, wi, hE⟩
    rw [hT]
    exact sealToken_ne hN key hn _

/-- C7, witness: the store with one profile, whose strings are ASCII, and
the text written for it. -/
theorem Save_serialized_witness :
    toyGCM.NoShrink ∧ (Save toyGCM true sampleStore).written = some sampleFile ∧
    jsonEncoded sampleFile = sampleFile ∧
    ∃ out, (jsonEncoded sampleFile).servers = some out ∧
      out.length = sampleStore.settings.Servers.length ∧
      ∀ (i : Nat) (srv : ServerConfig), sampleStore.settings.Servers[i]? = some srv →
        ∃ enc, out[i]? = some enc ∧
          enc.Port = srv.Port ∧
          (enc.ID = toValidUTF8 srv.ID ∧ enc.Name = toValidUTF8 srv.Name ∧
            enc.DBType = toValidUTF8 srv.DBType ∧ enc.Host = toValidUTF8 srv.Host ∧
            enc.User = toValidUTF8 srv.User ∧ enc.Database = toValidUTF8 srv.Database) ∧
          ((enc.ID = srv.ID ↔ utf8Valid srv.ID = true) ∧
            (enc.Name = srv.Name ↔ utf8Valid srv.Name = true) ∧
            (enc.DBType = srv.DBType ↔ utf8Valid srv.DBType = true) ∧
            (enc.Host = srv.Host ↔ utf8Valid srv.Host = true) ∧
            (enc.User = srv.User ↔ utf8Valid srv.User = true) ∧
            (enc.Database = srv.Database ↔ utf8Valid srv.Database = true)) ∧
          (enc.Password = [] ↔ srv.Password = []) ∧
          (srv.Password ≠ [] →
            enc.Password ≠ srv.Password ∧
            ∃ wi, (Encrypt toyGCM srv.Password wi).1 = .ok enc.Password) :=
  ⟨toyGCM_noShrink, rfl, by decide,
    Save_serialized toyGCM toyGCM_noShrink true sampleStore sampleFile rfl⟩

/-- C7, counterexample: the name of the profile in memory is `caf` followed
by the byte `0xE9`, which is not valid UTF-8. `Save` succeeds, and in the
text written the name is `caf` followed by U+FFFD: not the name in memory. -/
theorem Save_serialized_latin1_counterexample :
    (latin1Store.settings.Servers.map fun srv => srv.Name) = [ascii "caf" ++ [0xE9]] ∧
    utf8Valid (ascii "caf" ++ [0xE9]) = false ∧
    (Save toyGCM true latin1Store).err = none ∧
    (Save toyGCM true latin1Store).written.map jsonEncoded
      = some { servers := some [{ sampleServer with
                 Name := ascii "caf" ++ [0xEF, 0xBF, 0xBD], Password := sampleToken }],
               encryption_key := none } ∧
    ascii "caf" ++ [0xEF, 0xBF, 0xBD] ≠ ascii "caf" ++ [(0xE9 : Byte)] := by
  decide

/-! ### Load -/

theorem decryptPasswords_cons (A : AEAD) (srv : ServerConfig) (rest : List ServerConfig)
    (w : World) :
    decryptPasswords A (srv :: rest) w
      = (loadEntry A srv w :: (decryptPasswords A rest (loadStep A srv w)).1,
         (decryptPasswords A rest (loadStep A srv w)).2) := by
  unfold loadEntry loadStep
  rw [decryptPasswords]
  split
  · rename_i hne
    simp only [hne, if_true]
    generalize Decrypt A srv.Password w = d
    obtain ⟨r, w1⟩ := d
    cases r with
    | error e => rfl
    | ok t => rfl
  · rename_i hne
    simp only [hne, if_false]

theorem decryptPasswords_length (A : AEAD) :
    ∀ (L : List ServerConfig) (w : World), (decryptPasswords A L w).1.length = L.length := by
  intro L
  induction L with
  | nil => intro w; rfl
  | cons srv rest ih =>
    intro w
    rw [decryptPasswords_cons]
    simp [ih]

/-- The entry at position `i` after the loop of `Load`. -/
theorem decryptPasswords_getElem? (A : AEAD) :
    ∀ (L : List ServerConfig) (w : World) (i : Nat) (srv : ServerConfig),
      L[i]? = some srv →
      (decryptPasswords A L w).1[i]? = some (loadEntry A srv (stateAt A L w i)) := by
  intro L
  induction L with
  | nil => intro w i srv h; simp at h
  | cons a rest ih =>
    intro w i srv h
    rw [decryptPasswords_cons]
    cases i with
    | zero =>
      simp only [List.getElem?_cons_zero, Option.some.injEq] at h
      subst h
      simp [stateAt, decryptPasswords]
    | succ i =>
      simp only [List.getElem?_cons_succ] at h ⊢
      rw [ih _ i srv h]
      simp only [stateAt, List.take_succ_cons]
      rw [decryptPasswords_cons]

theorem decodeServers_length :
    ∀ (entries : List JsonServer) (backing : List ServerConfig),
      (decodeServers entries backing).length = entries.length := by
  intro entries
  induction entries with
  | nil => intro backing; cases backing <;> rfl
  | cons e es ih =>
    intro backing
    cases backing with
    | nil => simp [decodeServers, ih]
    | cons b bs => simp [decodeServers, ih]

/-- Entry `i` is decoded into the element that the backing array holds at
index `i`, or into the zero value past its capacity. -/
theorem decodeServers_getElem? :
    ∀ (entries : List JsonServer) (backing : List ServerConfig) (i : Nat) (e : JsonServer),
      entries[i]? = some e →
      (decodeServers entries backing)[i]?
        = some (e.decodeInto ((backing[i]?).getD zeroServer)) := by
  intro entries
  induction entries with
  | nil => intro backing i e h; simp at h
  | cons e0 es ih =>
    intro backing i e h
    cases backing with
    | nil =>
      cases i with
      | zero =>
        simp only [List.getElem?_cons_zero, Option.some.injEq] at h
        subst h
        simp [decodeServers]
      | succ i =>
        simp only [List.getElem?_cons_succ] at h
        simp only [decodeServers, List.getElem?_cons_succ]
        rw [ih [] i e h]
        simp
    | cons b bs =>
      cases i with
      | zero =>
        simp only [List.getElem?_cons_zero, Option.some.injEq] at h
        subst h
        simp [decodeServers]
      | succ i =>
        simp only [List.getElem?_cons_succ] at h
        simp only [decodeServers, List.getElem?_cons_succ]
        exact ih bs i e h

/-- An entry that gives every key decodes to the same element whatever the
slice held. -/
theorem decodeServers_full :
    ∀ (l backing : List ServerConfig),
      decodeServers (l.map (fun srv =>
        ({ id := some srv.ID, name := some srv.Name, db_type := some srv.DBType,
           host := some srv.Host, port := some srv.Port, user := some srv.User,
           password := some srv.Password, database := some srv.Database } : JsonServer)))
        backing = l := by
  intro l
  induction l with
  | nil => intro backing; cases backing <;> rfl
  | cons srv rest ih =>
    intro backing
    cases backing with
    | nil => simp [decodeServers, JsonServer.decodeInto, ih]
    | cons b bs => simp [decodeServers, JsonServer.decodeInto, ih]

/-- For a file whose entries give every key, the two readings of
`json.Unmarshal` agree, whatever the store holds. -/
theorem jsonUnmarshalInto_toJson (p : Persisted) (spare : List ServerConfig) (s : Settings) :
    jsonUnmarshalInto p.toJson spare s = jsonUnmarshal p s := by
  unfold jsonUnmarshalInto jsonUnmarshal Persisted.toJson
  cases hp : p.servers with
  | none => simp
  | some l => simp [decodeServers_full]

/-- For a file whose entries give every key, `Load` does the same on both
readings of the file. -/
theorem Load_object_toJson (A : AEAD) (p : Persisted) (spare : List ServerConfig) (w : World) :
    Load A (.object p.toJson spare) w = Load A (.content p) w := by
  unfold Load
  simp only [jsonUnmarshalInto_toJson]


/-- What the body of the loop of `Load` does to one entry. -/
theorem loadEntry_spec (A : AEAD) (srv : ServerConfig) (w : World) :
    (loadEntry A srv w).ID = srv.ID ∧ (loadEntry A srv w).Name = srv.Name ∧
    (loadEntry A srv w).DBType = srv.DBType ∧ (loadEntry A srv w).Host = srv.Host ∧
    (loadEntry A srv w).Port = srv.Port ∧ (loadEntry A srv w).User = srv.User ∧
    (loadEntry A srv w).Database = srv.Database ∧
    (srv.Password = [] → (loadEntry A srv w).Password = []) ∧
    (∀ d, srv.Password ≠ [] → (Decrypt A srv.Password w).1 = .ok d →
      (loadEntry A srv w).Password = d) ∧
    (∀ e, srv.Password ≠ [] → (Decrypt A srv.Password w).1 = .error e →
      (loadEntry A srv w).Password = srv.Password) := by
  unfold loadEntry
  split
  · rename_i hne
    generalize (Decrypt A srv.Password w).1 = r
    cases r with
    | error e =>
      refine ⟨rfl, rfl, rfl, rfl, rfl, rfl, rfl, ?_, ?_, ?_⟩
      · intro h0; exact absurd h0 hne
      · intro d _ hd; simp at hd
      · intro e1 _ _; rfl
    | ok t =>
      refine ⟨rfl, rfl, rfl, rfl, rfl, rfl, rfl, ?_, ?_, ?_⟩
      · intro h0; exact absurd h0 hne
      · intro d _ hd
        simp only [Except.ok.injEq] at hd
        exact hd
      · intro e1 _ he; simp at he
  · rename_i hne
    have he : srv.Password = [] := by
      by_contra hc; exact hne hc
    refine ⟨rfl, rfl, rfl, rfl, rfl, rfl, rfl, ?_, ?_, ?_⟩
    · intro _; exact he
    · intro d h0 _; exact absurd he h0
    · intro e1 _ _; rfl

/-- C6. A `Load` that has read and decoded the file returns no error,
whatever `Decrypt` does, for every file and every store. The list holds one
profile per entry of the file. For the entry at position `i`: every key
other than the password that the entry gives is, in memory, the value that
the entry gives; and with `pw` the password that the entry gives, and
`stateAt ... i` the process state when the loop reaches that position, the
in-memory password is empty if `pw` is empty, is the plaintext if
`Decrypt(pw)` returns one, and is `pw` itself if `Decrypt(pw)` returns an
error. A key that the entry leaves out has the value that the slice held at
that index before the call (the zero value past its capacity); a password
left out is such a value too, and goes through the same loop. -/
theorem Load_passwords (A : AEAD) (j : JsonSettings) (spare : List ServerConfig) (w : World) :
    (Load A (.object j spare) w).1 = none ∧
    ∀ entries, j.servers = some entries →
      (Load A (.object j spare) w).2.settings.Servers.length = entries.length ∧
      ∀ (i : Nat) (e : JsonServer), entries[i]? = some e →
        ∃ srv1, (Load A (.object j spare) w).2.settings.Servers[i]? = some srv1 ∧
          ((∀ v, e.id = some v → srv1.ID = v) ∧
            (∀ v, e.name = some v → srv1.Name = v) ∧
            (∀ v, e.db_type = some v → srv1.DBType = v) ∧
            (∀ v, e.host = some v → srv1.Host = v) ∧
            (∀ v, e.port = some v → srv1.Port = v) ∧
            (∀ v, e.user = some v → srv1.User = v) ∧
            (∀ v, e.database = some v → srv1.Database = v)) ∧
          (∀ pw, (e.password = some pw ∨
              (e.password = none ∧
                (((w.settings.Servers ++ spare)[i]?).getD zeroServer).Password = pw)) →
            (pw = [] → srv1.Password = []) ∧
            (∀ d, pw ≠ [] →
              (Decrypt A pw
                (stateAt A (jsonUnmarshalInto j spare w.settings).Servers
                  { w with settings := jsonUnmarshalInto j spare w.settings } i)).1 = .ok d →
              srv1.Password = d) ∧
            (∀ err, pw ≠ [] →
              (Decrypt A pw
                (stateAt A (jsonUnmarshalInto j spare w.settings).Servers
                  { w with settings := jsonUnmarshalInto j spare w.settings } i)).1
                = .error err →
              srv1.Password = pw)) ∧
          ((e.id = none →
              srv1.ID = (((w.settings.Servers ++ spare)[i]?).getD zeroServer).ID) ∧
            (e.name = none →
              srv1.Name = (((w.settings.Servers ++ spare)[i]?).getD zeroServer).Name) ∧
            (e.db_type = none →
              srv1.DBType = (((w.settings.Servers ++ spare)[i]?).getD zeroServer).DBType) ∧
            (e.host = none →
              srv1.Host = (((w.settings.Servers ++ spare)[i]?).getD zeroServer).Host) ∧
            (e.port = none →
              srv1.Port = (((w.settings.Servers ++ spare)[i]?).getD zeroServer).Port) ∧
            (e.user = none →
              srv1.User = (((w.settings.Servers ++ spare)[i]?).getD zeroServer).User) ∧
            (e.database = none →
              srv1.Database
                = (((w.settings.Servers ++ spare)[i]?).getD zeroServer).Database)) := by
  refine ⟨rfl, ?_⟩
  intro entries hj
  have hU : (jsonUnmarshalInto j spare w.settings).Servers
      = decodeServers entries (w.settings.Servers ++ spare) := by
    unfold jsonUnmarshalInto
    rw [hj]
  refine ⟨?_, ?_⟩
  · show (decryptPasswords A _ _).1.length = _
    rw [decryptPasswords_length]
    show (jsonUnmarshalInto j spare w.settings).Servers.length = _
    rw [hU, decodeServers_length]
  · intro i e he
    have hd := decodeServers_getElem? entries (w.settings.Servers ++ spare) i e he
    rw [← hU] at hd
    have hg := decryptPasswords_getElem? A (jsonUnmarshalInto j spare w.settings).Servers
      { w with settings := jsonUnmarshalInto j spare w.settings } i _ hd
    refine ⟨_, hg, ?_⟩
    generalize stateAt A (jsonUnmarshalInto j spare w.settings).Servers
      { w with settings := jsonUnmarshalInto j spare w.settings } i = wi
    generalize ((w.settings.Servers ++ spare)[i]?).getD zeroServer = base
    obtain ⟨h1, h2, h3, h4, h5, h6, h7, h8, h9, h10⟩ :=
      loadEntry_spec A (e.decodeInto base) wi
    rw [h1, h2, h3, h4, h5, h6, h7]
    refine ⟨⟨?_, ?_, ?_, ?_, ?_, ?_, ?_⟩, ?_, ⟨?_, ?_, ?_, ?_, ?_, ?_, ?_⟩⟩
    · intro v hv; simp [JsonServer.decodeInto, hv]
    · intro v hv; simp [JsonServer.decodeInto, hv]
    · intro v hv; simp [JsonServer.decodeInto, hv]
    · intro v hv; simp [JsonServer.decodeInto, hv]
    · intro v hv; simp [JsonServer.decodeInto, hv]
    · intro v hv; simp [JsonServer.decodeInto, hv]
    · intro v hv; simp [JsonServer.decodeInto, hv]
    · intro pw hpw
      have hp : (e.decodeInto base).Password = pw := by
        rcases hpw with h | ⟨h, hb⟩
        · simp [JsonServer.decodeInto, h]
        · simp [JsonServer.decodeInto, h, hb]
      rw [hp] at h8 h9 h10
      exact ⟨h8, h9, h10⟩
    · intro hv; simp [JsonServer.decodeInto, hv]
    · intro hv; simp [JsonServer.decodeInto, hv]
    · intro hv; simp [JsonServer.decodeInto, hv]
    · intro hv; simp [JsonServer.decodeInto, hv]
    · intro hv; simp [JsonServer.decodeInto, hv]
    · intro hv; simp [JsonServer.decodeInto, hv]
    · intro hv; simp [JsonServer.decodeInto, hv]

/-- C6, witness: the file `partialFile` read into a store that holds
`sampleServer` and the key `sampleKey`. The first entry gives only `id` and
`name`: host, port, user and password stay those of the profile in memory.
The password `hunter2!` is not a token and is kept; the token is opened to
`abc`; the empty password stays empty. The same file read by a process that
has just started gives the zero value for the keys left out. -/
theorem Load_passwords_witness :
    (Load toyGCM (.object partialFile []) keyedStore).1 = none ∧
    (Load toyGCM (.object partialFile []) keyedStore).2.settings.Servers
      = [{ sampleServer with Name := ascii "renamed" },
         { zeroServer with Password := ascii "hunter2!" },
         { zeroServer with Password := ascii "abc" },
         zeroServer] ∧
    (Decrypt toyGCM (ascii "hunter2!") keyedStore).1 = .error .corruptInput ∧
    (Decrypt toyGCM sampleToken keyedStore).1 = .ok (ascii "abc") ∧
    ((Load toyGCM (.object partialFile [])
        { keyedStore with settings := { keyedStore.settings with Servers := [] } }
      ).2.settings.Servers[0]?).map (fun srv => (srv.Name, srv.Host, srv.Password))
      = some (ascii "renamed", [], []) :=
  ⟨(Load_passwords toyGCM partialFile [] keyedStore).1, by decide, by decide, by decide,
    by decide⟩

/-! ### Save followed by Load -/

theorem storedKey_congr {s1 s2 : Settings} (h : s1.EncryptionKey = s2.EncryptionKey) :
    storedKey s1 = storedKey s2 := by
  unfold storedKey
  rw [h]

theorem storedKey_some_ne_nil {s : Settings} {key : Bytes} (h : storedKey s = some key) :
    s.EncryptionKey ≠ [] := by
  intro h0
  unfold storedKey at h
  rw [if_neg (by simp [h0])] at h
  simp at h

theorem Encrypt_stored {A : AEAD} {P T key : Bytes} {w w1 : World}
    (hs : storedKey w.settings = some key) (hE : Encrypt A P w = (.ok T, w1)) :
    ∃ nonce, nonce.length = nonceSize ∧ T = sealToken A key nonce P ∧
      w1.settings = w.settings := by
  unfold Encrypt at hE
  rw [GetEncryptionKey_stored hs] at hE
  simp only [aesNewCipher_of_length (storedKey_length hs), if_true] at hE
  split at hE
  · simp at hE
  · rename_i nonce r hr
    simp only [Prod.mk.injEq, Except.ok.injEq] at hE
    exact ⟨nonce, readFull_length hr, hE.1.symm, by rw [← hE.2]⟩

theorem Decrypt_stored (A : AEAD) {key : Bytes} (c : Bytes) {w : World}
    (hs : storedKey w.settings = some key) : Decrypt A c w = (openToken A key c, w) := by
  unfold Decrypt
  rw [GetEncryptionKey_stored hs]

/-- With a valid key stored, the loop of `Save` seals every password under
that key and leaves the settings as they are. -/
theorem encryptPasswords_stored (A : AEAD) {key : Bytes} :
    ∀ (L out : List ServerConfig) (w w1 : World), storedKey w.settings = some key →
      encryptPasswords A L w = (.ok out, w1) →
      List.Forall₂ (SealedUnder A key) L out ∧ w1.settings = w.settings := by
  intro L
  induction L with
  | nil =>
    intro out w w1 _ h
    simp only [encryptPasswords, Prod.mk.injEq, Except.ok.injEq] at h
    rw [← h.1, ← h.2]
    exact ⟨List.Forall₂.nil, rfl⟩
  | cons srv rest ih =>
    intro out w w1 hs h
    unfold encryptPasswords at h
    split at h
    · rename_i hne
      generalize hE : Encrypt A srv.Password w = e at h
      obtain ⟨r, wa⟩ := e
      cases r with
      | error e => simp at h
      | ok t =>
        simp only at h
        obtain ⟨nonce, hn, hT, hwa⟩ := Encrypt_stored hs hE
        have hsa : storedKey wa.settings = some key := by rw [hwa]; exact hs
        generalize h2 : encryptPasswords A rest wa = e2 at h
        obtain ⟨r2, wb⟩ := e2
        cases r2 with
        | error e => simp at h
        | ok out2 =>
          simp only [Prod.mk.injEq, Except.ok.injEq] at h
          obtain ⟨hF, hwb⟩ := ih out2 wa wb hsa h2
          rw [← h.1, ← h.2]
          exact ⟨List.Forall₂.cons ⟨rfl, Or.inr ⟨hne, nonce, hn, hT⟩⟩ hF, by rw [hwb, hwa]⟩
    · rename_i hne
      have he : srv.Password = [] := by
        by_contra hc; exact hne hc
      generalize h2 : encryptPasswords A rest w = e2 at h
      obtain ⟨r2, wb⟩ := e2
      cases r2 with
      | error e => simp at h
      | ok out2 =>
        simp only [Prod.mk.injEq, Except.ok.injEq] at h
        obtain ⟨hF, hwb⟩ := ih out2 w wb hs h2
        rw [← h.1, ← h.2]
        exact ⟨List.Forall₂.cons ⟨rfl, Or.inl ⟨he, he⟩⟩ hF, hwb⟩

theorem restore_password {srv enc : ServerConfig}
    (h : enc = { srv with Password := enc.Password }) :
    { enc with Password := srv.Password } = srv := by
  rw [h]

/-- With the key stored, the loop of `Load` turns the entries sealed under
that key back into the entries they were made from. -/
theorem decryptPasswords_sealed {A : AEAD} (hA : A.Inverse) {key : Bytes}
    {L out : List ServerConfig} (hF : List.Forall₂ (SealedUnder A key) L out) :
    ∀ (wl : World), storedKey wl.settings = some key →
      decryptPasswords A out wl = (L, wl) := by
  induction hF with
  | nil => intro wl _; rfl
  | @cons srv enc l1 l2 hab _ ih =>
    intro wl hs
    obtain ⟨heq, hpw⟩ := hab
    rw [decryptPasswords_cons]
    rcases hpw with ⟨h1, h2⟩ | ⟨h1, nonce, hn, h2⟩
    · have e1 : loadEntry A enc wl = srv := by
        unfold loadEntry
        rw [if_neg (by simp [h2]), heq, h2, ← h1]
      have e2 : loadStep A enc wl = wl := by
        unfold loadStep
        rw [if_neg (by simp [h2])]
      rw [e1, e2, ih wl hs]
    · have hne : enc.Password ≠ [] := by
        rw [h2]; exact sealToken_ne_nil A key hn _
      have hD : Decrypt A enc.Password wl = (.ok srv.Password, wl) := by
        rw [Decrypt_stored A _ hs, h2, openToken_sealToken hA (storedKey_length hs) hn]
      have e1 : loadEntry A enc wl = srv := by
        unfold loadEntry
        rw [if_pos hne, hD]
        exact restore_password heq
      have e2 : loadStep A enc wl = wl := by
        unfold loadStep
        rw [if_pos hne, hD]
      rw [e1, e2, ih wl hs]

theorem decryptPasswords_empty (A : AEAD) :
    ∀ (L : List ServerConfig) (w : World), (∀ srv ∈ L, srv.Password = []) →
      decryptPasswords A L w = (L, w) := by
  intro L
  induction L with
  | nil => intro w _; rfl
  | cons srv rest ih =>
    intro w h
    have h0 : srv.Password = [] := h srv (by simp)
    rw [decryptPasswords_cons]
    have e1 : loadEntry A srv w = srv := by
      unfold loadEntry
      rw [if_neg (by simp [h0])]
    have e2 : loadStep A srv w = w := by
      unfold loadStep
      rw [if_neg (by simp [h0])]
    rw [e1, e2, ih w (fun x hx => h x (by simp [hx]))]

/-- The first call of `GetEncryptionKey` without a stored key, when the
random read delivers `key`. -/
theorem GetEncryptionKey_generated {w : World} {key : Bytes} {r : Entropy}
    (hs : storedKey w.settings = none) (hr : readFull w.rand 32 = (some key, r)) :
    GetEncryptionKey w = (key, withKey w key r) ∧
      storedKey (withKey w key r).settings = some key := by
  constructor
  · unfold GetEncryptionKey
    rw [hs]
    simp only
    rw [hr]
    rfl
  · exact storedKey_hexEncode _ (readFull_length hr)

/-- A call of `Encrypt` that generates the key does what the same call does
in the state where that key is already stored. -/
theorem Encrypt_generated (A : AEAD) (P : Bytes) {w : World} {key : Bytes} {r : Entropy}
    (hs : storedKey w.settings = none) (hr : readFull w.rand 32 = (some key, r)) :
    Encrypt A P w = Encrypt A P (withKey w key r) := by
  obtain ⟨hg, hk⟩ := GetEncryptionKey_generated hs hr
  unfold Encrypt
  rw [hg, GetEncryptionKey_stored hk]

theorem Decrypt_generated (A : AEAD) (c : Bytes) {w : World} {key : Bytes} {r : Entropy}
    (hs : storedKey w.settings = none) (hr : readFull w.rand 32 = (some key, r)) :
    Decrypt A c w = Decrypt A c (withKey w key r) := by
  obtain ⟨hg, hk⟩ := GetEncryptionKey_generated hs hr
  unfold Decrypt
  rw [hg, GetEncryptionKey_stored hk]

/-- Without a stored key and with a random source that delivers `key`, the
loop of `Save` either meets no password at all, or stores `key` and seals
every password under it. -/
theorem encryptPasswords_generated (A : AEAD) {key : Bytes} {r : Entropy} :
    ∀ (L out : List ServerConfig) (w w1 : World), storedKey w.settings = none →
      readFull w.rand 32 = (some key, r) →
      encryptPasswords A L w = (.ok out, w1) →
      (out = L ∧ w1 = w ∧ ∀ srv ∈ L, srv.Password = []) ∨
      (List.Forall₂ (SealedUnder A key) L out ∧ w1.settings = (withKey w key r).settings) := by
  intro L
  induction L with
  | nil =>
    intro out w w1 _ _ h
    simp only [encryptPasswords, Prod.mk.injEq, Except.ok.injEq] at h
    left
    exact ⟨h.1.symm, h.2.symm, by simp⟩
  | cons srv rest ih =>
    intro out w w1 hs hr h
    by_cases hne : srv.Password ≠ []
    · right
      have hk := (GetEncryptionKey_generated hs hr).2
      have h2 : encryptPasswords A (srv :: rest) (withKey w key r) = (.ok out, w1) := by
        rw [← h]
        unfold encryptPasswords
        rw [if_pos hne, if_pos hne, Encrypt_generated A _ hs hr]
      exact encryptPasswords_stored A _ _ _ _ hk h2
    · have he : srv.Password = [] := by
        by_contra hc; exact hne hc
      unfold encryptPasswords at h
      rw [if_neg hne] at h
      generalize h2 : encryptPasswords A rest w = e2 at h
      obtain ⟨r2, wb⟩ := e2
      cases r2 with
      | error e => simp at h
      | ok out2 =>
        simp only [Prod.mk.injEq, Except.ok.injEq] at h
        rcases ih out2 w wb hs hr h2 with ⟨ho, hw, hall⟩ | ⟨hF, hw⟩
        · left
          refine ⟨by rw [← h.1, ho], by rw [← h.2, hw], ?_⟩
          intro x hx
          rcases List.mem_cons.mp hx with hx | hx
          · rw [hx]; exact he
          · exact hall x hx
        · right
          rw [← h.1, ← h.2]
          exact ⟨List.Forall₂.cons ⟨rfl, Or.inl ⟨he, he⟩⟩ hF, hw⟩

/-- What `Save` writes and leaves behind when the write happens. -/
theorem Save_written {A : AEAD} {writeOk : Bool} {w : World} {file : Persisted}
    (hW : (Save A writeOk w).written = some file) :
    ∃ out, encryptPasswords A w.settings.Servers w = (.ok out, (Save A writeOk w).world) ∧
      file = jsonMarshal { Servers := out, EncryptionKey := w.settings.EncryptionKey } ∧
      (Save A writeOk w).err = none := by
  unfold Save at hW ⊢
  generalize encryptPasswords A w.settings.Servers w = e at hW ⊢
  obtain ⟨r, w1⟩ := e
  cases r with
  | error e => simp at hW
  | ok out =>
    simp only at hW ⊢
    split at hW
    · rename_i hok
      simp only [Option.some.injEq] at hW
      rw [if_pos hok]
      exact ⟨out, rfl, hW.symm, rfl⟩
    · simp at hW

/-- The file that `Save` writes carries the key field as it was when `Save`
was called, whatever the encryption of the passwords did to the key since. -/
theorem Save_key_field {A : AEAD} {writeOk : Bool} {w : World} {file : Persisted}
    (hW : (Save A writeOk w).written = some file) :
    file.encryption_key
      = if w.settings.EncryptionKey = [] then none else some w.settings.EncryptionKey := by
  obtain ⟨out, -, hf, -⟩ := Save_written hW
  rw [hf]
  rfl

/-- A file written while a valid key was stored is read back, by any
process, as the profile list it was written from. -/
theorem Load_Save_stored {A : AEAD} (hA : A.Inverse) {writeOk : Bool} {w : World}
    {file : Persisted} {key : Bytes} (hs : storedKey w.settings = some key)
    (hW : (Save A writeOk w).written = some file) (wl : World) :
    (Load A (.content file) wl).2.settings.Servers = w.settings.Servers := by
  obtain ⟨out, hE, hf, -⟩ := Save_written hW
  obtain ⟨hF, -⟩ := encryptPasswords_stored A _ _ _ _ hs hE
  have hne := storedKey_some_ne_nil hs
  have hu : jsonUnmarshal file wl.settings
      = { Servers := out, EncryptionKey := w.settings.EncryptionKey } := by
    rw [hf]
    simp [jsonUnmarshal, jsonMarshal, hne]
  have hs0 : storedKey (jsonUnmarshal file wl.settings) = some key := by
    rw [hu, ← hs]
    exact storedKey_congr rfl
  unfold Load
  simp only
  rw [decryptPasswords_sealed hA (by rw [hu]; exact hF) _ hs0]

/-- C4 (amended). A `Save` that writes the file, followed by a `Load` of
that file, gives the store the profile list it had before the `Save`, in
the same order and with the same passwords, in each of two cases: a valid
key is stored when `Save` starts (the `Load` may then run in any process);
or no key is stored when `Save` starts, the random read for the key
succeeds, and the `Load` runs in the process that saved (its key field is
the one `Save` left). -/
theorem Load_Save (A : AEAD) (hA : A.Inverse) (writeOk : Bool) (w wl : World)
    (file : Persisted) (hW : (Save A writeOk w).written = some file)
    (hk : storedKey w.settings ≠ none ∨
      (w.settings.EncryptionKey = [] ∧ (readFull w.rand 32).1 ≠ none ∧
        wl.settings.EncryptionKey = (Save A writeOk w).world.settings.EncryptionKey)) :
    (Load A (.content file) wl).1 = none ∧
    (Load A (.content file) wl).2.settings.Servers = w.settings.Servers := by
  refine ⟨rfl, ?_⟩
  rcases hk with hk | ⟨h0, hr, hwl⟩
  · obtain ⟨key, hs⟩ := Option.ne_none_iff_exists'.mp hk
    exact Load_Save_stored hA hs hW wl
  · obtain ⟨out, hE, hf, -⟩ := Save_written hW
    have hs : storedKey w.settings = none := by
      unfold storedKey
      rw [if_neg (by simp [h0])]
    have hu : jsonUnmarshal file wl.settings
        = { Servers := out, EncryptionKey := wl.settings.EncryptionKey } := by
      rw [hf]
      simp [jsonUnmarshal, jsonMarshal, h0]
    generalize hrd : readFull w.rand 32 = rd at hr
    obtain ⟨ko, r⟩ := rd
    cases ko with
    | none => exact absurd rfl hr
    | some key =>
      unfold Load
      simp only
      rcases encryptPasswords_generated A _ _ _ _ hs hrd hE with ⟨ho, -, hall⟩ | ⟨hF, hw1⟩
      · rw [hu]
        simp only
        rw [decryptPasswords_empty A out _ (by rw [ho]; exact hall), ho]
      · have hs0 : storedKey (jsonUnmarshal file wl.settings) = some key := by
          rw [← (GetEncryptionKey_generated hs hrd).2]
          apply storedKey_congr
          rw [hu, hwl, hw1]
        rw [decryptPasswords_sealed hA (by rw [hu]; exact hF) _ hs0]

/-- C4, witness: the store with one profile and no key, saved and loaded in
the same process. -/
theorem Load_Save_witness :
    toyGCM.Inverse ∧ (Save toyGCM true sampleStore).written = some sampleFile ∧
    (storedKey sampleStore.settings ≠ none ∨
      (sampleStore.settings.EncryptionKey = [] ∧ (readFull sampleStore.rand 32).1 ≠ none ∧
        (Save toyGCM true sampleStore).world.settings.EncryptionKey
          = (Save toyGCM true sampleStore).world.settings.EncryptionKey)) ∧
    (Load toyGCM (.content sampleFile) (Save toyGCM true sampleStore).world).1 = none ∧
    (Load toyGCM (.content sampleFile) (Save toyGCM true sampleStore).world).2.settings.Servers
      = sampleStore.settings.Servers :=
  ⟨toyGCM_inverse, rfl, Or.inr ⟨rfl, by decide, rfl⟩,
    Load_Save toyGCM toyGCM_inverse true sampleStore (Save toyGCM true sampleStore).world
      sampleFile rfl (Or.inr ⟨rfl, by decide, rfl⟩)⟩

/-- C4, counterexample: a fresh process adds one profile and saves; the
random read for the key fails, so the password is sealed under the fallback
key, which is not stored. `Save` succeeds. The same process loads the file;
the random read now succeeds, `Decrypt` uses a new key, rejects the token,
and the loaded password is the token, not `abc`. -/
theorem Load_Save_flaky_counterexample :
    (Save toyGCM true flakyStore).err = none ∧
    (Save toyGCM true flakyStore).written = some flakyFile ∧
    (Load toyGCM (.content flakyFile) (Save toyGCM true flakyStore).world).1 = none ∧
    (Load toyGCM (.content flakyFile) (Save toyGCM true flakyStore).world).2.settings.Servers
      = [{ sampleServer with Password := flakyToken }] ∧
    (Load toyGCM (.content flakyFile) (Save toyGCM true flakyStore).world).2.settings.Servers
      ≠ flakyStore.settings.Servers := by
  decide

/-- C3, the code at the failing input: a store with one profile and no key.
`Save` succeeds and generates `sampleKey`, under which the token in the file
opens to `abc`; the file has no `encryption_key`, because `Save` copied the
key field before the key existed. A fresh process that loads the file
generates another key and keeps the token as the password. -/
theorem Save_first_key_not_persisted :
    (Save toyGCM true sampleStore).err = none ∧
    (Save toyGCM true sampleStore).written = some sampleFile ∧
    sampleFile.encryption_key = none ∧
    storedKey (Save toyGCM true sampleStore).world.settings = some sampleKey ∧
    openToken toyGCM sampleKey sampleToken = .ok (ascii "abc") ∧
    (Load toyGCM (.content sampleFile) (freshProcess [some otherKey])).1 = none ∧
    (Load toyGCM (.content sampleFile) (freshProcess [some otherKey])).2.settings.Servers
      = [{ sampleServer with Password := sampleToken }] := by
  decide

/-! ### Legacy passwords -/

/-- With a valid key stored, the loop of `Load` treats every entry on its
own and leaves the process state as it is. -/
theorem decryptPasswords_storedKey (A : AEAD) {key : Bytes} :
    ∀ (L : List ServerConfig) (w : World), storedKey w.settings = some key →
      decryptPasswords A L w = (L.map (fun srv => loadEntry A srv w), w) := by
  intro L
  induction L with
  | nil => intro w _; rfl
  | cons srv rest ih =>
    intro w hs
    have e2 : loadStep A srv w = w := by
      unfold loadStep
      split
      · rw [Decrypt_stored A _ hs]
      · rfl
    rw [decryptPasswords_cons, e2, ih w hs]
    rfl

/-- Without a stored key and with a random source that delivers `key`, the
loop of `Load` over a list with a password does what it does in the state
where `key` is already stored. -/
theorem decryptPasswords_generated (A : AEAD) {key : Bytes} {r : Entropy} :
    ∀ (L : List ServerConfig) (w : World), storedKey w.settings = none →
      readFull w.rand 32 = (some key, r) → (∃ srv ∈ L, srv.Password ≠ []) →
      decryptPasswords A L w = decryptPasswords A L (withKey w key r) := by
  intro L
  induction L with
  | nil => intro w _ _ h; simp at h
  | cons srv rest ih =>
    intro w hs hr hex
    have hk := (GetEncryptionKey_generated hs hr).2
    by_cases hne : srv.Password ≠ []
    · have hD := Decrypt_generated A srv.Password hs hr
      have e1 : loadEntry A srv w = loadEntry A srv (withKey w key r) := by
        unfold loadEntry
        rw [hD]
      have e2 : loadStep A srv w = loadStep A srv (withKey w key r) := by
        unfold loadStep
        rw [if_pos hne, if_pos hne, hD]
      rw [decryptPasswords_cons, decryptPasswords_cons, e1, e2]
    · have hex2 : ∃ x ∈ rest, x.Password ≠ [] := by
        obtain ⟨x, hx, hxp⟩ := hex
        rcases List.mem_cons.mp hx with hx | hx
        · rw [hx] at hxp; exact absurd hxp hne
        · exact ⟨x, hx, hxp⟩
      have e1 : ∀ v, loadEntry A srv v = srv := by
        intro v; unfold loadEntry; rw [if_neg hne]
      have e2 : ∀ v, loadStep A srv v = v := by
        intro v; unfold loadStep; rw [if_neg hne]
      rw [decryptPasswords_cons, decryptPasswords_cons, e1, e1, e2, e2, ih w hs hr hex2]

/-- A `Load` during which the key is valid, or is generated at its first
use: afterwards the key is stored, and every entry was treated under it. -/
theorem Load_keyed (A : AEAD) (file : Persisted) (w : World) (i : Nat) (srv : ServerConfig)
    (hi : (jsonUnmarshal file w.settings).Servers[i]? = some srv) (hne : srv.Password ≠ [])
    (hk : storedKey (jsonUnmarshal file w.settings) ≠ none ∨ (readFull w.rand 32).1 ≠ none) :
    ∃ wk, storedKey wk.settings
        = some (GetEncryptionKey { w with settings := jsonUnmarshal file w.settings }).1 ∧
      (Load A (.content file) w).2.settings.EncryptionKey = wk.settings.EncryptionKey ∧
      (Load A (.content file) w).2.settings.Servers
        = (jsonUnmarshal file w.settings).Servers.map (fun s => loadEntry A s wk) := by
  have hmem : ∃ x ∈ (jsonUnmarshal file w.settings).Servers, x.Password ≠ [] :=
    ⟨srv, List.getElem?_mem hi, hne⟩
  cases hs : storedKey (jsonUnmarshal file w.settings) with
  | some key =>
    refine ⟨{ w with settings := jsonUnmarshal file w.settings }, ?_, ?_, ?_⟩
    · rw [GetEncryptionKey_stored hs]; exact hs
    · unfold Load
      simp only
      rw [decryptPasswords_storedKey A _ _ hs]
    · unfold Load
      simp only
      rw [decryptPasswords_storedKey A _ _ hs]
  | none =>
    rcases hk with hk | hk
    · exact absurd hs hk
    · generalize hrd : readFull w.rand 32 = rd at hk
      obtain ⟨ko, r⟩ := rd
      cases ko with
      | none => exact absurd rfl hk
      | some key =>
        have hs0 : storedKey
            ({ w with settings := jsonUnmarshal file w.settings } : World).settings = none := hs
        have hr0 : readFull ({ w with settings := jsonUnmarshal file w.settings } : World).rand 32
            = (some key, r) := hrd
        obtain ⟨hg, hsk⟩ := GetEncryptionKey_generated hs0 hr0
        refine ⟨withKey { w with settings := jsonUnmarshal file w.settings } key r, ?_, ?_, ?_⟩
        · rw [hg]; exact hsk
        · unfold Load
          simp only
          rw [decryptPasswords_generated A _ _ hs0 hr0 hmem,
            decryptPasswords_storedKey A _ _ hsk]
        · unfold Load
          simp only
          rw [decryptPasswords_generated A _ _ hs0 hr0 hmem,
            decryptPasswords_storedKey A _ _ hsk]

/-- C5 (amended). Let a settings file hold at position `i` a profile whose
non-empty password `P` is not a token under the process key (`Decrypt`
rejects it), and let the `Load` have a key: a valid one in the file or the
process, or one that the random source delivers at first use. Then `Load`
leaves `P` as the in-memory password; the next `Save`, when it writes,
stores the key in the file and writes for that profile a token that differs
from `P` and that `Decrypt` turns into `P`; and a `Load` of that file, by any
process, yields the password `P`. -/
theorem legacy_password_migrates (A : AEAD) (hA : A.Inverse) (hN : A.NoShrink)
    (file0 file1 : Persisted) (w0 wl : World) (i : Nat) (srv : ServerConfig) (writeOk : Bool)
    (hi : (jsonUnmarshal file0 w0.settings).Servers[i]? = some srv)
    (hne : srv.Password ≠ [])
    (hk : storedKey (jsonUnmarshal file0 w0.settings) ≠ none ∨ (readFull w0.rand 32).1 ≠ none)
    (hlegacy : ∀ d, openToken A
      (GetEncryptionKey { w0 with settings := jsonUnmarshal file0 w0.settings }).1
      srv.Password ≠ .ok d)
    (hW : (Save A writeOk (Load A (.content file0) w0).2).written = some file1) :
    (∃ m, (Load A (.content file0) w0).2.settings.Servers[i]? = some m ∧
      m.Password = srv.Password) ∧
    (∃ out enc, file1.servers = some out ∧ out[i]? = some enc ∧
      enc.Password ≠ srv.Password ∧
      file1.encryption_key = some (Load A (.content file0) w0).2.settings.EncryptionKey ∧
      (Decrypt A enc.Password (Save A writeOk (Load A (.content file0) w0).2).world).1
        = .ok srv.Password) ∧
    (∃ m, (Load A (.content file1) wl).2.settings.Servers[i]? = some m ∧
      m.Password = srv.Password) := by
  obtain ⟨wk, hsk, hkey, hsrv⟩ := Load_keyed A file0 w0 i srv hi hne hk
  generalize (GetEncryptionKey { w0 with settings := jsonUnmarshal file0 w0.settings }).1 = key
    at hsk hlegacy
  -- the entry after the first load
  have hentry : loadEntry A srv wk = srv := by
    unfold loadEntry
    rw [if_pos hne, Decrypt_stored A _ hsk]
    simp only
    cases ho : openToken A key srv.Password with
    | error e => rfl
    | ok d => exact absurd ho (hlegacy d)
  have hm : (Load A (.content file0) w0).2.settings.Servers[i]? = some srv := by
    rw [hsrv, List.getElem?_map, hi]
    simp [hentry]
  have hs1 : storedKey (Load A (.content file0) w0).2.settings = some key := by
    rw [← hsk]
    exact storedKey_congr hkey
  -- the save
  obtain ⟨out, hE, hf, -⟩ := Save_written hW
  obtain ⟨hF, hwS⟩ := encryptPasswords_stored A _ _ _ _ hs1 hE
  obtain ⟨enc, henc, -, hpw⟩ := forall₂_getElem? hF i srv hm
  have hsS : storedKey (Save A writeOk (Load A (.content file0) w0).2).world.settings
      = some key := by
    rw [hwS]; exact hs1
  refine ⟨⟨srv, hm, rfl⟩, ⟨out, enc, by rw [hf]; rfl, henc, ?_, ?_, ?_⟩, ⟨srv, ?_, rfl⟩⟩
  · rcases hpw with ⟨h1, _⟩ | ⟨_, nonce, hn, h2⟩
    · exact absurd h1 hne
    · rw [h2]; exact sealToken_ne hN key hn _
  · rw [Save_key_field hW, if_neg (storedKey_some_ne_nil hs1)]
  · rcases hpw with ⟨h1, _⟩ | ⟨_, nonce, hn, h2⟩
    · exact absurd h1 hne
    · rw [Decrypt_stored A _ hsS, h2, openToken_sealToken hA (storedKey_length hs1) hn]
  · rw [Load_Save_stored hA hs1 hW wl]
    exact hm

/-- C5, witness: the legacy file loaded by a process with a working random
source, saved, and loaded by a fresh process. -/
theorem legacy_password_migrates_witness :
    toyGCM.Inverse ∧ toyGCM.NoShrink ∧
    (jsonUnmarshal legacyFile healthyWorld.settings).Servers[0]? = some legacyServer ∧
    legacyServer.Password ≠ [] ∧
    (Save toyGCM true (Load toyGCM (.content legacyFile) healthyWorld).2).written
      = some migratedFile ∧
    (∃ m, (Load toyGCM (.content legacyFile) healthyWorld).2.settings.Servers[0]? = some m ∧
      m.Password = legacyServer.Password) ∧
    (∃ out enc, migratedFile.servers = some out ∧ out[0]? = some enc ∧
      enc.Password ≠ legacyServer.Password ∧
      migratedFile.encryption_key
        = some (Load toyGCM (.content legacyFile) healthyWorld).2.settings.EncryptionKey ∧
      (Decrypt toyGCM enc.Password
        (Save toyGCM true (Load toyGCM (.content legacyFile) healthyWorld).2).world).1
        = .ok legacyServer.Password) ∧
    (∃ m, (Load toyGCM (.content migratedFile) (freshProcess [])).2.settings.Servers[0]?
        = some m ∧
      m.Password = legacyServer.Password) :=
  ⟨toyGCM_inverse, toyGCM_noShrink, rfl, by decide, rfl,
    legacy_password_migrates toyGCM toyGCM_inverse toyGCM_noShrink legacyFile migratedFile
      healthyWorld (freshProcess []) 0 legacyServer true rfl (by decide)
      (Or.inr (by decide))
      (fun d h => by
        have e : openToken toyGCM
            (GetEncryptionKey
              { healthyWorld with
                settings := jsonUnmarshal legacyFile healthyWorld.settings }).1
            legacyServer.Password = .error .corruptInput := rfl
        rw [e] at h
        cases h)
      rfl⟩

/-- C5, counterexample: a fresh process loads the legacy file; the random
read for the key fails, `hunter2!` is kept. The process saves; the random
read for the key fails again, so the token is sealed under the fallback key,
which is neither stored nor written. The next `Load` finds a working random
source, generates a key, rejects the token and keeps it as the password:
the password is not `hunter2!` again. -/
theorem legacy_password_flaky_counterexample :
    (Load toyGCM (.content legacyFile) legacyWorld).2.settings.Servers = [legacyServer] ∧
    (Save toyGCM true (Load toyGCM (.content legacyFile) legacyWorld).2).written
      = some legacyResaved ∧
    (Load toyGCM (.content legacyResaved)
      (Save toyGCM true (Load toyGCM (.content legacyFile) legacyWorld).2).world).2.settings.Servers
      = [{ sampleServer with Password := legacyToken }] ∧
    legacyToken ≠ legacyServer.Password := by
  decide

/-! ### Listing, lookup and the uniqueness of IDs -/

theorem copyServers_replicate (l : List ServerConfig) :
    copyServers (List.replicate l.length zeroServer) l = l := by
  unfold copyServers
  simp

/-- C11. After `AddServer(p)` the listing that `GetServers()` returns is the
listing it returned before the call followed by `p`; `GetServers` itself
leaves the store as it is. -/
theorem GetServers_AddServer (s : Settings) (p : ServerConfig) :
    (GetServers (AddServer s p)).1 = (GetServers s).1 ++ [p] ∧
    (GetServers s).1 = s.Servers ∧ (GetServers s).2 = s := by
  refine ⟨?_, ?_, rfl⟩
  · show copyServers _ (AddServer s p).Servers = copyServers _ s.Servers ++ [p]
    rw [copyServers_replicate, copyServers_replicate]
    rfl
  · exact copyServers_replicate s.Servers

theorem getFrom_first (id : Bytes) (srv : ServerConfig) (l2 : List ServerConfig)
    (hid : srv.ID = id) :
    ∀ l1 : List ServerConfig, (∀ x ∈ l1, x.ID ≠ id) →
      getFrom id (l1 ++ srv :: l2) = (some srv, true) := by
  intro l1
  induction l1 with
  | nil => intro _; simp [getFrom, hid]
  | cons a l1 ih =>
    intro h
    have ha : a.ID ≠ id := h a (by simp)
    simp only [List.cons_append, getFrom, ha, if_false]
    exact ih (fun x hx => h x (by simp [hx]))

theorem getFrom_none (id : Bytes) :
    ∀ l : List ServerConfig, (∀ x ∈ l, x.ID ≠ id) → getFrom id l = (none, false) := by
  intro l
  induction l with
  | nil => intro _; rfl
  | cons a l ih =>
    intro h
    have ha : a.ID ≠ id := h a (by simp)
    simp only [getFrom, ha, if_false]
    exact ih (fun x hx => h x (by simp [hx]))

/-- C12. `GetServer(id)` returns true with the first stored profile whose ID
is `id` when there is one, and `(nil, false)` when there is none; it leaves
the store as it is. After `UpdateServer(id, p)` returned true with
`p.ID = id`, `GetServer(id)` returns `p`. -/
theorem GetServer_spec (s : Settings) (id : Bytes) :
    (∀ l1 srv l2, s.Servers = l1 ++ srv :: l2 → (∀ x ∈ l1, x.ID ≠ id) → srv.ID = id →
      (GetServer s id).1 = (some srv, true)) ∧
    ((∀ x ∈ s.Servers, x.ID ≠ id) → (GetServer s id).1 = (none, false)) ∧
    (GetServer s id).2 = s ∧
    (∀ p : ServerConfig, p.ID = id → (UpdateServer s id p).1 = true →
      (GetServer (UpdateServer s id p).2 id).1 = (some p, true)) := by
  refine ⟨?_, ?_, rfl, ?_⟩
  · intro l1 srv l2 hs hl1 hid
    show getFrom id s.Servers = (some srv, true)
    rw [hs]
    exact getFrom_first id srv l2 hid l1 hl1
  · intro h
    exact getFrom_none id s.Servers h
  · intro p hp hu
    have h := updateFrom_spec id p s.Servers [] (by simp)
    simp only [List.nil_append, List.length_nil] at h
    unfold UpdateServer at hu ⊢
    rcases h with ⟨h, -⟩ | ⟨l1, srv, l2, -, hl1, -, h⟩
    · rw [h] at hu
      simp at hu
    · rw [h]
      show getFrom id (l1 ++ p :: l2) = (some p, true)
      exact getFrom_first id p l2 hp l1 hl1

/-- C13 (amended). When no two stored profiles share an ID, none do after
`DeleteServer`; none do after `AddServer(p)` if no stored profile has the ID
of `p`; and none do after `UpdateServer(id, p)` if `p.ID` is `id` or no
stored profile has the ID of `p`. -/
theorem UniqueIDs_preserved (s : Settings) (id : Bytes) (p : ServerConfig)
    (hu : UniqueIDs s.Servers) :
    UniqueIDs (DeleteServer s id).2.Servers ∧
    ((∀ x ∈ s.Servers, x.ID ≠ p.ID) → UniqueIDs (AddServer s p).Servers) ∧
    ((p.ID = id ∨ ∀ x ∈ s.Servers, x.ID ≠ p.ID) →
      UniqueIDs (UpdateServer s id p).2.Servers) := by
  unfold UniqueIDs at hu ⊢
  refine ⟨?_, ?_, ?_⟩
  · have h := deleteFrom_spec id s.Servers [] (by simp)
    simp only [List.nil_append, List.length_nil] at h
    unfold DeleteServer
    rcases h with ⟨h, -⟩ | ⟨l1, srv, l2, hs, -, -, h⟩
    · rw [h]; exact hu
    · rw [h]
      show ((l1 ++ l2).map fun srv => srv.ID).Nodup
      rw [hs] at hu
      simp only [List.map_append, List.map_cons] at hu ⊢
      exact (List.nodup_cons.mp (List.nodup_middle.mp hu)).2
  · intro hp
    show ((s.Servers ++ [p]).map fun srv => srv.ID).Nodup
    simp only [List.map_append, List.map_cons, List.map_nil]
    rw [List.nodup_append]
    refine ⟨hu, List.nodup_singleton _, ?_⟩
    intro a ha hb
    rw [List.mem_singleton.mp hb] at ha
    obtain ⟨x, hx, hxid⟩ := List.mem_map.mp ha
    exact hp x hx hxid
  · intro hp
    have h := updateFrom_spec id p s.Servers [] (by simp)
    simp only [List.nil_append, List.length_nil] at h
    unfold UpdateServer
    rcases h with ⟨h, -⟩ | ⟨l1, srv, l2, hs, -, hid, h⟩
    · rw [h]; exact hu
    · rw [h]
      show ((l1 ++ p :: l2).map fun srv => srv.ID).Nodup
      rw [hs] at hu
      simp only [List.map_append, List.map_cons] at hu ⊢
      rcases hp with hp | hp
      · rw [hp, ← hid]; exact hu
      · have hn := List.nodup_cons.mp (List.nodup_middle.mp hu)
        apply List.nodup_middle.mpr
        refine List.nodup_cons.mpr ⟨?_, hn.2⟩
        intro hmem
        rcases List.mem_append.mp hmem with hm | hm
        · obtain ⟨x, hx, hxid⟩ := List.mem_map.mp hm
          exact hp x (by rw [hs]; simp [hx]) hxid
        · obtain ⟨x, hx, hxid⟩ := List.mem_map.mp hm
          exact hp x (by rw [hs]; simp [hx]) hxid

/-- C13, witness: a store with three profiles whose IDs are `1`, `2`, `3`.
Deleting `2` leaves `1` and `3`; adding a profile with the new ID `4` gives
four profiles; updating `2` by a profile with the ID `2`, or by one with the
new ID `4`, puts it in the second place. The premises of the amended claim
hold at each call, and the IDs stay distinct after each. -/
theorem UniqueIDs_preserved_witness :
    UniqueIDs threeProfiles.Servers ∧
    (∀ x ∈ threeProfiles.Servers, x.ID ≠ fourthServer.ID) ∧
    editedSecond.ID = ascii "2" ∧
    (DeleteServer threeProfiles (ascii "2")).2.Servers = [sampleServer, thirdServer] ∧
    UniqueIDs (DeleteServer threeProfiles (ascii "2")).2.Servers ∧
    (AddServer threeProfiles fourthServer).Servers =
      [sampleServer, secondServer, thirdServer, fourthServer] ∧
    UniqueIDs (AddServer threeProfiles fourthServer).Servers ∧
    (UpdateServer threeProfiles (ascii "2") editedSecond).2.Servers =
      [sampleServer, editedSecond, thirdServer] ∧
    UniqueIDs (UpdateServer threeProfiles (ascii "2") editedSecond).2.Servers ∧
    (UpdateServer threeProfiles (ascii "2") fourthServer).2.Servers =
      [sampleServer, fourthServer, thirdServer] ∧
    UniqueIDs (UpdateServer threeProfiles (ascii "2") fourthServer).2.Servers :=
  have hu : UniqueIDs threeProfiles.Servers := by decide
  have hfresh : ∀ x ∈ threeProfiles.Servers, x.ID ≠ fourthServer.ID := by decide
  have hid : editedSecond.ID = ascii "2" := by decide
  have h4 := UniqueIDs_preserved threeProfiles (ascii "2") fourthServer hu
  have h2 := UniqueIDs_preserved threeProfiles (ascii "2") editedSecond hu
  ⟨hu, hfresh, hid, by decide, h4.1, by decide, h4.2.1 hfresh, by decide,
    h2.2.2 (Or.inl hid), by decide, h4.2.2 (Or.inr hfresh)⟩

/-- C13, counterexample: the store holds one profile with the ID `1`;
`AddServer` of a profile with the same ID appends it without a check, and
two stored profiles share the ID. -/
theorem UniqueIDs_AddServer_counterexample :
    UniqueIDs sampleStore.settings.Servers ∧
    (AddServer sampleStore.settings legacyServer).Servers = [sampleServer, legacyServer] ∧
    sampleServer.ID = legacyServer.ID ∧
    ¬ UniqueIDs (AddServer sampleStore.settings legacyServer).Servers := by
  decide

/-! ### The stability of the key -/

/-- After a call of `GetEncryptionKey`, either the key it returned is stored,
or nothing valid is stored and it returned the fallback key. -/
theorem GetEncryptionKey_cases (w : World) :
    storedKey (GetEncryptionKey w).2.settings = some (GetEncryptionKey w).1 ∨
    (storedKey (GetEncryptionKey w).2.settings = none ∧
      (GetEncryptionKey w).1 = fallbackKey) := by
  unfold GetEncryptionKey
  split
  · rename_i key h
    exact Or.inl h
  · rename_i h
    split
    · exact Or.inr ⟨h, rfl⟩
    · rename_i key r hr
      exact Or.inl (storedKey_hexEncode _ (readFull_length hr))

theorem Encrypt_settings_stored (A : AEAD) (P : Bytes) {w : World} {key : Bytes}
    (hs : storedKey w.settings = some key) : (Encrypt A P w).2.settings = w.settings := by
  unfold Encrypt
  rw [GetEncryptionKey_stored hs]
  simp only
  split
  · split <;> rfl
  · rfl

theorem encryptPasswords_settings_stored (A : AEAD) {key : Bytes} :
    ∀ (L : List ServerConfig) (w : World), storedKey w.settings = some key →
      (encryptPasswords A L w).2.settings = w.settings := by
  intro L
  induction L with
  | nil => intro w _; rfl
  | cons srv rest ih =>
    intro w hs
    unfold encryptPasswords
    split
    · have hE := Encrypt_settings_stored A srv.Password hs
      generalize Encrypt A srv.Password w = e at hE
      obtain ⟨r, w1⟩ := e
      cases r with
      | error e => exact hE
      | ok t =>
        simp only at hE ⊢
        have h2 := ih w1 (by rw [hE]; exact hs)
        generalize encryptPasswords A rest w1 = e2 at h2
        obtain ⟨r2, w2⟩ := e2
        cases r2 with
        | error e => simp only at h2 ⊢; rw [h2, hE]
        | ok out => simp only at h2 ⊢; rw [h2, hE]
    · have h2 := ih w hs
      generalize encryptPasswords A rest w = e2 at h2
      obtain ⟨r2, w2⟩ := e2
      cases r2 with
      | error e => exact h2
      | ok out => exact h2

theorem Save_settings_stored (A : AEAD) (writeOk : Bool) {w : World} {key : Bytes}
    (hs : storedKey w.settings = some key) : (Save A writeOk w).world.settings = w.settings := by
  unfold Save
  have h := encryptPasswords_settings_stored A w.settings.Servers w hs
  generalize encryptPasswords A w.settings.Servers w = e at h
  obtain ⟨r, w1⟩ := e
  cases r with
  | error e => exact h
  | ok out =>
    simp only at h ⊢
    split <;> exact h

theorem UpdateServer_key (s : Settings) (id : Bytes) (p : ServerConfig) :
    (UpdateServer s id p).2.EncryptionKey = s.EncryptionKey := by
  unfold UpdateServer
  generalize updateFrom id p s.Servers 0 s.Servers = r
  obtain ⟨found, servers⟩ := r
  rfl

theorem DeleteServer_key (s : Settings) (id : Bytes) :
    (DeleteServer s id).2.EncryptionKey = s.EncryptionKey := by
  unfold DeleteServer
  generalize deleteFrom id s.Servers 0 s.Servers = r
  obtain ⟨found, servers⟩ := r
  rfl

/-- A valid stored key survives every call other than `Load`. -/
theorem Op_run_storedKey (A : AEAD) (op : Op) {w : World} {key : Bytes}
    (hs : storedKey w.settings = some key) : storedKey (op.run A w).settings = some key := by
  cases op with
  | getKey =>
    show storedKey (GetEncryptionKey w).2.settings = some key
    rw [GetEncryptionKey_stored hs]; exact hs
  | encrypt P =>
    show storedKey (Encrypt A P w).2.settings = some key
    rw [Encrypt_settings_stored A P hs]; exact hs
  | decrypt c =>
    show storedKey (Decrypt A c w).2.settings = some key
    rw [Decrypt_stored A c hs]; exact hs
  | save writeOk =>
    show storedKey (Save A writeOk w).world.settings = some key
    rw [Save_settings_stored A writeOk hs]; exact hs
  | add server => rw [← hs]; exact storedKey_congr rfl
  | update id server => rw [← hs]; exact storedKey_congr (UpdateServer_key _ _ _)
  | delete id => rw [← hs]; exact storedKey_congr (DeleteServer_key _ _)
  | getServer id => exact hs
  | getServers => exact hs

theorem runOps_storedKey (A : AEAD) {key : Bytes} :
    ∀ (ops : List Op) (w : World), storedKey w.settings = some key →
      storedKey (runOps A ops w).settings = some key := by
  intro ops
  induction ops with
  | nil => intro w hs; exact hs
  | cons op rest ih =>
    intro w hs
    exact ih _ (Op_run_storedKey A op hs)

/-- C14 (amended). Take two calls of `GetEncryptionKey` in one process with
any calls other than `Load` in between. Both return a key of 32 bytes, and
the second returns the key of the first, provided a valid key is stored once
the first call has returned (it found the key or generated it), or nothing
valid is stored when the second call starts and its random read fails, so
that both calls return the fallback key. -/
theorem GetEncryptionKey_stable (A : AEAD) (w : World) (ops : List Op)
    (hk : storedKey (GetEncryptionKey w).2.settings ≠ none ∨
      (storedKey (runOps A ops (GetEncryptionKey w).2).settings = none ∧
        (readFull (runOps A ops (GetEncryptionKey w).2).rand 32).1 = none)) :
    (GetEncryptionKey (runOps A ops (GetEncryptionKey w).2)).1 = (GetEncryptionKey w).1 ∧
    (GetEncryptionKey w).1.length = 32 ∧
    (GetEncryptionKey (runOps A ops (GetEncryptionKey w).2)).1.length = 32 := by
  refine ⟨?_, GetEncryptionKey_length _, GetEncryptionKey_length _⟩
  rcases GetEncryptionKey_cases w with h1 | ⟨h1, hf⟩
  · rw [GetEncryptionKey_stored (runOps_storedKey A ops _ h1)]
  · rcases hk with hk | ⟨hs2, hr2⟩
    · exact absurd h1 hk
    · rw [GetEncryptionKey_fallback hs2 hr2, hf]

/-- C14, witness: the first call generates the key; an encryption and a save
follow; the next call returns the same key. -/
theorem GetEncryptionKey_stable_witness :
    (storedKey (GetEncryptionKey sampleStore).2.settings ≠ none ∨
      (storedKey (runOps toyGCM [.encrypt (ascii "abc"), .save true]
          (GetEncryptionKey sampleStore).2).settings = none ∧
        (readFull (runOps toyGCM [.encrypt (ascii "abc"), .save true]
          (GetEncryptionKey sampleStore).2).rand 32).1 = none)) ∧
    (GetEncryptionKey (runOps toyGCM [.encrypt (ascii "abc"), .save true]
        (GetEncryptionKey sampleStore).2)).1 = (GetEncryptionKey sampleStore).1 ∧
    (GetEncryptionKey sampleStore).1.length = 32 ∧
    (GetEncryptionKey (runOps toyGCM [.encrypt (ascii "abc"), .save true]
        (GetEncryptionKey sampleStore).2)).1.length = 32 :=
  ⟨Or.inl (by decide),
    GetEncryptionKey_stable toyGCM sampleStore [.encrypt (ascii "abc"), .save true]
      (Or.inl (by decide))⟩

/-- C14, counterexample: no key is stored; the random read of the first call
fails, so it returns the fallback key and stores nothing; the random read of
the second call, made right after, succeeds, and it returns the new key. -/
theorem GetEncryptionKey_unstable_counterexample :
    (GetEncryptionKey (freshProcess [none, some sampleKey])).1 = fallbackKey ∧
    (GetEncryptionKey (GetEncryptionKey (freshProcess [none, some sampleKey])).2).1
      = sampleKey ∧
    (GetEncryptionKey (GetEncryptionKey (freshProcess [none, some sampleKey])).2).1
      ≠ (GetEncryptionKey (freshProcess [none, some sampleKey])).1 := by
  decide

/-! ### `Decrypt` on any input -/

/-- C15. `Decrypt` returns on every input, with a plaintext or an error, and
its slice expressions stay within range: the function with checked slices
never panics and returns what `Decrypt` returns. The result is an error when
the input is not valid base64 and when it decodes to fewer than 12 bytes;
in any other case `Open` is called with a nonce of 12 bytes. -/
theorem Decrypt_total (A : AEAD) (c : Bytes) (w : World) :
    DecryptChecked A c w = (some (Decrypt A c w).1, (Decrypt A c w).2) ∧
    ((∃ plaintext, (Decrypt A c w).1 = .ok plaintext) ∨
      ∃ e, (Decrypt A c w).1 = .error e) ∧
    (b64Decode c = none → (Decrypt A c w).1 = .error .corruptInput) ∧
    (∀ data, b64Decode c = some data → data.length < nonceSize →
      (Decrypt A c w).1 = .error .ciphertextTooShort) ∧
    (∀ data, b64Decode c = some data → ¬ data.length < nonceSize →
      sliceTo data nonceSize = some (data.take nonceSize) ∧
      sliceFrom data nonceSize = some (data.drop nonceSize) ∧
      (data.take nonceSize).length = nonceSize) := by
  have hkl := GetEncryptionKey_length w
  refine ⟨?_, ?_, ?_, ?_, ?_⟩
  · unfold DecryptChecked Decrypt
    generalize GetEncryptionKey w = g
    obtain ⟨key, w1⟩ := g
    simp only [Prod.mk.injEq, and_true]
    unfold openTokenChecked openToken
    cases b64Decode c with
    | none => rfl
    | some data =>
      simp only
      split
      · split
        · rfl
        · rename_i hlen
          have hle : nonceSize ≤ data.length := Nat.le_of_not_lt hlen
          simp only [sliceTo, sliceFrom, hle, if_true]
          cases A.Open key (data.take nonceSize) (data.drop nonceSize) <;> rfl
      · rfl
  · cases h : (Decrypt A c w).1 with
    | error e => exact Or.inr ⟨e, rfl⟩
    | ok plaintext => exact Or.inl ⟨plaintext, rfl⟩
  · intro hd
    unfold Decrypt
    simp only
    unfold openToken
    rw [hd]
  · intro data hd hlen
    unfold Decrypt
    simp only
    unfold openToken
    rw [hd]
    simp only [aesNewCipher_of_length hkl, if_true, hlen]
  · intro data _ hlen
    have hle : nonceSize ≤ data.length := Nat.le_of_not_lt hlen
    refine ⟨by simp [sliceTo, hle], by simp [sliceFrom, hle], ?_⟩
    rw [List.length_take]
    omega

/-! ### db/db.go: the statements issued -/

/-- The statements that the schema selection sends: the `USE` statement when
the database name is not empty, nothing otherwise. -/
theorem selectDatabase_issued {σ : Type} (S : Server σ) (c : Conn σ) (database : Bytes) :
    (selectDatabase S c database).2.issued
      = c.issued ++
        (if database = [] then [] else [{ text := useStatement database, args := [] }]) := by
  unfold selectDatabase
  by_cases h : database = []
  · simp [h]
  · simp only [ne_eq, h, not_false_eq_true, if_true, if_false]
    unfold dbExec
    rfl

theorem selectDatabase_empty {σ : Type} (S : Server σ) (c : Conn σ) :
    selectDatabase S c [] = (none, c) := by
  simp [selectDatabase]

/-- The statements that `GetTableData` sends: those of the schema selection
and, when it succeeded, the query. -/
theorem GetTableData_issued {σ : Type} (S : Server σ) (c : Conn σ)
    (database tableName : Bytes) (limit : Int) :
    (GetTableData S c database tableName limit).2.issued
      = (selectDatabase S c database).2.issued ++
        (if (selectDatabase S c database).1 = none then
          [{ text := tableDataQuery tableName (if limit ≤ 0 then 100 else limit), args := [] }]
         else []) := by
  unfold GetTableData
  simp only
  generalize selectDatabase S c database = sel
  obtain ⟨e, c1⟩ := sel
  cases e with
  | some e => simp
  | none =>
    simp only [if_true]
    have hq : ∀ text args, (dbQueryx S c1 text args).2.issued
        = c1.issued ++ [{ text := text, args := args }] := by
      intro text args; rfl
    have h := hq (tableDataQuery tableName (if limit ≤ 0 then 100 else limit)) []
    generalize dbQueryx S c1 (tableDataQuery tableName (if limit ≤ 0 then 100 else limit)) []
      = q at h
    obtain ⟨r, c2⟩ := q
    cases r with
    | error e => exact h
    | ok rows =>
      simp only
      cases rows.columns with
      | error e => exact h
      | ok columns =>
        simp only
        cases scanRows rows.scans with
        | error e => exact h
        | ok results => exact h

/-- C16. For every limit that is zero or negative, `GetTableData` does on
every server, in every state, what it does with the limit 100: it sends the
same statements and returns the same result. Once the schema selection has
succeeded it sends, after the `USE` statement if there is one, the query
`SELECT * FROM` the quoted table `LIMIT 100`; for a positive limit the query
carries the decimal digits of that limit. -/
theorem GetTableData_limit {σ : Type} (S : Server σ) (c : Conn σ)
    (database tableName : Bytes) (limit : Int) :
    (limit ≤ 0 →
      GetTableData S c database tableName limit = GetTableData S c database tableName 100) ∧
    (limit ≤ 0 → (selectDatabase S c database).1 = none →
      (GetTableData S c database tableName limit).2.issued
        = (selectDatabase S c database).2.issued ++
          [{ text := ascii "SELECT * FROM `" ++ tableName ++ ascii "` LIMIT 100",
             args := [] }]) ∧
    (0 < limit → (selectDatabase S c database).1 = none →
      (GetTableData S c database tableName limit).2.issued
        = (selectDatabase S c database).2.issued ++
          [{ text := ascii "SELECT * FROM `" ++ tableName ++ ascii "` LIMIT "
               ++ formatInt limit,
             args := [] }]) ∧
    (selectDatabase S c database).2.issued
      = c.issued ++
        (if database = [] then [] else [{ text := useStatement database, args := [] }]) := by
  have h100 : formatInt 100 = ascii "100" := by decide
  refine ⟨?_, ?_, ?_, selectDatabase_issued S c database⟩
  · intro hl
    unfold GetTableData
    simp only [hl, if_true]
    rfl
  · intro hl hsel
    rw [GetTableData_issued, hsel]
    simp only [hl, if_true]
    unfold tableDataQuery
    have e : ascii "` LIMIT " ++ ascii "100" = ascii "` LIMIT 100" := by decide
    rw [h100, List.append_assoc _ (ascii "` LIMIT ") _, e]
  · intro hl hsel
    rw [GetTableData_issued, hsel]
    have hn : ¬ limit ≤ 0 := by omega
    simp only [hn, if_true, if_false]
    rfl

/-- The statements that `GetRowData` sends: those of the schema selection
and, when it succeeded, the row query with `pkValues` as its arguments. -/
theorem GetRowData_issued {σ : Type} (S : Server σ) (c : Conn σ)
    (database tableName : Bytes) (pkColumns pkValues : List Bytes) :
    (GetRowData S c database tableName pkColumns pkValues).2.issued
      = (selectDatabase S c database).2.issued ++
        (if (selectDatabase S c database).1 = none then
          [{ text := rowQuery tableName pkColumns, args := pkValues }]
         else []) := by
  unfold GetRowData
  generalize selectDatabase S c database = sel
  obtain ⟨e, c1⟩ := sel
  cases e with
  | some e => simp
  | none =>
    simp only [if_true]
    have h : (dbQueryx S c1 (rowQuery tableName pkColumns) pkValues).2.issued
        = c1.issued ++ [{ text := rowQuery tableName pkColumns, args := pkValues }] := rfl
    generalize dbQueryx S c1 (rowQuery tableName pkColumns) pkValues = q at h
    obtain ⟨r, c2⟩ := q
    cases r with
    | error e => exact h
    | ok rows =>
      simp only
      cases rows.scans with
      | nil => exact h
      | cons first rest =>
        cases first with
        | error e => exact h
        | ok row => exact h

theorem foldl_and :
    ∀ (rest : List Bytes) (first acc : Bytes),
      (whereClauses rest).foldl (fun acc clause => acc ++ ascii " AND " ++ clause)
        (acc ++ (ascii "`" ++ first ++ ascii "` = ?"))
      = acc ++ keyPredicate (first :: rest) := by
  intro rest
  induction rest with
  | nil => intro first acc; simp [whereClauses, keyPredicate]
  | cons col rest ih =>
    intro first acc
    have h := ih col (acc ++ (ascii "`" ++ first ++ ascii "` = ?") ++ ascii " AND ")
    have hw : whereClauses (col :: rest)
        = (ascii "`" ++ col ++ ascii "` = ?") :: whereClauses rest := rfl
    rw [hw, List.foldl_cons, h]
    simp [keyPredicate]

/-- The clause that the loops of `GetRowData` build is `WHERE` followed by
the predicate of the claim. -/
theorem whereClause_keyPredicate (first : Bytes) (rest : List Bytes) :
    whereClause (whereClauses (first :: rest))
      = ascii " WHERE " ++ keyPredicate (first :: rest) := by
  have hw : whereClauses (first :: rest)
      = (ascii "`" ++ first ++ ascii "` = ?") :: whereClauses rest := rfl
  rw [hw]
  exact foldl_and rest first (ascii " WHERE ")

theorem count_keyPredicate :
    ∀ cols : List Bytes, (∀ col ∈ cols, placeholder ∉ col) →
      (keyPredicate cols).count placeholder = cols.length := by
  have hq : (ascii "`").count placeholder = 0 := by decide
  have he : (ascii "` = ?").count placeholder = 1 := by decide
  have ha : (ascii " AND ").count placeholder = 0 := by decide
  intro cols
  induction cols with
  | nil => intro _; rfl
  | cons col rest ih =>
    intro h
    have hc : col.count placeholder = 0 := List.count_eq_zero.mpr (h col (by simp))
    cases rest with
    | nil => simp [keyPredicate, List.count_append, hq, he, hc]
    | cons col2 rest2 =>
      have h2 := ih (fun x hx => h x (by simp [hx]))
      simp only [keyPredicate, List.count_append, hq, he, ha, hc] at h2 ⊢
      simp only [List.length_cons] at h2 ⊢
      omega

/-- C17. For a non-empty list of key columns the row query of `GetRowData`
is `SELECT * FROM` the quoted table, `WHERE`, one equality with a
placeholder per key column in the order of `pkColumns`, joined by `AND`, and
`LIMIT 1`. Once the schema selection has succeeded the query is sent with
`pkValues`, in their order, as its bound arguments. When no name contains
the character `?`, the text has exactly as many placeholders as there are
key columns. -/
theorem GetRowData_query {σ : Type} (S : Server σ) (c : Conn σ)
    (database tableName : Bytes) (pkColumns pkValues : List Bytes) (hne : pkColumns ≠ []) :
    rowQuery tableName pkColumns
      = ascii "SELECT * FROM `" ++ tableName ++ ascii "`" ++ ascii " WHERE "
          ++ keyPredicate pkColumns ++ ascii " LIMIT 1" ∧
    ((selectDatabase S c database).1 = none →
      (GetRowData S c database tableName pkColumns pkValues).2.issued
        = (selectDatabase S c database).2.issued ++
          [{ text := rowQuery tableName pkColumns, args := pkValues }]) ∧
    ((∀ name ∈ tableName :: pkColumns, placeholder ∉ name) →
      (keyPredicate pkColumns).count placeholder = pkColumns.length ∧
      (rowQuery tableName pkColumns).count placeholder = pkColumns.length) := by
  obtain ⟨first, rest, hcols⟩ : ∃ first rest, pkColumns = first :: rest := by
    cases pkColumns with
    | nil => exact absurd rfl hne
    | cons first rest => exact ⟨first, rest, rfl⟩
  have hq : rowQuery tableName pkColumns
      = ascii "SELECT * FROM `" ++ tableName ++ ascii "`" ++ ascii " WHERE "
          ++ keyPredicate pkColumns ++ ascii " LIMIT 1" := by
    unfold rowQuery
    rw [hcols, whereClause_keyPredicate]
    simp only [List.append_assoc]
  refine ⟨hq, ?_, ?_⟩
  · intro hsel
    rw [GetRowData_issued, hsel]
    simp
  · intro hnames
    have hk := count_keyPredicate pkColumns (fun col hc => hnames col (by simp [hc]))
    refine ⟨hk, ?_⟩
    have ht : tableName.count placeholder = 0 :=
      List.count_eq_zero.mpr (hnames tableName (by simp))
    have h1 : (ascii "SELECT * FROM `").count placeholder = 0 := by decide
    have h2 : (ascii "`").count placeholder = 0 := by decide
    have h3 : (ascii " WHERE ").count placeholder = 0 := by decide
    have h4 : (ascii " LIMIT 1").count placeholder = 0 := by decide
    rw [hq]
    simp only [List.count_append, h1, h2, h3, h4, ht, hk]
    omega

/-- C17, witness: the key column `id` with the value `7`. -/
theorem GetRowData_query_witness :
    [ascii "id"] ≠ [] ∧
    rowQuery (ascii "t") [ascii "id"] = ascii "SELECT * FROM `t` WHERE `id` = ? LIMIT 1" ∧
    (GetRowData oneRowServer newConn (ascii "db") (ascii "t") [ascii "id"] [ascii "7"]).2.issued
      = [{ text := ascii "USE `db`", args := [] },
         { text := ascii "SELECT * FROM `t` WHERE `id` = ? LIMIT 1", args := [ascii "7"] }] ∧
    (rowQuery (ascii "t") [ascii "id"]
        = ascii "SELECT * FROM `" ++ ascii "t" ++ ascii "`" ++ ascii " WHERE "
            ++ keyPredicate [ascii "id"] ++ ascii " LIMIT 1" ∧
      ((selectDatabase oneRowServer newConn (ascii "db")).1 = none →
        (GetRowData oneRowServer newConn (ascii "db") (ascii "t") [ascii "id"]
            [ascii "7"]).2.issued
          = (selectDatabase oneRowServer newConn (ascii "db")).2.issued ++
            [{ text := rowQuery (ascii "t") [ascii "id"], args := [ascii "7"] }]) ∧
      ((∀ name ∈ ascii "t" :: [ascii "id"], placeholder ∉ name) →
        (keyPredicate [ascii "id"]).count placeholder = [ascii "id"].length ∧
        (rowQuery (ascii "t") [ascii "id"]).count placeholder = [ascii "id"].length)) :=
  ⟨by decide, by decide, by decide,
    GetRowData_query oneRowServer newConn (ascii "db") (ascii "t") [ascii "id"] [ascii "7"]
      (by decide)⟩

/-- C18. When the schema selection succeeds and `Queryx` returns rows,
`GetRowData` fails with `row not found` exactly when the rows are empty
(`rows.Next()` is false at once); when there is a first row it returns that
row as `MapScan` delivers it, its byte values shown as strings, and never a
later row; an error of `MapScan` on that row is returned as it is. -/
theorem GetRowData_result {σ : Type} (S : Server σ) (c c1 c2 : Conn σ)
    (database tableName : Bytes) (pkColumns pkValues : List Bytes) (rows : Rows)
    (hsel : selectDatabase S c database = (none, c1))
    (hq : dbQueryx S c1 (rowQuery tableName pkColumns) pkValues = (.ok rows, c2)) :
    ((GetRowData S c database tableName pkColumns pkValues).1 = .error .rowNotFound
      ↔ rows.scans = []) ∧
    (∀ first rest, rows.scans = .ok first :: rest →
      (GetRowData S c database tableName pkColumns pkValues).1 = .ok (displayRow first)) ∧
    (∀ e rest, rows.scans = .error e :: rest →
      (GetRowData S c database tableName pkColumns pkValues).1 = .error (.driver e)) := by
  unfold GetRowData
  rw [hsel]
  simp only
  rw [hq]
  simp only
  cases hs : rows.scans with
  | nil => simp
  | cons first rest =>
    cases first with
    | error e => simp
    | ok row => simp

/-- C18, witness: the server that answers with the row `id = 7`, `name = x`. -/
theorem GetRowData_result_witness :
    selectDatabase oneRowServer newConn (ascii "db")
      = (none, (selectDatabase oneRowServer newConn (ascii "db")).2) ∧
    (GetRowData oneRowServer newConn (ascii "db") (ascii "t") [ascii "id"] [ascii "7"]).1
      = .ok [(ascii "id", .str (ascii "7")), (ascii "name", .str (ascii "x"))] ∧
    (((GetRowData oneRowServer newConn (ascii "db") (ascii "t") [ascii "id"] [ascii "7"]).1
        = .error .rowNotFound
      ↔ ({ columns := .ok [ascii "id", ascii "name"],
           scans := [.ok [(ascii "id", .bytes (ascii "7")),
                          (ascii "name", .bytes (ascii "x"))]] } : Rows).scans = []) ∧
     (∀ first rest,
        ({ columns := .ok [ascii "id", ascii "name"],
           scans := [.ok [(ascii "id", .bytes (ascii "7")),
                          (ascii "name", .bytes (ascii "x"))]] } : Rows).scans
          = .ok first :: rest →
        (GetRowData oneRowServer newConn (ascii "db") (ascii "t") [ascii "id"] [ascii "7"]).1
          = .ok (displayRow first)) ∧
     (∀ e rest,
        ({ columns := .ok [ascii "id", ascii "name"],
           scans := [.ok [(ascii "id", .bytes (ascii "7")),
                          (ascii "name", .bytes (ascii "x"))]] } : Rows).scans
          = .error e :: rest →
        (GetRowData oneRowServer newConn (ascii "db") (ascii "t") [ascii "id"] [ascii "7"]).1
          = .error (.driver e))) :=
  ⟨rfl, by decide,
    GetRowData_result oneRowServer newConn
      (selectDatabase oneRowServer newConn (ascii "db")).2
      (dbQueryx oneRowServer (selectDatabase oneRowServer newConn (ascii "db")).2
        (rowQuery (ascii "t") [ascii "id"]) [ascii "7"]).2
      (ascii "db") (ascii "t") [ascii "id"] [ascii "7"] _ rfl rfl⟩

/-- C19 (amended). `GetRowData` does not compare the lengths of `pkColumns`
and `pkValues`. On every call, whether the lengths agree or not, once the
schema selection has succeeded it sends the row query, built with one clause
per key column, with all of `pkValues` as bound arguments; when the driver
answers with an error, that error is what it returns. -/
theorem GetRowData_lengths {σ : Type} (S : Server σ) (c : Conn σ)
    (database tableName : Bytes) (pkColumns pkValues : List Bytes)
    (hsel : (selectDatabase S c database).1 = none) :
    (GetRowData S c database tableName pkColumns pkValues).2.issued
      = (selectDatabase S c database).2.issued ++
        [{ text := rowQuery tableName pkColumns, args := pkValues }] ∧
    (whereClauses pkColumns).length = pkColumns.length ∧
    (∀ e, (dbQueryx S (selectDatabase S c database).2 (rowQuery tableName pkColumns)
        pkValues).1 = .error e →
      (GetRowData S c database tableName pkColumns pkValues).1 = .error (.driver e)) := by
  refine ⟨?_, ?_, ?_⟩
  · rw [GetRowData_issued, hsel]
    simp
  · simp [whereClauses]
  · intro e he
    unfold GetRowData
    generalize selectDatabase S c database = sel at hsel he
    obtain ⟨r, c1⟩ := sel
    simp only at hsel he
    subst hsel
    simp only
    generalize dbQueryx S c1 (rowQuery tableName pkColumns) pkValues = q at he
    obtain ⟨r, c2⟩ := q
    simp only at he
    subst he
    rfl

/-- C19, witness: one key column and no value, on the server that counts
the placeholders. -/
theorem GetRowData_lengths_witness :
    (selectDatabase strictServer newConn (ascii "db")).1 = none ∧
    (GetRowData strictServer newConn (ascii "db") (ascii "t") [ascii "id"] []).2.issued
      = (selectDatabase strictServer newConn (ascii "db")).2.issued ++
        [{ text := rowQuery (ascii "t") [ascii "id"], args := [] }] ∧
    (whereClauses [ascii "id"]).length = [ascii "id"].length ∧
    (∀ e, (dbQueryx strictServer (selectDatabase strictServer newConn (ascii "db")).2
        (rowQuery (ascii "t") [ascii "id"]) []).1 = .error e →
      (GetRowData strictServer newConn (ascii "db") (ascii "t") [ascii "id"] []).1
        = .error (.driver e)) :=
  ⟨rfl, GetRowData_lengths strictServer newConn (ascii "db") (ascii "t") [ascii "id"] [] rfl⟩

/-- C19, counterexample: `GetRowData` is called with one key column and no
value. It sends the `USE` statement and then the row query, with its one
placeholder and no argument; the error returned is the one with which the
server rejects the query. -/
theorem GetRowData_lengths_counterexample :
    [ascii "id"].length ≠ ([] : List Bytes).length ∧
    (GetRowData strictServer newConn (ascii "db") (ascii "t") [ascii "id"] []).2.issued
      = [{ text := ascii "USE `db`", args := [] },
         { text := ascii "SELECT * FROM `t` WHERE `id` = ? LIMIT 1", args := [] }] ∧
    (GetRowData strictServer newConn (ascii "db") (ascii "t") [ascii "id"] []).1
      = .error (.driver (ascii "wrong number of arguments")) := by
  decide

/-- C20. For a fixed database, table and list of key columns, the texts of
the statements that `GetRowData` sends are the same for any two lists of key
values, on every server and in every state: the `USE` statement and the row
query are built from the names alone, and the values travel as bound
arguments. -/
theorem GetRowData_text_independent {σ : Type} (S : Server σ) (c : Conn σ)
    (database tableName : Bytes) (pkColumns values1 values2 : List Bytes) :
    (GetRowData S c database tableName pkColumns values1).2.issued.map Stmt.text
      = (GetRowData S c database tableName pkColumns values2).2.issued.map Stmt.text ∧
    (GetRowData S c database tableName pkColumns values1).2.issued.map Stmt.text
      = c.issued.map Stmt.text ++
        (if database = [] then [] else [useStatement database]) ++
        (if (selectDatabase S c database).1 = none then [rowQuery tableName pkColumns]
         else []) := by
  have h : ∀ values : List Bytes,
      (GetRowData S c database tableName pkColumns values).2.issued.map Stmt.text
        = c.issued.map Stmt.text ++
          (if database = [] then [] else [useStatement database]) ++
          (if (selectDatabase S c database).1 = none then [rowQuery tableName pkColumns]
           else []) := by
    intro values
    rw [GetRowData_issued, selectDatabase_issued, List.map_append, List.map_append]
    congr 1
    · congr 1
      split <;> rfl
    · split <;> rfl
  exact ⟨by rw [h values1, h values2], h values1⟩

/-! ### Quoted identifiers -/

theorem readQuoted_cons {ch : Byte} (h : ch ≠ backtick) (l : Bytes) :
    readQuoted (ch :: l)
      = match readQuoted l with
        | some (name, after) => some (ch :: name, after)
        | none => none := by
  cases l with
  | nil => simp [readQuoted, h]
  | cons next rest => simp [readQuoted, h]

/-- A name without a backtick, followed by a backtick and then by text that
does not start with a backtick, is read as that name. -/
theorem readQuoted_name :
    ∀ (name after : Bytes), backtick ∉ name → after.head? ≠ some backtick →
      readQuoted (name ++ backtick :: after) = some (name, after) := by
  intro name
  induction name with
  | nil =>
    intro after _ ha
    cases after with
    | nil => simp [readQuoted]
    | cons next rest =>
      have hn : next ≠ backtick := by
        intro h; apply ha; simp [h]
      simp [readQuoted, hn]
  | cons ch name ih =>
    intro after hb ha
    have hc : ch ≠ backtick := by
      intro h; apply hb; simp [h]
    have hr : backtick ∉ name := by
      intro h; apply hb; simp [h]
    rw [List.cons_append, readQuoted_cons hc, ih after hr ha]

theorem GetTableDataAll_issued {σ : Type} (S : Server σ) (c : Conn σ)
    (database tableName : Bytes) :
    (GetTableDataAll S c database tableName).2.issued
      = (selectDatabase S c database).2.issued ++
        (if (selectDatabase S c database).1 = none then
          [{ text := tableDataAllQuery tableName, args := [] }]
         else []) := by
  unfold GetTableDataAll
  generalize selectDatabase S c database = sel
  obtain ⟨e, c1⟩ := sel
  cases e with
  | some e => simp
  | none =>
    simp only [if_true]
    have h : (dbQueryx S c1 (tableDataAllQuery tableName) []).2.issued
        = c1.issued ++ [{ text := tableDataAllQuery tableName, args := [] }] := rfl
    generalize dbQueryx S c1 (tableDataAllQuery tableName) [] = q at h
    obtain ⟨r, c2⟩ := q
    cases r with
    | error e => exact h
    | ok rows =>
      simp only
      cases scanRows rows.scans with
      | error e => exact h
      | ok results => exact h

theorem GetTableColumns_issued {σ : Type} (S : Server σ)
    (scanAll : Rows → Except Bytes (List ColumnInfo)) (c : Conn σ)
    (database tableName : Bytes) :
    (GetTableColumns S scanAll c database tableName).2.issued
      = (selectDatabase S c database).2.issued ++
        (if (selectDatabase S c database).1 = none then
          [{ text := showColumnsQuery tableName, args := [] }]
         else []) := by
  unfold GetTableColumns
  generalize selectDatabase S c database = sel
  obtain ⟨e, c1⟩ := sel
  cases e with
  | some e => simp
  | none =>
    simp only [if_true]
    have h : (dbQueryx S c1 (showColumnsQuery tableName) []).2.issued
        = c1.issued ++ [{ text := showColumnsQuery tableName, args := [] }] := rfl
    generalize dbQueryx S c1 (showColumnsQuery tableName) [] = q at h
    obtain ⟨r, c2⟩ := q
    cases r with
    | error e => exact h
    | ok rows =>
      simp only
      cases scanAll rows with
      | error e => exact h
      | ok columns => exact h

theorem GetTableCreateStatement_issued {σ : Type} (S : Server σ)
    (scanPair : Rows → Except Bytes (Bytes × Bytes)) (c : Conn σ)
    (database tableName : Bytes) :
    (GetTableCreateStatement S scanPair c database tableName).2.issued
      = (selectDatabase S c database).2.issued ++
        (if (selectDatabase S c database).1 = none then
          [{ text := showCreateQuery tableName, args := [] }]
         else []) := by
  unfold GetTableCreateStatement
  generalize selectDatabase S c database = sel
  obtain ⟨e, c1⟩ := sel
  cases e with
  | some e => simp
  | none =>
    simp only [if_true]
    have h : (dbQueryx S c1 (showCreateQuery tableName) []).2.issued
        = c1.issued ++ [{ text := showCreateQuery tableName, args := [] }] := rfl
    generalize dbQueryx S c1 (showCreateQuery tableName) [] = q at h
    obtain ⟨r, c2⟩ := q
    cases r with
    | error e => exact h
    | ok rows =>
      simp only
      cases scanPair rows with
      | error e => exact h
      | ok pair => exact h

theorem whereClause_head (pkColumns : List Bytes) :
    (whereClause (whereClauses pkColumns) ++ ascii " LIMIT 1").head? ≠ some backtick := by
  cases pkColumns with
  | nil => decide
  | cons first rest =>
    rw [whereClause_keyPredicate]
    have h : ascii " WHERE " = (32 : Byte) :: ascii "WHERE " := by decide
    rw [h]
    simp only [List.cons_append, List.head?_cons, ne_eq, Option.some.injEq]
    decide

theorem replicate_append_cons {α : Type} (k : Nat) (a : α) (l : List α) :
    List.replicate k a ++ a :: l = a :: (List.replicate k a ++ l) := by
  induction k with
  | zero => rfl
  | succ k ih => rw [List.replicate_succ, List.cons_append, ih, List.cons_append]

/-- If the text `n`, a backtick, `after` is read as a quoted identifier that
ends in `n`, with nothing but backticks before, then the identifier is `n`
and `n` holds no backtick. -/
theorem readQuoted_whole :
    ∀ (m : Nat) (n after rest : Bytes) (k : Nat), n.length ≤ m →
      after.head? ≠ some backtick →
      readQuoted (n ++ backtick :: after) = some (List.replicate k backtick ++ n, rest) →
      k = 0 ∧ backtick ∉ n := by
  intro m
  induction m with
  | zero =>
    intro n after rest k hn ha h
    have hn0 : n = [] := List.length_eq_zero.mp (Nat.le_zero.mp hn)
    subst hn0
    refine ⟨?_, by simp⟩
    cases after with
    | nil =>
      simp only [List.nil_append, readQuoted, if_true, List.append_nil, Option.some.injEq,
        Prod.mk.injEq] at h
      cases k with
      | zero => rfl
      | succ k => simp [List.replicate_succ] at h
    | cons c r =>
      have hc : c ≠ backtick := by
        intro e; apply ha; simp [e]
      simp only [List.nil_append, readQuoted, if_true, hc, if_false, List.append_nil,
        Option.some.injEq, Prod.mk.injEq] at h
      cases k with
      | zero => rfl
      | succ k => simp [List.replicate_succ] at h
  | succ m ih =>
    intro n after rest k hn ha h
    cases n with
    | nil => exact ih [] after rest k (Nat.zero_le _) ha h
    | cons ch n1 =>
      have hn1 : n1.length ≤ m := by simpa using hn
      by_cases hch : ch = backtick
      · subst hch
        exfalso
        cases n1 with
        | nil =>
          simp only [List.cons_append, List.nil_append, readQuoted, if_true] at h
          rw [replicate_append_cons, List.append_nil] at h
          cases after with
          | nil => simp [readQuoted] at h
          | cons c r =>
            have hc : c ≠ backtick := by
              intro e; apply ha; simp [e]
            rw [readQuoted_cons hc] at h
            cases hq : readQuoted r with
            | none => rw [hq] at h; simp at h
            | some p =>
              rw [hq] at h
              simp only [Option.some.injEq, Prod.mk.injEq, List.cons.injEq] at h
              cases k with
              | zero => simp at h
              | succ k =>
                simp only [List.replicate_succ, List.cons.injEq] at h
                exact hc h.1.2.1
        | cons c n2 =>
          by_cases hc : c = backtick
          · subst hc
            simp only [List.cons_append, readQuoted, if_true, List.append_eq] at h
            rw [replicate_append_cons, replicate_append_cons] at h
            cases hq : readQuoted (n2 ++ backtick :: after) with
            | none => rw [hq] at h; simp at h
            | some p =>
              rw [hq] at h
              simp only [Option.some.injEq, Prod.mk.injEq, List.cons.injEq, true_and] at h
              have hq2 : readQuoted (n2 ++ backtick :: after)
                  = some (List.replicate (k + 1) backtick ++ n2, rest) := by
                rw [hq, List.replicate_succ, List.cons_append, ← h.1, ← h.2]
              have hl : n2.length ≤ m := by
                simp only [List.length_cons] at hn1
                omega
              have := (ih n2 after rest (k + 1) hl ha hq2).1
              omega
          · simp only [List.cons_append, readQuoted, if_true, hc, if_false, Option.some.injEq,
              Prod.mk.injEq] at h
            rw [replicate_append_cons] at h
            simp at h
      · rw [List.cons_append, readQuoted_cons hch] at h
        cases hq : readQuoted (n1 ++ backtick :: after) with
        | none => rw [hq] at h; simp at h
        | some p =>
          rw [hq] at h
          simp only [Option.some.injEq, Prod.mk.injEq] at h
          cases k with
          | zero =>
            simp only [List.replicate_zero, List.nil_append, List.cons.injEq, true_and] at h
            have hq2 : readQuoted (n1 ++ backtick :: after)
                = some (List.replicate 0 backtick ++ n1, rest) := by
              rw [hq, List.replicate_zero, List.nil_append, ← h.1, ← h.2]
            have := (ih n1 after rest 0 hn1 ha hq2).2
            refine ⟨rfl, ?_⟩
            intro hm
            rcases List.mem_cons.mp hm with e | e
            · exact hch e.symm
            · exact this e
          | succ k =>
            simp only [List.replicate_succ, List.cons_append, List.cons.injEq] at h
            exact absurd h.1.1 hch

/-- The text `name`, a backtick, `after` (which does not begin with a
backtick) is read as the quoted identifier `name` exactly when `name` holds
no backtick, and what follows the identifier is then `after`. -/
theorem readQuoted_iff (name after : Bytes) (ha : after.head? ≠ some backtick) :
    ((∃ rest, readQuoted (name ++ backtick :: after) = some (name, rest)) ↔ backtick ∉ name) ∧
    (backtick ∉ name → readQuoted (name ++ backtick :: after) = some (name, after)) := by
  refine ⟨⟨?_, ?_⟩, ?_⟩
  · rintro ⟨rest, h⟩
    exact (readQuoted_whole name.length name after rest 0 (le_refl _) ha
      (by rw [List.replicate_zero, List.nil_append]; exact h)).2
  · intro hb
    exact ⟨after, readQuoted_name name after hb ha⟩
  · intro hb
    exact readQuoted_name name after hb ha


/-- C21 (amended). No function rejects or escapes a name. For every name:
the `USE` statement and the query of each of `GetTableData`,
`GetTableDataAll`, `GetTableColumns`, `GetTableCreateStatement` and
`GetRowData` (as table and as key column) hold the name between two
backticks as it is; the `USE` statement is sent for every name that is not
empty, and each function sends its query whenever the schema selection has
not failed. Read from the opening backtick, the text gives the name as the
quoted identifier exactly when the name holds no backtick (what follows is
then the rest of the statement); for a name with a backtick the identifier
read is not the name, or the identifier is never closed. -/
theorem identifiers_as_given {σ : Type} (S : Server σ) (c : Conn σ)
    (scanAll : Rows → Except Bytes (List ColumnInfo))
    (scanPair : Rows → Except Bytes (Bytes × Bytes))
    (database name : Bytes) (limit : Int) (pkColumns pkValues : List Bytes) :
    (useStatement name = ascii "USE " ++ backtick :: (name ++ [backtick]) ∧
      tableDataQuery name limit
        = ascii "SELECT * FROM " ++ backtick :: (name ++ backtick ::
            (ascii " LIMIT " ++ formatInt limit)) ∧
      tableDataAllQuery name = ascii "SELECT * FROM " ++ backtick :: (name ++ [backtick]) ∧
      showColumnsQuery name = ascii "SHOW COLUMNS FROM " ++ backtick :: (name ++ [backtick]) ∧
      showCreateQuery name = ascii "SHOW CREATE TABLE " ++ backtick :: (name ++ [backtick]) ∧
      rowQuery name pkColumns
        = ascii "SELECT * FROM " ++ backtick :: (name ++ backtick ::
            (whereClause (whereClauses pkColumns) ++ ascii " LIMIT 1")) ∧
      whereClauses pkColumns
        = pkColumns.map (fun col => backtick :: (col ++ backtick :: ascii " = ?"))) ∧
    ((selectDatabase S c name).2.issued
        = c.issued ++ (if name = [] then [] else [{ text := useStatement name, args := [] }]) ∧
      (GetTableData S c database name limit).2.issued
        = (selectDatabase S c database).2.issued ++
          (if (selectDatabase S c database).1 = none then
            [{ text := tableDataQuery name (if limit ≤ 0 then 100 else limit), args := [] }]
           else []) ∧
      (GetTableDataAll S c database name).2.issued
        = (selectDatabase S c database).2.issued ++
          (if (selectDatabase S c database).1 = none then
            [{ text := tableDataAllQuery name, args := [] }]
           else []) ∧
      (GetTableColumns S scanAll c database name).2.issued
        = (selectDatabase S c database).2.issued ++
          (if (selectDatabase S c database).1 = none then
            [{ text := showColumnsQuery name, args := [] }]
           else []) ∧
      (GetTableCreateStatement S scanPair c database name).2.issued
        = (selectDatabase S c database).2.issued ++
          (if (selectDatabase S c database).1 = none then
            [{ text := showCreateQuery name, args := [] }]
           else []) ∧
      (GetRowData S c database name pkColumns pkValues).2.issued
        = (selectDatabase S c database).2.issued ++
          (if (selectDatabase S c database).1 = none then
            [{ text := rowQuery name pkColumns, args := pkValues }]
           else [])) ∧
    (((∃ rest, readQuoted (name ++ [backtick]) = some (name, rest)) ↔ backtick ∉ name) ∧
      ((∃ rest, readQuoted (name ++ backtick :: (ascii " LIMIT " ++ formatInt limit))
          = some (name, rest)) ↔ backtick ∉ name) ∧
      ((∃ rest, readQuoted (name ++ backtick ::
          (whereClause (whereClauses pkColumns) ++ ascii " LIMIT 1"))
          = some (name, rest)) ↔ backtick ∉ name) ∧
      (∀ tail : Bytes, (∃ rest, readQuoted (name ++ backtick :: (ascii " = ?" ++ tail))
          = some (name, rest)) ↔ backtick ∉ name)) ∧
    (∀ after : Bytes, after.head? ≠ some backtick →
      ((∃ rest, readQuoted (name ++ backtick :: after) = some (name, rest))
        ↔ backtick ∉ name) ∧
      (backtick ∉ name → readQuoted (name ++ backtick :: after) = some (name, after))) := by
  have q1 : ascii "`" = [backtick] := by decide
  have q2 : ascii "USE `" = ascii "USE " ++ [backtick] := by decide
  have q3 : ascii "SELECT * FROM `" = ascii "SELECT * FROM " ++ [backtick] := by decide
  have q4 : ascii "SHOW COLUMNS FROM `" = ascii "SHOW COLUMNS FROM " ++ [backtick] := by decide
  have q5 : ascii "SHOW CREATE TABLE `" = ascii "SHOW CREATE TABLE " ++ [backtick] := by decide
  have q6 : ascii "` LIMIT " = backtick :: ascii " LIMIT " := by decide
  have q7 : ascii "` = ?" = backtick :: ascii " = ?" := by decide
  have hnil : ([] : Bytes).head? ≠ some backtick := by simp
  have hlimit : (ascii " LIMIT " ++ formatInt limit).head? ≠ some backtick := by
    have h : ascii " LIMIT " = (32 : Byte) :: ascii "LIMIT " := by decide
    rw [h]
    simp only [List.cons_append, List.head?_cons, ne_eq, Option.some.injEq]
    decide
  have heq : ∀ tail : Bytes, (ascii " = ?" ++ tail).head? ≠ some backtick := by
    intro tail
    have h : ascii " = ?" = (32 : Byte) :: ascii "= ?" := by decide
    rw [h]
    simp only [List.cons_append, List.head?_cons, ne_eq, Option.some.injEq]
    decide
  refine ⟨⟨?_, ?_, ?_, ?_, ?_, ?_, ?_⟩, ⟨?_, ?_, ?_, ?_, ?_, ?_⟩, ⟨?_, ?_, ?_, ?_⟩, ?_⟩
  · unfold useStatement; rw [q1, q2]; simp
  · unfold tableDataQuery; rw [q3, q6]; simp
  · unfold tableDataAllQuery; rw [q1, q3]; simp
  · unfold showColumnsQuery; rw [q1, q4]; simp
  · unfold showCreateQuery; rw [q1, q5]; simp
  · unfold rowQuery; rw [q1, q3]; simp
  · unfold whereClauses; rw [q1, q7]; simp
  · exact selectDatabase_issued S c name
  · exact GetTableData_issued S c database name limit
  · exact GetTableDataAll_issued S c database name
  · exact GetTableColumns_issued S scanAll c database name
  · exact GetTableCreateStatement_issued S scanPair c database name
  · exact GetRowData_issued S c database name pkColumns pkValues
  · exact (readQuoted_iff name [] hnil).1
  · exact (readQuoted_iff name _ hlimit).1
  · exact (readQuoted_iff name _ (whereClause_head pkColumns)).1
  · intro tail
    exact (readQuoted_iff name _ (heq tail)).1
  · intro after ha
    exact readQuoted_iff name after ha

/-- C21, witness: the name `users` is read back whole; for the name made of
`a` and a backtick, the closing backtick of the statement is taken for the
second half of an escaped backtick, and the identifier is never closed. -/
theorem identifiers_as_given_witness :
    backtick ∉ ascii "users" ∧
    (∃ rest, readQuoted (ascii "users" ++ [backtick]) = some (ascii "users", rest)) ∧
    readQuoted (ascii "users" ++ [backtick]) = some (ascii "users", []) ∧
    tableDataAllQuery (ascii "users") = ascii "SELECT * FROM `users`" ∧
    backtick ∈ ascii "a`" ∧
    tableDataAllQuery (ascii "a`") = ascii "SELECT * FROM `a``" ∧
    (GetTableDataAll strictServer newConn (ascii "db") (ascii "a`")).2.issued
      = [{ text := ascii "USE `db`", args := [] },
         { text := ascii "SELECT * FROM `a``", args := [] }] ∧
    (¬ ∃ rest, readQuoted (ascii "a`" ++ [backtick]) = some (ascii "a`", rest)) ∧
    readQuoted (ascii "a`" ++ [backtick]) = none :=
  ⟨by decide,
    (identifiers_as_given strictServer newConn (fun _ => .ok []) (fun _ => .ok ([], []))
      (ascii "db") (ascii "users") 0 [] []).2.2.1.1.mpr (by decide),
    by decide, by decide, by decide, by decide, by decide,
    fun h => (identifiers_as_given strictServer newConn (fun _ => .ok [])
      (fun _ => .ok ([], [])) (ascii "db") (ascii "a`") 0 [] []).2.2.1.1.mp h (by decide),
    by decide⟩

/-- C21, counterexample: the table name holds a backtick. `GetTableDataAll`
does not reject it: it sends the query with the name between backticks as it
is. Read from the opening backtick, the quoted identifier is `t` and ends at
the backtick of the name; the rest of the name follows as SQL text. -/
theorem identifiers_backtick_counterexample :
    backtick ∈ hostileName ∧
    (GetTableDataAll strictServer newConn (ascii "db") hostileName).2.issued
      = [{ text := ascii "USE `db`", args := [] },
         { text := ascii "SELECT * FROM `t`; DROP TABLE `u`", args := [] }] ∧
    tableDataAllQuery hostileName
      = ascii "SELECT * FROM " ++ backtick :: (hostileName ++ [backtick]) ∧
    readQuoted (hostileName ++ [backtick]) = some (ascii "t", ascii "; DROP TABLE `u`") := by
  decide

/-! ### The export -/

theorem exportLoop_cons {σ : Type} (S : Server σ)
    (scanAll : Rows → Except Bytes (List ColumnInfo)) (dbName : Bytes) (includeHeaders : Bool)
    (total tableIndex : Nat) (tableName : Bytes) (rest : List Bytes) (c : Conn σ) :
    exportLoop S scanAll dbName includeHeaders total tableIndex (tableName :: rest) c
      = ((exportTable S scanAll dbName includeHeaders total tableIndex tableName c).1 ++
          (exportLoop S scanAll dbName includeHeaders total (tableIndex + 1) rest
            (exportTable S scanAll dbName includeHeaders total tableIndex tableName c).2).1,
         (exportLoop S scanAll dbName includeHeaders total (tableIndex + 1) rest
            (exportTable S scanAll dbName includeHeaders total tableIndex tableName c).2).2) := by
  rw [exportLoop]

/-- A table whose row fetch fails writes nothing. -/
theorem exportTable_rowError {σ : Type} (S : Server σ)
    (scanAll : Rows → Except Bytes (List ColumnInfo)) (dbName : Bytes) (includeHeaders : Bool)
    (total tableIndex : Nat) (tableName : Bytes) (c : Conn σ) (e : DBError)
    (h : (GetTableDataAll S c dbName tableName).1 = .error e) :
    exportTable S scanAll dbName includeHeaders total tableIndex tableName c
      = ([], (GetTableDataAll S c dbName tableName).2) := by
  unfold exportTable
  generalize GetTableDataAll S c dbName tableName = r at h
  obtain ⟨res, c1⟩ := r
  simp only at h
  subst h
  rfl

/-- A table whose row fetch returns no row writes nothing, and its columns
are not fetched. -/
theorem exportTable_empty {σ : Type} (S : Server σ)
    (scanAll : Rows → Except Bytes (List ColumnInfo)) (dbName : Bytes) (includeHeaders : Bool)
    (total tableIndex : Nat) (tableName : Bytes) (c : Conn σ)
    (h : (GetTableDataAll S c dbName tableName).1 = .ok []) :
    exportTable S scanAll dbName includeHeaders total tableIndex tableName c
      = ([], (GetTableDataAll S c dbName tableName).2) := by
  unfold exportTable
  generalize GetTableDataAll S c dbName tableName = r at h
  obtain ⟨res, c1⟩ := r
  simp only at h
  subst h
  rfl

/-- A table whose column fetch fails writes nothing. -/
theorem exportTable_columnError {σ : Type} (S : Server σ)
    (scanAll : Rows → Except Bytes (List ColumnInfo)) (dbName : Bytes) (includeHeaders : Bool)
    (total tableIndex : Nat) (tableName : Bytes) (c : Conn σ) (data : List Row) (e : DBError)
    (hd : (GetTableDataAll S c dbName tableName).1 = .ok data)
    (he : (GetTableColumns S scanAll (GetTableDataAll S c dbName tableName).2 dbName
      tableName).1 = .error e) :
    exportTable S scanAll dbName includeHeaders total tableIndex tableName c
      = ([], (GetTableColumns S scanAll (GetTableDataAll S c dbName tableName).2 dbName
          tableName).2) ∨
    exportTable S scanAll dbName includeHeaders total tableIndex tableName c
      = ([], (GetTableDataAll S c dbName tableName).2) := by
  unfold exportTable
  generalize GetTableDataAll S c dbName tableName = r at hd he
  obtain ⟨res, c1⟩ := r
  simp only at hd he
  subst hd
  simp only
  split
  · exact Or.inr rfl
  · left
    generalize GetTableColumns S scanAll c1 dbName tableName = r2 at he
    obtain ⟨res2, c2⟩ := r2
    simp only at he
    subst he
    rfl

/-- A table whose row fetch returns at least one row and whose column fetch
succeeds writes the header, if asked for, then one record per row, then a
blank record unless it stands last in the list. -/
theorem exportTable_exported {σ : Type} (S : Server σ)
    (scanAll : Rows → Except Bytes (List ColumnInfo)) (dbName : Bytes) (includeHeaders : Bool)
    (total tableIndex : Nat) (tableName : Bytes) (c c1 c2 : Conn σ) (data : List Row)
    (columns : List ColumnInfo)
    (hd : GetTableDataAll S c dbName tableName = (.ok data, c1)) (hne : data ≠ [])
    (hc : GetTableColumns S scanAll c1 dbName tableName = (.ok columns, c2)) :
    exportTable S scanAll dbName includeHeaders total tableIndex tableName c
      = ((if includeHeaders then [columns.map (fun col => col.Field)] else [])
          ++ data.map (exportRecord (columns.map (fun col => col.Field)))
          ++ (if tableIndex < total - 1 then [[]] else []), c2) := by
  unfold exportTable
  rw [hd]
  simp only
  have hl : ¬ data.length = 0 := by
    intro h; exact hne (List.length_eq_zero.mp h)
  rw [if_neg hl, hc]

/-- Past its checks, `ExportData` ends with `nil`, whatever the fetches do. -/
theorem ExportData_done {σ : Type} (S : Server σ)
    (scanAll : Rows → Except Bytes (List ColumnInfo))
    (connect : ServerConfig → Except Bytes (Conn σ)) (settings : Settings)
    (req : ExportRequest) (server : ServerConfig) (dbConn : Conn σ) (comma : Byte)
    (hs : (GetServer settings req.serverID).1 = (some server, true))
    (hp : req.parseFormOk = true) (ht : req.tables ≠ [])
    (hc : connect server = .ok dbConn) (hd : exportComma req.delimiter = some comma) :
    ExportData S scanAll connect settings req
      = .done comma
          (exportLoop S scanAll req.dbName (decide (req.include_headers = ascii "true"))
            req.tables.length 0 req.tables dbConn).1
          (exportLoop S scanAll req.dbName (decide (req.include_headers = ascii "true"))
            req.tables.length 0 req.tables dbConn).2 := by
  unfold ExportData
  rw [hs]
  simp only [hp, if_true]
  have hl : ¬ req.tables.length = 0 := by
    intro h; exact ht (List.length_eq_zero.mp h)
  rw [if_neg hl, hc]
  simp only
  rw [hd]

/-- C22, the code at the failing input: the export of the tables `a` and
`b`, where `a` has one row and `b` none. The table `a` is not last in the
list, so its records are followed by the blank record; `b` is skipped; the
output ends with the blank record. The same happens when the second table
cannot be fetched. -/
theorem export_trailing_blank :
    (GetTableDataAll exportServer newConn (ascii "db") (ascii "b")).1 = .ok [] ∧
    (ExportData exportServer scanFields connectOk sampleStore.settings exportRequest).records
      = some [[ascii "id"], [ascii "1"], []] ∧
    (GetTableDataAll exportServer newConn (ascii "db") (ascii "zz")).1
      = .error (.driver (ascii "no such table")) ∧
    (ExportData exportServer scanFields connectOk sampleStore.settings
      { exportRequest with tables := [ascii "a", ascii "zz"] }).records
      = some [[ascii "id"], [ascii "1"], []] := by
  decide

/-- C23 (amended). With headers enabled, a listed table whose row fetch
returns at least one row and whose column fetch succeeds writes one header
record with its column names in the order of the column fetch, then one
record per fetched row, then the blank record if it is not last in the
list; the records of the later tables follow. A table whose row fetch
returns no row writes nothing, not even a header. -/
theorem export_headers {σ : Type} (S : Server σ)
    (scanAll : Rows → Except Bytes (List ColumnInfo)) (dbName : Bytes)
    (total tableIndex : Nat) (tableName : Bytes) (rest : List Bytes) (c c1 c2 : Conn σ)
    (data : List Row) (columns : List ColumnInfo)
    (hd : GetTableDataAll S c dbName tableName = (.ok data, c1)) (hne : data ≠ [])
    (hc : GetTableColumns S scanAll c1 dbName tableName = (.ok columns, c2)) :
    (exportTable S scanAll dbName true total tableIndex tableName c).1
      = columns.map (fun col => col.Field)
          :: (data.map (exportRecord (columns.map (fun col => col.Field)))
              ++ (if tableIndex < total - 1 then [[]] else [])) ∧
    (data.map (exportRecord (columns.map (fun col => col.Field)))).length = data.length ∧
    (exportLoop S scanAll dbName true total tableIndex (tableName :: rest) c).1
      = (exportTable S scanAll dbName true total tableIndex tableName c).1
          ++ (exportLoop S scanAll dbName true total (tableIndex + 1) rest c2).1 ∧
    (∀ c0 : Conn σ, (GetTableDataAll S c0 dbName tableName).1 = .ok [] →
      (exportTable S scanAll dbName true total tableIndex tableName c0).1 = []) := by
  have h := exportTable_exported S scanAll dbName true total tableIndex tableName c c1 c2 data
    columns hd hne hc
  refine ⟨?_, by simp, ?_, ?_⟩
  · rw [h]
    simp
  · rw [exportLoop_cons, h]
  · intro c0 h0
    rw [exportTable_empty S scanAll dbName true total tableIndex tableName c0 h0]

/-- C23, witness: the table `a`, first of two. -/
theorem export_headers_witness :
    GetTableDataAll exportServer newConn (ascii "db") (ascii "a")
      = (.ok [[(ascii "id", .str (ascii "1"))]],
          (GetTableDataAll exportServer newConn (ascii "db") (ascii "a")).2) ∧
    (exportTable exportServer scanFields (ascii "db") true 2 0 (ascii "a") newConn).1
      = [[ascii "id"], [ascii "1"], []] ∧
    (exportTable exportServer scanFields (ascii "db") true 2 0 (ascii "a") newConn).1
      = [ascii "id"]
          :: ([[(ascii "id", Value.str (ascii "1"))]].map (exportRecord [ascii "id"])
              ++ (if 0 < 2 - 1 then [[]] else [])) :=
  ⟨rfl, by decide,
    (export_headers exportServer scanFields (ascii "db") 2 0 (ascii "a") [ascii "b"] newConn
      (GetTableDataAll exportServer newConn (ascii "db") (ascii "a")).2
      (GetTableColumns exportServer scanFields
        (GetTableDataAll exportServer newConn (ascii "db") (ascii "a")).2 (ascii "db")
        (ascii "a")).2
      [[(ascii "id", .str (ascii "1"))]]
      [{ Field := ascii "id", Typ := [], Null := [], Key := [], Default := none, Extra := [] }]
      rfl (by decide) rfl).1⟩

/-- C23, counterexample: the table `b` has no row; its row fetch succeeds
with zero rows and its column fetch would succeed with the column `id`.
With headers enabled the export of `b` writes no record, not the header. -/
theorem export_headers_empty_counterexample :
    (GetTableDataAll exportServer newConn (ascii "db") (ascii "b")).1 = .ok [] ∧
    (GetTableColumns exportServer scanFields newConn (ascii "db") (ascii "b")).1
      = .ok [{ Field := ascii "id", Typ := [], Null := [], Key := [], Default := none,
               Extra := [] }] ∧
    decide (exportRequest.include_headers = ascii "true") = true ∧
    (ExportData exportServer scanFields connectOk sampleStore.settings
      { exportRequest with tables := [ascii "b"] }).records = some [] := by
  decide

/-! ### The export, table by table -/

theorem connBefore_succ {σ : Type} (S : Server σ)
    (scanAll : Rows → Except Bytes (List ColumnInfo)) (dbName : Bytes) (includeHeaders : Bool)
    (tables : List Bytes) (c : Conn σ) (k : Nat) (t : Bytes) (hk : tables[k]? = some t) :
    connBefore S scanAll dbName includeHeaders tables c (k + 1)
      = (exportTable S scanAll dbName includeHeaders tables.length k t
          (connBefore S scanAll dbName includeHeaders tables c k)).2 := by
  rw [connBefore, hk]

theorem tableRecordsAt_some {σ : Type} (S : Server σ)
    (scanAll : Rows → Except Bytes (List ColumnInfo)) (dbName : Bytes) (includeHeaders : Bool)
    (tables : List Bytes) (c : Conn σ) (k : Nat) (t : Bytes) (hk : tables[k]? = some t) :
    tableRecordsAt S scanAll dbName includeHeaders tables c k
      = (exportTable S scanAll dbName includeHeaders tables.length k t
          (connBefore S scanAll dbName includeHeaders tables c k)).1 := by
  rw [tableRecordsAt, hk]

/-- The loop from position `pre.length` on writes, for each table still to
come, the records of the loop body at the connection reached, in the order
of the list. -/
theorem exportLoop_range {σ : Type} (S : Server σ)
    (scanAll : Rows → Except Bytes (List ColumnInfo)) (dbName : Bytes) (includeHeaders : Bool)
    (tables : List Bytes) (c : Conn σ) :
    ∀ (rest pre : List Bytes), tables = pre ++ rest →
      exportLoop S scanAll dbName includeHeaders tables.length pre.length rest
          (connBefore S scanAll dbName includeHeaders tables c pre.length)
        = (((List.range' pre.length rest.length).map
              (tableRecordsAt S scanAll dbName includeHeaders tables c)).flatten,
            connBefore S scanAll dbName includeHeaders tables c tables.length) := by
  intro rest
  induction rest with
  | nil =>
    intro pre h
    rw [h]
    simp [exportLoop]
  | cons t rest ih =>
    intro pre h
    have hk : tables[pre.length]? = some t := by
      rw [h, List.getElem?_append_right (le_refl _)]; simp
    have h2 : tables = (pre ++ [t]) ++ rest := by rw [h]; simp
    have ih2 := ih (pre ++ [t]) h2
    rw [List.length_append, List.length_singleton] at ih2
    rw [exportLoop_cons, ← connBefore_succ S scanAll dbName includeHeaders tables c _ t hk, ih2,
      ← tableRecordsAt_some S scanAll dbName includeHeaders tables c _ t hk]
    simp [List.range'_succ]


/-- A table whose row fetch fails, or whose column fetch fails, writes no
record. -/
theorem exportTable_failed {σ : Type} (S : Server σ)
    (scanAll : Rows → Except Bytes (List ColumnInfo)) (dbName : Bytes) (includeHeaders : Bool)
    (total tableIndex : Nat) (tableName : Bytes) (c : Conn σ)
    (hfail : (∃ e, (GetTableDataAll S c dbName tableName).1 = .error e) ∨
      (∃ data e, (GetTableDataAll S c dbName tableName).1 = .ok data ∧
        (GetTableColumns S scanAll (GetTableDataAll S c dbName tableName).2 dbName
          tableName).1 = .error e)) :
    (exportTable S scanAll dbName includeHeaders total tableIndex tableName c).1 = [] := by
  rcases hfail with ⟨e, he⟩ | ⟨data, e, hd, he⟩
  · rw [exportTable_rowError S scanAll dbName includeHeaders total tableIndex tableName c e he]
  · rcases exportTable_columnError S scanAll dbName includeHeaders total tableIndex tableName c
      data e hd he with h | h
    · rw [h]
    · rw [h]

/-- C24. Let the request pass the initial checks of `ExportData`, and let
the table at position `k` of its list fail, at the connection with which
the loop reaches it, in its row fetch or in its column fetch. Then the loop
body writes no record for that table (no header, no row, no blank record);
`ExportData` ends with `nil`; and the records written are, in the order of
the list, the records of the tables before position `k` followed by the
records of every table after position `k`, each as the loop body writes
them at the connection reached. -/
theorem export_skips_failed {σ : Type} (S : Server σ)
    (scanAll : Rows → Except Bytes (List ColumnInfo))
    (connect : ServerConfig → Except Bytes (Conn σ)) (settings : Settings)
    (req : ExportRequest) (server : ServerConfig) (dbConn : Conn σ) (comma : Byte)
    (hs : (GetServer settings req.serverID).1 = (some server, true))
    (hp : req.parseFormOk = true) (hc : connect server = .ok dbConn)
    (hd : exportComma req.delimiter = some comma)
    (k : Nat) (t : Bytes) (hk : req.tables[k]? = some t)
    (hfail :
      (∃ e, (GetTableDataAll S
          (connBefore S scanAll req.dbName (decide (req.include_headers = ascii "true"))
            req.tables dbConn k) req.dbName t).1 = .error e) ∨
      (∃ data e, (GetTableDataAll S
          (connBefore S scanAll req.dbName (decide (req.include_headers = ascii "true"))
            req.tables dbConn k) req.dbName t).1 = .ok data ∧
        (GetTableColumns S scanAll (GetTableDataAll S
          (connBefore S scanAll req.dbName (decide (req.include_headers = ascii "true"))
            req.tables dbConn k) req.dbName t).2 req.dbName t).1 = .error e)) :
    (exportTable S scanAll req.dbName (decide (req.include_headers = ascii "true"))
      req.tables.length k t
      (connBefore S scanAll req.dbName (decide (req.include_headers = ascii "true"))
        req.tables dbConn k)).1 = [] ∧
    ExportData S scanAll connect settings req
      = .done comma
          (((List.range k).map
              (tableRecordsAt S scanAll req.dbName (decide (req.include_headers = ascii "true"))
                req.tables dbConn)).flatten ++
            ((List.range' (k + 1) (req.tables.length - (k + 1))).map
              (tableRecordsAt S scanAll req.dbName (decide (req.include_headers = ascii "true"))
                req.tables dbConn)).flatten)
          (connBefore S scanAll req.dbName (decide (req.include_headers = ascii "true"))
            req.tables dbConn req.tables.length) ∧
    (∀ (j : Nat) (later : Bytes), k < j → req.tables[j]? = some later →
      ∀ record ∈ (exportTable S scanAll req.dbName (decide (req.include_headers = ascii "true"))
          req.tables.length j later
          (connBefore S scanAll req.dbName (decide (req.include_headers = ascii "true"))
            req.tables dbConn j)).1,
        ∃ records, (ExportData S scanAll connect settings req).records = some records ∧
          record ∈ records) := by
  have hlen : k < req.tables.length := (List.getElem?_eq_some_iff.mp hk).1
  have ht : req.tables ≠ [] := by
    intro h; rw [h] at hlen; exact Nat.not_lt_zero _ hlen
  have hnil := exportTable_failed S scanAll req.dbName (decide (req.include_headers = ascii "true"))
    req.tables.length k t _ hfail
  have hdone := ExportData_done S scanAll connect settings req server dbConn comma hs hp ht hc hd
  have hloop := exportLoop_range S scanAll req.dbName (decide (req.include_headers = ascii "true"))
    req.tables dbConn req.tables [] rfl
  simp only [List.length_nil, connBefore] at hloop
  have hsplit : List.range' 0 req.tables.length
      = List.range k ++ k :: List.range' (k + 1) (req.tables.length - (k + 1)) := by
    have e : req.tables.length = (req.tables.length - (k + 1) + 1) + k := by omega
    have h := List.range'_append_1 0 k (req.tables.length - (k + 1) + 1)
    rw [← e, Nat.zero_add, List.range'_succ] at h
    rw [← h, List.range_eq_range']
  have hrec : ((List.range' 0 req.tables.length).map
      (tableRecordsAt S scanAll req.dbName (decide (req.include_headers = ascii "true"))
        req.tables dbConn)).flatten
      = ((List.range k).map
          (tableRecordsAt S scanAll req.dbName (decide (req.include_headers = ascii "true"))
            req.tables dbConn)).flatten ++
        ((List.range' (k + 1) (req.tables.length - (k + 1))).map
          (tableRecordsAt S scanAll req.dbName (decide (req.include_headers = ascii "true"))
            req.tables dbConn)).flatten := by
    rw [hsplit, List.map_append, List.map_cons, List.flatten_append, List.flatten_cons,
      tableRecordsAt_some S scanAll req.dbName _ req.tables dbConn k t hk, hnil, List.nil_append]
  have hfull : ExportData S scanAll connect settings req
      = .done comma
          (((List.range k).map
              (tableRecordsAt S scanAll req.dbName (decide (req.include_headers = ascii "true"))
                req.tables dbConn)).flatten ++
            ((List.range' (k + 1) (req.tables.length - (k + 1))).map
              (tableRecordsAt S scanAll req.dbName (decide (req.include_headers = ascii "true"))
                req.tables dbConn)).flatten)
          (connBefore S scanAll req.dbName (decide (req.include_headers = ascii "true"))
            req.tables dbConn req.tables.length) := by
    rw [hdone, hloop, hrec]
  refine ⟨hnil, hfull, ?_⟩
  intro j later hj hjl record hmem
  have hjlen : j < req.tables.length := (List.getElem?_eq_some_iff.mp hjl).1
  refine ⟨_, by rw [hfull]; rfl, ?_⟩
  apply List.mem_append_right
  rw [List.mem_flatten]
  refine ⟨_, List.mem_map.mpr ⟨j, ?_, rfl⟩, ?_⟩
  · rw [List.mem_range'_1]; omega
  · rw [tableRecordsAt_some S scanAll req.dbName _ req.tables dbConn j later hjl]
    exact hmem


/-- C24, witness: the export of the tables `zz`, `v` and `items`. The row
fetch of `zz` fails, the column fetch of `v` fails after its row fetch gave
one row, and `items`, the last table of the list, is exported after both:
the records written are its header and its two rows. -/
theorem export_skips_failed_witness :
    (GetTableDataAll inventoryServer
      (connBefore inventoryServer scanFields (ascii "db") true inventoryRequest.tables newConn 0)
      (ascii "db") (ascii "zz")).1 = .error (.driver (ascii "no such table")) ∧
    (GetTableDataAll inventoryServer
      (connBefore inventoryServer scanFields (ascii "db") true inventoryRequest.tables newConn 1)
      (ascii "db") (ascii "v")).1 = .ok [[(ascii "id", .str (ascii "9"))]] ∧
    (GetTableColumns inventoryServer scanFields
      (GetTableDataAll inventoryServer
        (connBefore inventoryServer scanFields (ascii "db") true inventoryRequest.tables
          newConn 1) (ascii "db") (ascii "v")).2
      (ascii "db") (ascii "v")).1 = .error (.driver (ascii "no such table")) ∧
    (exportTable inventoryServer scanFields (ascii "db") true 3 2 (ascii "items")
      (connBefore inventoryServer scanFields (ascii "db") true inventoryRequest.tables
        newConn 2)).1
      = [[ascii "id", ascii "name", ascii "note", ascii "qty"],
         [ascii "1", ascii "ann", ascii "<nil>", ascii "42"],
         [ascii "2", ascii "bob", ascii "", ascii "-7"]] ∧
    (ExportData inventoryServer scanFields connectOk sampleStore.settings
      inventoryRequest).records
      = some [[ascii "id", ascii "name", ascii "note", ascii "qty"],
              [ascii "1", ascii "ann", ascii "<nil>", ascii "42"],
              [ascii "2", ascii "bob", ascii "", ascii "-7"]] ∧
    ExportData inventoryServer scanFields connectOk sampleStore.settings inventoryRequest
      = .done 44
          (((List.range 0).map
              (tableRecordsAt inventoryServer scanFields (ascii "db") true
                inventoryRequest.tables newConn)).flatten ++
            ((List.range' 1 2).map
              (tableRecordsAt inventoryServer scanFields (ascii "db") true
                inventoryRequest.tables newConn)).flatten)
          (connBefore inventoryServer scanFields (ascii "db") true inventoryRequest.tables
            newConn 3) ∧
    ExportData inventoryServer scanFields connectOk sampleStore.settings inventoryRequest
      = .done 44
          (((List.range 1).map
              (tableRecordsAt inventoryServer scanFields (ascii "db") true
                inventoryRequest.tables newConn)).flatten ++
            ((List.range' 2 1).map
              (tableRecordsAt inventoryServer scanFields (ascii "db") true
                inventoryRequest.tables newConn)).flatten)
          (connBefore inventoryServer scanFields (ascii "db") true inventoryRequest.tables
            newConn 3) :=
  ⟨by decide, by decide, by decide, by decide, by decide,
    (export_skips_failed inventoryServer scanFields connectOk sampleStore.settings
      inventoryRequest sampleServer newConn 44 (by decide) rfl rfl (by decide) 0 (ascii "zz")
      (by decide) (Or.inl ⟨.driver (ascii "no such table"), by decide⟩)).2.1,
    (export_skips_failed inventoryServer scanFields connectOk sampleStore.settings
      inventoryRequest sampleServer newConn 44 (by decide) rfl rfl (by decide) 1 (ascii "v")
      (by decide) (Or.inr ⟨[[(ascii "id", .str (ascii "9"))]],
        .driver (ascii "no such table"), by decide, by decide⟩)).2.1⟩

/-- A value that `displayRow` has handled is not a byte slice. -/
theorem lookup_displayRow (row : Row) (name b : Bytes) :
    (displayRow row).lookup name ≠ some (.bytes b) := by
  induction row with
  | nil => simp [displayRow]
  | cons kv rest ih =>
    obtain ⟨key, val⟩ := kv
    unfold displayRow at ih ⊢
    rw [List.map_cons]
    cases val <;>
    · simp only [List.lookup_cons]
      split
      · simp
      · exact ih

/-- Every row that the scan loop returns went through `displayRow`. -/
theorem scanRows_display :
    ∀ (scans : List (Except Bytes Row)) (results : List Row), scanRows scans = .ok results →
      ∀ row ∈ results, ∃ raw, row = displayRow raw := by
  intro scans
  induction scans with
  | nil =>
    intro results h row hrow
    simp only [scanRows, Except.ok.injEq] at h
    subst h
    simp at hrow
  | cons s rest ih =>
    intro results h row hrow
    cases s with
    | error e => simp [scanRows] at h
    | ok raw =>
      simp only [scanRows] at h
      cases hr : scanRows rest with
      | error e => rw [hr] at h; simp at h
      | ok more =>
        rw [hr] at h
        simp only [Except.ok.injEq] at h
        subst h
        rcases List.mem_cons.mp hrow with h1 | h1
        · exact ⟨raw, h1⟩
        · exact ih more hr row h1

/-- No row that `GetTableDataAll` returns holds a byte slice. -/
theorem GetTableDataAll_display {σ : Type} (S : Server σ) (c c1 : Conn σ)
    (database tableName : Bytes) (data : List Row)
    (hd : GetTableDataAll S c database tableName = (.ok data, c1)) :
    ∀ row ∈ data, ∀ name b, row.lookup name ≠ some (.bytes b) := by
  intro row hrow name b
  unfold GetTableDataAll at hd
  split at hd
  · simp at hd
  · split at hd
    · simp at hd
    · split at hd
      · simp at hd
      · rename_i results hs
        simp only [Prod.mk.injEq, Except.ok.injEq] at hd
        obtain ⟨raw, hraw⟩ := scanRows_display _ results hs row (hd.1 ▸ hrow)
        rw [hraw]
        exact lookup_displayRow raw name b


/-- C25. For a table that is exported, with the columns `c1 .. cn` of its
column fetch: after the header record, if there is one, the output holds
one record per fetched row, in the order of the rows, and then only the
blank record, if any. The record of a row has exactly `n` fields, and its
field `j` is the text of the value that the row holds for column `cj`: the
string itself for a string (a byte slice of the driver has become a string
in the row fetch, so no row holds one), `<nil>` for NULL and for a column
that the row does not hold, the decimal digits for an integer, and the `%v`
text for a value of another type. -/
theorem export_records {σ : Type} (S : Server σ)
    (scanAll : Rows → Except Bytes (List ColumnInfo)) (dbName : Bytes) (includeHeaders : Bool)
    (total tableIndex : Nat) (tableName : Bytes) (c c1 c2 : Conn σ) (data : List Row)
    (columns : List ColumnInfo)
    (hd : GetTableDataAll S c dbName tableName = (.ok data, c1)) (hne : data ≠ [])
    (hc : GetTableColumns S scanAll c1 dbName tableName = (.ok columns, c2)) :
    (exportTable S scanAll dbName includeHeaders total tableIndex tableName c).1.length
      = (if includeHeaders then 1 else 0) + data.length
          + (if tableIndex < total - 1 then 1 else 0) ∧
    (∀ (k : Nat) (row : Row), data[k]? = some row →
      ∃ record : List Bytes,
        (exportTable S scanAll dbName includeHeaders total tableIndex tableName c).1[
          (if includeHeaders then 1 else 0) + k]? = some record ∧
        record.length = columns.length ∧
        ∀ (j : Nat) (col : ColumnInfo), columns[j]? = some col →
          (∀ s, row.lookup col.Field = some (.str s) → record[j]? = some s) ∧
          (row.lookup col.Field = some .null → record[j]? = some (ascii "<nil>")) ∧
          (row.lookup col.Field = none → record[j]? = some (ascii "<nil>")) ∧
          (∀ n, row.lookup col.Field = some (.int n) → record[j]? = some (formatInt n)) ∧
          (∀ text, row.lookup col.Field = some (.other text) → record[j]? = some text) ∧
          (∀ b, row.lookup col.Field ≠ some (.bytes b))) := by
  have h := exportTable_exported S scanAll dbName includeHeaders total tableIndex tableName c c1
    c2 data columns hd hne hc
  have hnb := GetTableDataAll_display S c c1 dbName tableName data hd
  rw [h]
  refine ⟨?_, ?_⟩
  · cases includeHeaders <;> simp <;> split <;> simp <;> omega
  · intro k row hk
    have hklt : k < data.length := (List.getElem?_eq_some_iff.mp hk).1
    refine ⟨exportRecord (columns.map (fun col => col.Field)) row, ?_, by simp [exportRecord], ?_⟩
    · have hh : (if includeHeaders = true then [columns.map (fun col => col.Field)] else []).length
          = (if includeHeaders = true then 1 else 0) := by
        cases includeHeaders <;> rfl
      rw [List.append_assoc, ← hh, List.getElem?_append_right (Nat.le_add_right _ _),
        Nat.add_sub_cancel_left, List.getElem?_append_left (by simpa using hklt),
        List.getElem?_map, hk]
      rfl
    · intro j col hj
      have hf : (exportRecord (columns.map (fun col => col.Field)) row)[j]?
          = some (sprintV (row.lookup col.Field)) := by
        simp [exportRecord, hj]
      rw [hf]
      refine ⟨?_, ?_, ?_, ?_, ?_, ?_⟩
      · intro s hs; rw [hs]; rfl
      · intro hs; rw [hs]; rfl
      · intro hs; rw [hs]; rfl
      · intro n hs; rw [hs]; rfl
      · intro text hs; rw [hs]; rfl
      · intro b
        exact hnb row (List.getElem?_mem hk) col.Field b

/-- C25, witness: the table `items`, with four columns and two rows. The
texts `1` and `ann` come from byte slices of the driver, `<nil>` from a
NULL, the empty field from an empty byte slice, `42` and `-7` from
integers. -/
theorem export_records_witness :
    GetTableDataAll inventoryServer newConn (ascii "db") (ascii "items")
      = (.ok itemsRows,
          (GetTableDataAll inventoryServer newConn (ascii "db") (ascii "items")).2) ∧
    GetTableColumns inventoryServer scanFields
        (GetTableDataAll inventoryServer newConn (ascii "db") (ascii "items")).2 (ascii "db")
        (ascii "items")
      = (.ok itemsColumns,
          (GetTableColumns inventoryServer scanFields
            (GetTableDataAll inventoryServer newConn (ascii "db") (ascii "items")).2
            (ascii "db") (ascii "items")).2) ∧
    (exportTable inventoryServer scanFields (ascii "db") true 1 0 (ascii "items") newConn).1
      = [[ascii "id", ascii "name", ascii "note", ascii "qty"],
         [ascii "1", ascii "ann", ascii "<nil>", ascii "42"],
         [ascii "2", ascii "bob", ascii "", ascii "-7"]] ∧
    (exportTable inventoryServer scanFields (ascii "db") false 1 0 (ascii "items") newConn).1
      = [[ascii "1", ascii "ann", ascii "<nil>", ascii "42"],
         [ascii "2", ascii "bob", ascii "", ascii "-7"]] ∧
    itemsRows ≠ [] ∧
    (exportTable inventoryServer scanFields (ascii "db") true 1 0 (ascii "items")
      newConn).1.length = (if true = true then 1 else 0) + itemsRows.length
        + (if 0 < 1 - 1 then 1 else 0) ∧
    (∀ (k : Nat) (row : Row), itemsRows[k]? = some row →
      ∃ record : List Bytes,
        (exportTable inventoryServer scanFields (ascii "db") true 1 0 (ascii "items")
          newConn).1[(if true = true then 1 else 0) + k]? = some record ∧
        record.length = itemsColumns.length ∧
        ∀ (j : Nat) (col : ColumnInfo), itemsColumns[j]? = some col →
          (∀ s, row.lookup col.Field = some (.str s) → record[j]? = some s) ∧
          (row.lookup col.Field = some .null → record[j]? = some (ascii "<nil>")) ∧
          (row.lookup col.Field = none → record[j]? = some (ascii "<nil>")) ∧
          (∀ n, row.lookup col.Field = some (.int n) → record[j]? = some (formatInt n)) ∧
          (∀ text, row.lookup col.Field = some (.other text) → record[j]? = some text) ∧
          (∀ b, row.lookup col.Field ≠ some (.bytes b))) :=
  ⟨rfl, rfl, by decide, by decide, by decide,
    export_records inventoryServer scanFields (ascii "db") true 1 0 (ascii "items") newConn
      (GetTableDataAll inventoryServer newConn (ascii "db") (ascii "items")).2
      (GetTableColumns inventoryServer scanFields
        (GetTableDataAll inventoryServer newConn (ascii "db") (ascii "items")).2 (ascii "db")
        (ascii "items")).2
      itemsRows itemsColumns rfl (by decide) rfl⟩

/-- C27, the code at the failing input: the fallback literal has 31 bytes,
not 32. With no valid key stored and a random read that fails,
`GetEncryptionKey` returns, without an error and without a change to the
settings, a key of 32 bytes that is the literal followed by one zero byte:
the last byte of the key is padding of the zeroed buffer. -/
theorem fallback_key_padded :
    fallback.length = 31 ∧
    fallbackKey = fallback ++ [0] ∧
    fallbackKey.length = 32 ∧
    fallbackKey.getLast? = some 0 ∧
    fallbackKey ≠ fallback ∧
    (GetEncryptionKey (freshProcess [none])).1 = fallbackKey ∧
    (GetEncryptionKey (freshProcess [none])).2.settings = (freshProcess [none]).settings := by
  decide

/-- In the fallback branch `GetEncryptionKey` returns the fallback key
and leaves the settings as they are, in every state. -/
theorem GetEncryptionKey_fallback_settings (w : World) (hs : storedKey w.settings = none)
    (hr : (readFull w.rand 32).1 = none) :
    (GetEncryptionKey w).1 = fallbackKey ∧ (GetEncryptionKey w).2.settings = w.settings := by
  rw [GetEncryptionKey_fallback hs hr]
  exact ⟨rfl, rfl⟩

/-- C28, the code at the failing input: an export request that selects the
tables `a` and `b`, whose `delimiter` form value is empty, for a server that
is found and a connection that opens. The handler reads `delimiter[0]` of
the empty string and panics. For the two characters backslash and `t` the
delimiter is the tab, and for any other non-empty value its first byte. -/
theorem export_empty_delimiter_panics :
    exportComma [] = none ∧
    (ExportData exportServer scanFields connectOk sampleStore.settings
      { exportRequest with delimiter := [] }).isPanic = true ∧
    exportComma (ascii "\\t") = some 9 ∧
    (∀ (b : Byte) (rest : Bytes), b :: rest ≠ ascii "\\t" → exportComma (b :: rest) = some b) := by
  refine ⟨by decide, by decide, by decide, ?_⟩
  intro b rest h
  unfold exportComma
  rw [if_neg h]
  simp

end Godbadmin
